import Mathlib

/-!
Bogus control flow and integrity guard passes: embedding and properties.

A shallow embedding of the two LLVM passes of the repository
(`Bogus.cpp`, `IntegGuardCFGObf.cpp`).

* 32-bit integers (`int32_t` shadow values of the transformer and `i32` values of the
  emitted code) are bit patterns: natural numbers reduced modulo `2^32`, read as signed
  numbers where the operation is signed (`sdiv`, `srem`, `icmp sgt`, `control < 0`).
  Overflow wraps around, in the emitted code (LLVM `add`, `sub`, `mul` without flags) and
  in the shadow arithmetic of the transformer alike; division by zero and
  `INT_MIN / -1` have no result.
* The random sources (`rd`, `g`, `rand`) are one stream `rnd : Nat → Nat` read through a
  cursor `pos` that advances by one at every draw.
* A basic block is the list of its instructions; a function is the list of its blocks, a
  block being named by its position (block 0 is the entry); `BasicBlock::Create(.., &F)`
  appends a block.
* An instruction that yields a value carries a unique id (the pointer identity of LLVM),
  taken from the counter `next`.
* A function of the passes that can fail (`vector::at` on an empty vector, a null
  terminator, undefined shadow arithmetic) returns an `Option`.
-/

set_option linter.constructorNameAsVariable false

namespace Obf

/-! ## 32-bit machine words -/

/-- Signed reading of a 32-bit pattern. -/
def toInt (w : Nat) : Int :=
  if w % 4294967296 < 2147483648 then ((w % 4294967296 : Nat) : Int)
  else ((w % 4294967296 : Nat) : Int) - 4294967296

/-- The 32-bit pattern of an integer. -/
def ofInt (i : Int) : Nat := (i % 4294967296).toNat

def add32 (a b : Nat) : Nat := (a + b) % 4294967296

def sub32 (a b : Nat) : Nat := (a % 4294967296 + (4294967296 - b % 4294967296)) % 4294967296

def mul32 (a b : Nat) : Nat := (a * b) % 4294967296

def xor32 (a b : Nat) : Nat := (a ^^^ b) % 4294967296

def or32 (a b : Nat) : Nat := (a ||| b) % 4294967296

def and32 (a b : Nat) : Nat := (a &&& b) % 4294967296

/-- Signed division, truncating; no result for a zero divisor and for `INT_MIN / -1`
(undefined in C++ and in LLVM alike). -/
def sdiv32 (a b : Nat) : Option Nat :=
  if toInt b = 0 then none
  else if toInt a = -2147483648 ∧ toInt b = -1 then none
  else some (ofInt (Int.tdiv (toInt a) (toInt b)))

/-- Signed remainder, truncating; undefined exactly where `sdiv32` is. -/
def srem32 (a b : Nat) : Option Nat :=
  if toInt b = 0 then none
  else if toInt a = -2147483648 ∧ toInt b = -1 then none
  else some (ofInt (Int.tmod (toInt a) (toInt b)))

/-! ## Random sources -/

/-- One call of `rd()`: an unsigned 32-bit number. -/
def rd (rnd : Nat → Nat) (pos : Nat) : Nat := rnd pos % 4294967296

/-- The distribution `dist16(0, INT16_MAX)`. -/
def dist16 (rnd : Nat → Nat) (pos : Nat) : Nat := rnd pos % 32768

/-- The distribution `dist8(2, INT8_MAX)`. -/
def dist8 (rnd : Nat → Nat) (pos : Nat) : Nat := 2 + rnd pos % 126

/-! ## Instructions -/

/-- Module-level storage cells: the scratch pool of the bogus-flow pass (`globals[i]`) and
the three named cells of the integrity pass. -/
inductive Global where
  | scratch (i : Nat)
  | guard
  | expected
  | zeroVar
deriving DecidableEq, Repr

/-- Operands. -/
inductive Val where
  | const (c : Nat)
  | reg (id : Nat)
  | global (g : Global)
deriving DecidableEq, Repr

inductive BinOp where
  | add | sub | mul | sdiv | srem | xor | or | and
deriving DecidableEq, Repr

inductive Pred where
  | sgt | ne | eq
deriving DecidableEq, Repr

/-- Instructions. `other` stands for any non-terminator of the input program that the
passes do not look into, `otherTerm` for any terminator other than the named ones
(with its successor list). -/
inductive Inst where
  | phi (id : Nat)
  | alloca (id : Nat)
  | load (id : Nat) (ptr : Val) (vol : Bool)
  | store (v : Val) (ptr : Val) (vol : Bool)
  | binop (id : Nat) (op : BinOp) (a b : Val)
  | icmp (id : Nat) (p : Pred) (a b : Val)
  | call (callee : String)
  | other
  | br (t : Nat)
  | condBr (c : Val) (t f : Nat)
  | ret
  | unreachable
  | resume
  | otherTerm (succs : List Nat)
deriving DecidableEq, Repr

def Inst.isTerminator : Inst → Bool
  | .br _ => true
  | .condBr _ _ _ => true
  | .ret => true
  | .unreachable => true
  | .resume => true
  | .otherTerm _ => true
  | _ => false

def Inst.isPHI : Inst → Bool
  | .phi _ => true
  | _ => false

/-- Successor blocks of an instruction, in the order of `getSuccessor(i)`. -/
def Inst.successors : Inst → List Nat
  | .br t => [t]
  | .condBr _ t f => [t, f]
  | .otherTerm s => s
  | _ => []

/-! ## Execution of emitted code -/

/-- Run-time state: the value of every computed SSA id, the contents of the stack slots
(by the id of their `alloca`) and of the global cells. -/
structure Machine where
  regs : Nat → Option Nat
  slots : Nat → Option Nat
  globals : Global → Nat

def Machine.setReg (m : Machine) (id v : Nat) : Machine :=
  { m with regs := fun i => if i = id then some v else m.regs i }

def Machine.setSlot (m : Machine) (id v : Nat) : Machine :=
  { m with slots := fun i => if i = id then some v else m.slots i }

def Machine.setGlobal (m : Machine) (g : Global) (v : Nat) : Machine :=
  { m with globals := fun h => if h = g then v else m.globals h }

/-- Integer value of an operand. -/
def Machine.eval (m : Machine) : Val → Option Nat
  | .const c => some (c % 4294967296)
  | .reg id => m.regs id
  | .global _ => none

def evalBinOp : BinOp → Nat → Nat → Option Nat
  | .add, a, b => some (add32 a b)
  | .sub, a, b => some (sub32 a b)
  | .mul, a, b => some (mul32 a b)
  | .sdiv, a, b => sdiv32 a b
  | .srem, a, b => srem32 a b
  | .xor, a, b => some (xor32 a b)
  | .or, a, b => some (or32 a b)
  | .and, a, b => some (and32 a b)

def evalPred : Pred → Nat → Nat → Bool
  | .sgt, a, b => decide (toInt b < toInt a)
  | .ne, a, b => decide (a % 4294967296 ≠ b % 4294967296)
  | .eq, a, b => decide (a % 4294967296 = b % 4294967296)

/-- One non-terminator instruction; `none` where the behaviour is undefined or the
instruction is not interpreted. -/
def Machine.step (m : Machine) : Inst → Option Machine
  | .alloca _ => some m
  | .load id (.reg a) _ => (m.slots a).map (m.setReg id)
  | .load id (.global g) _ => some (m.setReg id (m.globals g))
  | .store v (.reg a) _ => (m.eval v).map (m.setSlot a)
  | .store v (.global g) _ => (m.eval v).map (m.setGlobal g)
  | .binop id op a b =>
    match m.eval a, m.eval b with
    | some x, some y => (evalBinOp op x y).map (m.setReg id)
    | _, _ => none
  | .icmp id p a b =>
    match m.eval a, m.eval b with
    | some x, some y => some (m.setReg id (if evalPred p x y then 1 else 0))
    | _, _ => none
  | _ => none

/-- Run a block body: the state at its end and the successor its terminator picks. -/
def Machine.run (m : Machine) : List Inst → Option (Machine × Option Nat)
  | [] => some (m, none)
  | .br t :: _ => some (m, some t)
  | .condBr c t f :: _ =>
    match m.eval c with
    | some v => some (m, some (if v = 0 then f else t))
    | none => none
  | .ret :: _ => some (m, none)
  | .unreachable :: _ => none
  | .resume :: _ => some (m, none)
  | .otherTerm _ :: _ => none
  | i :: rest =>
    match m.step i with
    | some m1 => m1.run rest
    | none => none

/-- Initial run-time state: nothing computed, no slot written, the given globals. -/
def Machine.init (globals : Global → Nat) : Machine :=
  { regs := fun _ => none, slots := fun _ => none, globals := globals }

/-! ## Code generation state -/

/-- An `IRBuilder` at work: the random cursor, the id counter and the instructions it has
emitted so far, in order, at its insertion point. -/
structure Gen where
  pos : Nat
  next : Nat
  insts : List Inst
deriving Repr

/-- Append an instruction that yields a value. -/
def Gen.emit (g : Gen) (mk : Nat → Inst) : Val × Gen :=
  (.reg g.next, { g with next := g.next + 1, insts := g.insts ++ [mk g.next] })

/-- Append an instruction without a value. -/
def Gen.push (g : Gen) (i : Inst) : Gen :=
  { g with insts := g.insts ++ [i] }

/-- Advance the random cursor. -/
def Gen.drew (g : Gen) : Gen := { g with pos := g.pos + 1 }

/-- Function `getRandGlobal`: a uniformly chosen member of the scratch pool of size `ng`;
`globals.at` has no result on an empty pool. -/
def getRandGlobal (rnd : Nat → Nat) (ng : Nat) (pos : Nat) : Option Global :=
  if ng = 0 then none else some (.scratch (rnd pos % ng))

/-! ## Bogus.cpp: guard policy and random operations -/

/-- Function `ensureNot0`. -/
def ensureNot0 (rnd : Nat → Nat) (g : Gen) (value : Val) (control : Nat) : Gen × Val × Nat :=
  if control = 0 then
    let add := dist8 rnd g.pos
    let g := g.drew
    let control := add32 control add
    let (value, g) := g.emit (fun id => .binop id .add value (.const add))
    (g, value, control)
  else (g, value, control)

/-- Function `ensureGT0`. -/
def ensureGT0 (rnd : Nat → Nat) (g : Gen) (value : Val) (control : Nat) : Gen × Val × Nat :=
  let (g, value, control) := ensureNot0 rnd g value control
  if toInt control < 0 then
    let (value, g) := g.emit (fun id => .binop id .and value (.const 2147483647))
    (g, value, and32 control 2147483647)
  else (g, value, control)

/-- Loop state of `randomOperations`: the builder, the IR values `res`, `ly`, `lz` and the
shadow integers `control[1..3]`. -/
structure Loop where
  g : Gen
  res : Val
  ly : Val
  lz : Val
  control1 : Nat
  control2 : Nat
  control3 : Nat
deriving Repr

/-- One iteration of the loop of `randomOperations` (the `switch(rd()%NUMCHOICES)`). -/
def randomStep (rnd : Nat → Nat) (ng : Nat) (s : Loop) : Option Loop :=
  let choice := rd rnd s.g.pos % 17
  let g := s.g.drew
  match choice with
  | 0 =>
    let (res, g) := g.emit (fun id => .binop id .mul s.res s.ly)
    some { s with g := g, res := res, control3 := mul32 s.control3 s.control1 }
  | 1 =>
    let (res, g) := g.emit (fun id => .binop id .mul s.res s.lz)
    some { s with g := g, res := res, control3 := mul32 s.control3 s.control2 }
  | 2 =>
    let (g, lz, c2) := ensureNot0 rnd g s.lz s.control2
    let (res, g) := g.emit (fun id => .binop id .sdiv s.res lz)
    (sdiv32 s.control3 c2).map fun c3 =>
      { s with g := g, res := res, lz := lz, control2 := c2, control3 := c3 }
  | 3 =>
    let (g, ly, c1) := ensureNot0 rnd g s.ly s.control1
    let (res, g) := g.emit (fun id => .binop id .sdiv s.res ly)
    (sdiv32 s.control3 c1).map fun c3 =>
      { s with g := g, res := res, ly := ly, control1 := c1, control3 := c3 }
  | 4 =>
    let (res, g) := g.emit (fun id => .binop id .add s.res s.ly)
    some { s with g := g, res := res, control3 := add32 s.control3 s.control1 }
  | 5 =>
    let (res, g) := g.emit (fun id => .binop id .add s.res s.lz)
    some { s with g := g, res := res, control3 := add32 s.control3 s.control2 }
  | 6 =>
    let (res, g) := g.emit (fun id => .binop id .add s.res s.res)
    some { s with g := g, res := res, control3 := add32 s.control3 s.control3 }
  | 7 =>
    let (res, g) := g.emit (fun id => .binop id .sub s.res s.ly)
    some { s with g := g, res := res, control3 := sub32 s.control3 s.control1 }
  | 8 =>
    let (res, g) := g.emit (fun id => .binop id .sub s.res s.lz)
    some { s with g := g, res := res, control3 := sub32 s.control3 s.control2 }
  | 9 =>
    let modby := dist8 rnd g.pos
    let g := g.drew
    let (res, g) := g.emit (fun id => .binop id .srem s.res (.const modby))
    (srem32 s.control3 modby).map fun c3 =>
      { s with g := g, res := res, control3 := c3 }
  | 10 =>
    let (res, g) := g.emit (fun id => .binop id .xor s.res s.ly)
    some { s with g := g, res := res, control3 := xor32 s.control3 s.control1 }
  | 11 =>
    let (res, g) := g.emit (fun id => .binop id .xor s.res s.lz)
    some { s with g := g, res := res, control3 := xor32 s.control3 s.control2 }
  | 12 =>
    let (res, g) := g.emit (fun id => .binop id .or s.res s.ly)
    some { s with g := g, res := res, control3 := or32 s.control3 s.control1 }
  | 13 =>
    let (res, g) := g.emit (fun id => .binop id .or s.res s.lz)
    some { s with g := g, res := res, control3 := or32 s.control3 s.control2 }
  | 14 =>
    (getRandGlobal rnd ng g.pos).map fun tmp =>
      { s with g := (g.drew).push (.store s.res (.global tmp) true) }
  | 15 =>
    let randNumCtrl := 1 + rd rnd g.pos % 9
    let g := g.drew
    let (res, g) := g.emit (fun id => .binop id .add s.ly (.const randNumCtrl))
    some { s with g := g, res := res, control1 := add32 s.control1 randNumCtrl }
  | 16 =>
    let randNumCtrl := 1 + rd rnd g.pos % 9
    let g := g.drew
    let (res, g) := g.emit (fun id => .binop id .add s.lz (.const randNumCtrl))
    some { s with g := g, res := res, control2 := add32 s.control2 randNumCtrl }
  | _ => some { s with g := g }

/-- The `for` loop of `randomOperations`. -/
def randomLoop (rnd : Nat → Nat) (ng : Nat) : Nat → Loop → Option Loop
  | 0, s => some s
  | n + 1, s =>
    match randomStep rnd ng s with
    | some s1 => randomLoop rnd ng n s1
    | none => none

/-- Start of `randomOperations`: the three draws, the three stack slots with their
stores and the three loads; `control[3] = control[0]`. -/
def randomInit (rnd : Nat → Nat) (g : Gen) : Loop :=
  let control0 := dist16 rnd g.pos
  let control1 := dist8 rnd (g.pos + 1)
  let control2 := dist8 rnd (g.pos + 2)
  let g := { g with pos := g.pos + 3 }
  let (x, g) := g.emit .alloca
  let g := g.push (.store (.const control0) x false)
  let (y, g) := g.emit .alloca
  let g := g.push (.store (.const control1) y false)
  let (z, g) := g.emit .alloca
  let g := g.push (.store (.const control2) z false)
  let (res, g) := g.emit (fun id => .load id x false)
  let (ly, g) := g.emit (fun id => .load id y false)
  let (lz, g) := g.emit (fun id => .load id z false)
  { g := g, res := res, ly := ly, lz := lz,
    control1 := control1, control2 := control2, control3 := control0 }

/-- Function `BogusFlow::randomOperations` with the builder `g` on its block: the
builder afterwards, the returned `Value` and `controlVal`. No result where the
transformer's own shadow arithmetic is undefined or the scratch pool is empty. -/
def randomOperations (rnd : Nat → Nat) (ng : Nat) (g : Gen) (iterations : Nat) :
    Option (Gen × Val × Nat) :=
  match randomLoop rnd ng iterations (randomInit rnd g) with
  | some s =>
    let (g, res, controlVal) := ensureGT0 rnd s.g s.res s.control3
    some (g, res, controlVal)
  | none => none

/-- Run-time value of the `Value` returned by `randomOperations`, in a fresh block. -/
def runtimeResult (rnd : Nat → Nat) (ng : Nat) (iterations : Nat) (globals : Global → Nat) :
    Option Nat :=
  match randomOperations rnd ng { pos := 0, next := 0, insts := [] } iterations with
  | some (g, res, _) =>
    match (Machine.init globals).run g.insts with
    | some (m, _) => m.eval res
    | none => none
  | none => none

/-- The `controlVal` returned by `randomOperations`, in a fresh block. -/
def shadowResult (rnd : Nat → Nat) (ng : Nat) (iterations : Nat) : Option Nat :=
  (randomOperations rnd ng { pos := 0, next := 0, insts := [] } iterations).map
    fun r => r.2.2

/-! ## Functions and blocks -/

/-- A basic block: its name, the two exception-pad flags and its instructions. -/
structure BasicBlock where
  name : String
  isEHPad : Bool
  isLandingPad : Bool
  insts : List Inst
deriving DecidableEq, Repr

/-- Function `containsPHI`. -/
def containsPHI (B : BasicBlock) : Bool := B.insts.any Inst.isPHI

/-- Terminator of a block (`getTerminator`): the last instruction when it is a
terminator, null otherwise. -/
def getTerminator (B : BasicBlock) : Option Inst :=
  match B.insts.getLast? with
  | some i => if i.isTerminator then some i else none
  | none => none

/-- Successor blocks of a block. -/
def blockSuccessors (B : BasicBlock) : List Nat :=
  match getTerminator B with
  | some t => t.successors
  | none => []

/-- Apply `f` to the block at position `b`. -/
def updBlock (f : BasicBlock → BasicBlock) : Nat → List BasicBlock → List BasicBlock
  | _, [] => []
  | 0, B :: F => f B :: F
  | b + 1, B :: F => B :: updBlock f b F

/-- Append instructions at the end of block `b`. -/
def appendInsts (F : List BasicBlock) (b : Nat) (body : List Inst) : List BasicBlock :=
  updBlock (fun B => { B with insts := B.insts ++ body }) b F

/-- Instructions of block `b`. -/
def getInsts (F : List BasicBlock) (b : Nat) : List Inst :=
  match F[b]? with
  | some B => B.insts
  | none => []

/-- State of the bogus-flow transformation of one function: the blocks of `F`, the
candidate list `allBB`, the random cursor and the id counter. -/
structure FState where
  blocks : List BasicBlock
  allBB : List Nat
  pos : Nat
  next : Nat
deriving Repr

/-- Advance the random cursor. -/
def FState.drew (s : FState) : FState := { s with pos := s.pos + 1 }

/-- A fresh `IRBuilder` (nothing emitted yet). -/
def FState.gen (s : FState) : Gen :=
  { pos := s.pos, next := s.next, insts := [] }

/-- Place what a builder emitted at the end of block `b`. -/
def FState.putGen (s : FState) (b : Nat) (g : Gen) : FState :=
  { s with pos := g.pos, next := g.next, blocks := appendInsts s.blocks b g.insts }

/-- Append to block `b` an instruction that yields a value. -/
def FState.emitAt (s : FState) (b : Nat) (mk : Nat → Inst) : Val × FState :=
  (.reg s.next, { s with next := s.next + 1, blocks := appendInsts s.blocks b [mk s.next] })

/-- Append to block `b` an instruction without a value. -/
def FState.pushInst (s : FState) (b : Nat) (i : Inst) : FState :=
  { s with blocks := appendInsts s.blocks b [i] }

/-- A new, empty block. -/
def newBlock (name : String) : BasicBlock :=
  { name := name, isEHPad := false, isLandingPad := false, insts := [] }

/-- Call `BasicBlock::Create(ctx, name, &F)`: a new empty block at the end of `F`. -/
def FState.createBlock (s : FState) (name : String) : Nat × FState :=
  (s.blocks.length, { s with blocks := s.blocks ++ [newBlock name] })

/-- Call `allBB.push_back(b)`. -/
def FState.pushBB (s : FState) (b : Nat) : FState := { s with allBB := s.allBB ++ [b] }

/-- Call `B->getTerminator()->eraseFromParent()`. -/
def FState.eraseTerminator (s : FState) (b : Nat) : FState :=
  { s with blocks := updBlock (fun B => { B with insts := B.insts.dropLast }) b s.blocks }

/-! ## Bogus.cpp: fake flow and the splice -/

/-- The `switch(rd()%7)` of `genFakeFlow` on the block `block`, with the working value
`res` and the new block `leftBlock`; `recurse` is the recursive call
`genFakeFlow(rightBlock, F, allBB, numLvlsCp)`. -/
def fakeSwitch (rnd : Nat → Nat) (ng : Nat) (recurse : Nat → FState → Option FState)
    (block leftBlock : Nat) (res : Val) (s : FState) : Option FState :=
  let choice := rd rnd s.pos % 7
  let s := s.drew
  match choice with
  | 0 =>
    match getRandGlobal rnd ng s.pos with
    | none => none
    | some tmp =>
      let s := (s.drew).pushInst block (.store res (.global tmp) true)
      some (s.pushInst block (.br leftBlock))
  | 1 =>
    match getRandGlobal rnd ng s.pos with
    | none => none
    | some tmp =>
      let (tmpVal, s) := (s.drew).emitAt block (fun id => .load id (.global tmp) false)
      let (rightBlock, s) := s.createBlock "right"
      let s := s.pushBB rightBlock
      match recurse rightBlock s with
      | none => none
      | some s =>
        let (cmp, s) := s.emitAt block (fun id => .icmp id .sgt res tmpVal)
        some (s.pushInst block (.condBr cmp rightBlock leftBlock))
  | 2 =>
    let (rightBlock, s) := s.createBlock "right"
    let s := s.pushBB rightBlock
    match recurse rightBlock s with
    | none => none
    | some s =>
      let c := rd rnd s.pos
      let (cmp, s) := (s.drew).emitAt block (fun id => .icmp id .sgt res (.const c))
      some (s.pushInst block (.condBr cmp rightBlock leftBlock))
  | 3 =>
    let (rightBlock, s) := s.createBlock "right"
    let s := s.pushBB rightBlock
    match recurse rightBlock s with
    | none => none
    | some s =>
      let c := rd rnd s.pos
      let (cmp, s) := (s.drew).emitAt block (fun id => .icmp id .ne res (.const c))
      some (s.pushInst block (.condBr cmp rightBlock leftBlock))
  | 4 =>
    let (rightBlock, s) := s.createBlock "right"
    let s := s.pushBB rightBlock
    match recurse rightBlock s with
    | none => none
    | some s =>
      let c := rd rnd s.pos
      let (cmp, s) := (s.drew).emitAt block (fun id => .icmp id .eq res (.const c))
      some (s.pushInst block (.condBr cmp rightBlock leftBlock))
  | 5 =>
    let (rightBlock, s) := s.createBlock "right"
    let s := s.pushBB rightBlock
    match recurse rightBlock s with
    | none => none
    | some s =>
      let (cmp, s) := s.emitAt block (fun id => .icmp id .ne res (.const 0))
      some (s.pushInst block (.condBr cmp rightBlock leftBlock))
  | 6 =>
    let (rightBlock, s) := s.createBlock "right"
    let s := s.pushBB rightBlock
    match recurse rightBlock s with
    | none => none
    | some s =>
      let (cmp, s) := s.emitAt block (fun id => .icmp id .eq res (.const 0))
      some (s.pushInst block (.condBr cmp rightBlock leftBlock))
  | _ => some s

/-- Function `BogusFlow::genFakeFlow(block, F, allBB, numLevels)`. No result when the
candidate list is empty at the base case (`allBB.at`), when the scratch pool is empty
(`globals.at`) or when `randomOperations` has none. -/
def genFakeFlow (rnd : Nat → Nat) (ng : Nat) : Nat → Nat → FState → Option FState
  | 0, block, s =>
    match s.allBB[rnd s.pos % s.allBB.length]? with
    | none => none
    | some target => some ((s.drew).pushInst block (.br target))
  | numLevels + 1, block, s =>
    let iterations := rd rnd s.pos % 25
    let s := s.drew
    match randomOperations rnd ng s.gen iterations with
    | none => none
    | some (g, res, _) =>
      let s := s.putGen block g
      let (leftBlock, s) := s.createBlock "left"
      let s := s.pushBB leftBlock
      match fakeSwitch rnd ng (genFakeFlow rnd ng numLevels) block leftBlock res s with
      | none => none
      | some s => genFakeFlow rnd ng numLevels leftBlock s

/-- The blocks `runOnFunction` collects into `origBB`: those that are neither exception
pads nor landing pads and hold no PHI, by position, counted from `i`. -/
def collectFrom : Nat → List BasicBlock → List Nat
  | _, [] => []
  | i, B :: rest =>
    if B.isEHPad || B.isLandingPad || containsPHI B then collectFrom (i + 1) rest
    else i :: collectFrom (i + 1) rest

/-- Body of the loop `for(auto &B : origBB)` of `runOnFunction`. -/
def spliceStep (rnd : Nat → Nat) (ng : Nat) (s : FState) (changed : Bool) (B : Nat) :
    Option (FState × Bool) :=
  match s.blocks[B]? with
  | none => none
  | some blk =>
    match getTerminator blk with
    | none => none
    | some term =>
      match term.successors with
      | [] => some (s, changed)
      | [endSuccessor] =>
        if s.allBB.isEmpty then some (s, changed)
        else
          match s.blocks[endSuccessor]? with
          | none => none
          | some succBlk =>
            if containsPHI succBlk then some (s, changed)
            else
              let (predicateBlock, s) := s.createBlock "predicateBlock"
              let s := s.eraseTerminator B
              let s := s.pushInst B (.br predicateBlock)
              let iterations := 1 + rd rnd s.pos % 6
              let s := s.drew
              match randomOperations rnd ng s.gen iterations with
              | none => none
              | some (g, result, _) =>
                let s := s.putGen predicateBlock g
                let (cmp, s) :=
                  s.emitAt predicateBlock (fun id => .icmp id .sgt result (.const 0))
                let (bogusOriginator, s) := s.createBlock "originator"
                let numLevels := 1 + rd rnd s.pos % 4
                let s := s.drew
                match genFakeFlow rnd ng numLevels bogusOriginator s with
                | none => none
                | some s =>
                  let s := s.pushInst predicateBlock (.condBr cmp endSuccessor bogusOriginator)
                  some (s.pushBB predicateBlock, true)
      | _ => some (s, changed)

/-- The loop `for(auto &B : origBB)`. -/
def spliceLoop (rnd : Nat → Nat) (ng : Nat) : List Nat → FState → Bool → Option (FState × Bool)
  | [], s, changed => some (s, changed)
  | B :: rest, s, changed =>
    match spliceStep rnd ng s changed B with
    | some (s1, changed1) => spliceLoop rnd ng rest s1 changed1
    | none => none

/-- Function `BogusFlow::runOnFunction`: the function afterwards and the returned flag. -/
def runOnFunction (rnd : Nat → Nat) (ng : Nat) (F : List BasicBlock) (pos next : Nat) :
    Option (List BasicBlock × Bool) :=
  let origBB := collectFrom 0 F
  if origBB.length ≤ 1 then some (F, false)
  else
    let origBB := origBB.tail
    match spliceLoop rnd ng origBB
        { blocks := F, allBB := origBB, pos := pos, next := next } false with
    | some (s, changed) => some (s.blocks, changed)
    | none => none

/-- Successor taken when block `b` of `F` is executed from a fresh state. -/
def takenSuccessor (F : List BasicBlock) (b : Nat) (globals : Global → Nat) : Option Nat :=
  match (Machine.init globals).run (getInsts F b) with
  | some (_, t) => t
  | none => none

/-! ## IntegGuardCFGObf.cpp -/

/-- One call of `rand()`: a number in `[0, RAND_MAX]` with `RAND_MAX = 2^31 - 1`. -/
def rand (rnd : Nat → Nat) (pos : Nat) : Nat := rnd pos % 2147483648

/-- Function `randNonZeroInt`: the constant `(uint32_t)rand() | 1u`. -/
def randNonZeroInt (rnd : Nat → Nat) (g : Gen) : Val × Gen :=
  (.const (or32 (rand rnd g.pos) 1), g.drew)

/-- One iteration of the loop of `RandOperationsAt`. -/
def junkStep (rnd : Nat → Nat) (g : Gen) (result rhs : Val) : Gen × Val × Val :=
  let choice := rand rnd g.pos % 7
  let g := g.drew
  let (result, g) :=
    match choice with
    | 0 => g.emit (fun id => .binop id .add result rhs)
    | 1 => g.emit (fun id => .binop id .sub result rhs)
    | 2 => g.emit (fun id => .binop id .sub result rhs)
    | 3 => g.emit (fun id => .binop id .or result rhs)
    | 4 => g.emit (fun id => .binop id .and result rhs)
    | 5 => g.emit (fun id => .binop id .xor result rhs)
    | 6 => g.emit (fun id => .binop id .mul result rhs)
    | _ => (result, g)
  let (rhs, g) := randNonZeroInt rnd g
  (g, result, rhs)

/-- The `for` loop of `RandOperationsAt`. -/
def junkLoop (rnd : Nat → Nat) : Nat → Gen → Val → Val → Gen × Val
  | 0, g, result, _ => (g, result)
  | n + 1, g, result, rhs =>
    let (g, result, rhs) := junkStep rnd g result rhs
    junkLoop rnd n g result rhs

/-- Function `RandOperationsAt`. -/
def RandOperationsAt (rnd : Nat → Nat) (g : Gen) (lhs : Val) : Val × Gen :=
  let (rhs, g) := randNonZeroInt rnd g
  let N := 1 + rand rnd g.pos % 22
  let g := g.drew
  let (g, result) := junkLoop rnd N g lhs rhs
  let (slot, g) := g.emit .alloca
  let g := g.push (.store result slot false)
  g.emit (fun id => .load id slot false)

/-- Function `injectJunkMods`: the instructions inserted before `IP`. -/
def injectJunkMods (rnd : Nat → Nat) (g : Gen) (global : Global) : Gen :=
  let (save, g) := g.emit .alloca
  let (old, g) := g.emit (fun id => .load id (.global global) true)
  let g := g.push (.store old save false)
  let (junk, g) := RandOperationsAt rnd g old
  let g := g.push (.store junk (.global global) true)
  let (restore, g) := g.emit (fun id => .load id save false)
  g.push (.store restore (.global global) true)

/-- Function `injectIntegrityValidate`: the instructions inserted before the exit
terminator, closed by the conditional branch of `SplitBlockAndInsertIfThen` to the new
block `thenBlk` (the handler call) or to `tail` (the exit), and the body of `thenBlk`. -/
def injectIntegrityValidate (rnd : Nat → Nat) (g : Gen) (global expected : Global)
    (thenBlk tail : Nat) : Gen × List Inst :=
  let (cur, g) := g.emit (fun id => .load id (.global global) true)
  let (exp, g) := g.emit (fun id => .load id (.global expected) true)
  let (z, g) := g.emit (fun id => .load id (.global .zeroVar) true)
  let (r, g) := randNonZeroInt rnd g
  let (mask, g) := g.emit (fun id => .binop id .mul r z)
  let (rhs, g) := g.emit (fun id => .binop id .add exp mask)
  let (bad, g) := g.emit (fun id => .icmp id .ne cur rhs)
  (g.push (.condBr bad thenBlk tail), [.call "on_integrity_violation", .br tail])

/-- Non-terminators executed in sequence. -/
def Machine.exec (m : Machine) : List Inst → Option Machine
  | [] => some m
  | i :: rest =>
    match m.step i with
    | some m1 => m1.exec rest
    | none => none

/-- A random stream given by its first values (zero afterwards). -/
def tape (l : List Nat) : Nat → Nat := fun i => l.getD i 0

/-- Input function `entry -> a -> b`, `b` returning. -/
def chain3 : List BasicBlock :=
  [ { name := "entry", isEHPad := false, isLandingPad := false, insts := [.other, .br 1] },
    { name := "a", isEHPad := false, isLandingPad := false, insts := [.other, .br 2] },
    { name := "b", isEHPad := false, isLandingPad := false, insts := [.other, .ret] } ]

/-! ## Modules -/

/-- Linkage types of a global value. -/
inductive Linkage where
  | ExternalLinkage
  | AvailableExternallyLinkage
  | LinkOnceAnyLinkage
  | LinkOnceODRLinkage
  | WeakAnyLinkage
  | WeakODRLinkage
  | AppendingLinkage
  | InternalLinkage
  | PrivateLinkage
  | ExternalWeakLinkage
  | CommonLinkage
deriving DecidableEq, Repr

/-- Local linkage (`hasLocalLinkage`): internal or private. -/
def Linkage.isLocal : Linkage → Bool
  | .InternalLinkage => true
  | .PrivateLinkage => true
  | _ => false

/-- A global variable of a module: its name, linkage, `constant` flag and initializer
(`hasInitializer()` is `initializer.isSome`); value types are not modelled, the
initializer of an `i32` cell being its number. -/
structure GlobalVariable where
  name : String
  linkage : Linkage
  isConstant : Bool
  initializer : Option Nat
deriving DecidableEq, Repr

/-- A function of a module: its name, its arguments (as values) and its blocks; a
declaration has no block. -/
structure Function where
  name : String
  args : List Val
  blocks : List BasicBlock
deriving DecidableEq, Repr

/-- A module: its global variables and its functions, in the order of their lists. -/
structure Module where
  globals : List GlobalVariable
  functions : List Function
deriving DecidableEq, Repr

/-- The names in the symbol table of the module. -/
def Module.names (M : Module) : List String :=
  M.globals.map (fun G => G.name) ++ M.functions.map (fun F => F.name)

/-- Position of the first global variable called `name`. -/
def findNamed (name : String) : List GlobalVariable → Option Nat
  | [] => none
  | G :: rest => if G.name = name then some 0 else (findNamed name rest).map (fun i => i + 1)

/-- Call `M.getGlobalVariable(Name, AllowInternal)`: the global variable of that name (by
position), unless it has local linkage and `AllowInternal` is false; a name borne by a
function, or by nothing, gives null. -/
def Module.getGlobalVariable (M : Module) (name : String) (allowInternal : Bool) :
    Option Nat :=
  match findNamed name M.globals with
  | none => none
  | some i =>
    match M.globals[i]? with
    | none => none
    | some G => if allowInternal || !G.linkage.isLocal then some i else none

/-- The name the symbol table gives a new global value called `name`: `name` itself when
no value bears it, otherwise `name.N` for a number `N` that makes it new (the first such
`N`; the counter LLVM takes it from is not modelled). -/
def uniqueName (taken : List String) (name : String) : String :=
  if name ∈ taken then
    match (List.range (taken.length + 1)).find?
        (fun n => decide (name ++ "." ++ toString (n + 1) ∉ taken)) with
    | some n => name ++ "." ++ toString (n + 1)
    | none => name ++ "." ++ toString (taken.length + 2)
  else name

/-- Call `new GlobalVariable(M, ...)`: the variable is appended to the globals of the
module, under a name that is new in its symbol table. -/
def Module.addGlobal (M : Module) (G : GlobalVariable) : Module × Nat :=
  ({ M with globals := M.globals ++ [{ G with name := uniqueName M.names G.name }] },
   M.globals.length)

/-- Change the global variable at position `i`. -/
def Module.updGlobal (M : Module) (i : Nat) (f : GlobalVariable → GlobalVariable) : Module :=
  match M.globals[i]? with
  | some G => { M with globals := M.globals.set i (f G) }
  | none => M

/-- Call `M.getOrInsertFunction(name, void())`: when no value bears the name, a
declaration of that name is appended to the functions of the module. -/
def Module.getOrInsertFunction (M : Module) (name : String) : Module :=
  if name ∈ M.names then M
  else { M with functions := M.functions ++ [{ name := name, args := [], blocks := [] }] }

/-! ## IntegGuardCFGObf.cpp: the cells -/

/-- Function `getOrCreateZeroVar`: the module afterwards and the cell. -/
def getOrCreateZeroVar (M : Module) : Module × Nat :=
  match M.getGlobalVariable "zeroVar" true with
  | none =>
    M.addGlobal { name := "zeroVar", linkage := .InternalLinkage, isConstant := false,
                  initializer := some 0 }
  | some zero =>
    (M.updGlobal zero fun G =>
      if G.initializer.isNone then { G with initializer := some 0 } else G, zero)

/-- Function `getOrCreateExpected`: the module afterwards and the cell. -/
def getOrCreateExpected (M : Module) : Module × Nat :=
  match M.getGlobalVariable "globalCheck0x1000_expected" true with
  | none =>
    M.addGlobal { name := "globalCheck0x1000_expected", linkage := .InternalLinkage,
                  isConstant := false, initializer := some 4096 }
  | some expected =>
    (M.updGlobal expected fun G =>
      let G := if G.initializer.isNone then { G with initializer := some 4096 } else G
      let G := { G with linkage := .InternalLinkage }
      { G with isConstant := false }, expected)

/-- The cell setup that opens `runOnModule`: the guard `globalCheck0x1000`, looked up
without `AllowInternal` and created or normalised in place, then `getOrCreateExpected`
and `getOrCreateZeroVar`. The module afterwards and the three cells. -/
def setupCells (M : Module) : Module × Nat × Nat × Nat :=
  let (M, global) :=
    match M.getGlobalVariable "globalCheck0x1000" false with
    | none =>
      M.addGlobal { name := "globalCheck0x1000", linkage := .ExternalLinkage,
                    isConstant := false, initializer := some 4096 }
    | some global =>
      (M.updGlobal global fun G =>
        let G := if G.initializer.isNone then { G with initializer := some 4096 } else G
        { G with linkage := .ExternalLinkage }, global)
  let (M, expected) := getOrCreateExpected M
  let (M, zero) := getOrCreateZeroVar M
  (M, global, expected, zero)

/-! ## IntegGuardCFGObf.cpp: the pass over a module -/

/-- A return, `unreachable` or `resume` instruction. -/
def Inst.isExit : Inst → Bool
  | .ret => true
  | .unreachable => true
  | .resume => true
  | _ => false

/-- Position of `getFirstInsertionPt()` in a block: past the PHIs, and past the pad
instruction when the block is an exception pad. -/
def getFirstInsertionPt (B : BasicBlock) : Nat :=
  (B.insts.takeWhile Inst.isPHI).length + (if B.isEHPad then 1 else 0)

/-- Insert `code` before position `k` of a block. -/
def insertAt (insts : List Inst) (k : Nat) (code : List Inst) : List Inst :=
  insts.take k ++ code ++ insts.drop k

/-- What `EntryBuilder` inserts at the first insertion point of the entry block: the
call of the inline assembly, a slot and a volatile store for each of the first three
arguments, then a volatile load of each slot. -/
def entryStub (args : List Val) (g : Gen) : Gen :=
  let g := g.push (.call "asm")
  let r := (args.take 3).foldl
    (fun (acc : Gen × List Val) ARG =>
      let (Alloca, g) := acc.1.emit .alloca
      (g.push (.store ARG Alloca true), acc.2 ++ [Alloca]))
    (g, [])
  r.2.foldl (fun g Alloca => (g.emit (fun id => .load id Alloca true)).2) r.1

/-- An instruction of the function as the site collection found it, with what has been
inserted immediately before it since: an `IRBuilder` on an instruction inserts before
it, after what earlier builders on the same instruction have inserted. -/
structure Slot where
  before : List Inst
  inst : Inst
deriving Repr

/-- The instructions of a block as slots with nothing inserted. -/
def toSlots (insts : List Inst) : List Slot := insts.map fun i => { before := [], inst := i }

/-- The instructions of a block of slots. -/
def fromSlots (slots : List Slot) : List Inst :=
  (slots.map fun s => s.before ++ [s.inst]).flatten

/-- Insert `code` immediately before the instruction at `site` (block, position). -/
def insertBefore (S : List (List Slot)) (site : Nat × Nat) (code : List Inst) :
    List (List Slot) :=
  S.modify (fun slots => slots.modify (fun s => { s with before := s.before ++ code }) site.2)
    site.1

/-- The three site lists of `runOnModule` and the random cursor. An instruction site is
a block and a position in it; an exit site is a block and its terminator. -/
structure Sites where
  ModifySites : List (Nat × Nat)
  junkSites : List (Nat × Nat)
  ExitSites : List (Nat × Inst)
  pos : Nat
deriving Repr

/-- The loop `for(Instruction &I : BB)` of the site collection, on block `b` from
position `i` on. -/
def scanInsts (rnd : Nat → Nat) (b : Nat) : List Inst → Nat → Sites → Sites
  | [], _, st => st
  | I :: rest, i, st =>
    if I.isPHI then scanInsts rnd b rest (i + 1) st
    else if I.isTerminator then scanInsts rnd b rest (i + 1) st
    else
      let st :=
        if rand rnd st.pos % 30 = 0 then
          { st with ModifySites := st.ModifySites ++ [(b, i)], pos := st.pos + 1 }
        else { st with pos := st.pos + 1 }
      let st :=
        if rand rnd st.pos % 10 = 0 then
          { st with junkSites := st.junkSites ++ [(b, i)], pos := st.pos + 1 }
        else { st with pos := st.pos + 1 }
      scanInsts rnd b rest (i + 1) st

/-- The loop `for(BasicBlock &BB : F)` of the site collection, from block `b` on. No
result on a block without terminator (`isa` on a null pointer). -/
def scanBlocks (rnd : Nat → Nat) : List BasicBlock → Nat → Sites → Option Sites
  | [], _, st => some st
  | BB :: rest, b, st =>
    if BB.isEHPad then scanBlocks rnd rest (b + 1) st
    else
      match getTerminator BB with
      | none => none
      | some T =>
        let st := if T.isExit then { st with ExitSites := st.ExitSites ++ [(b, T)] } else st
        scanBlocks rnd rest (b + 1) (scanInsts rnd b BB.insts 0 st)

/-- State of the pass inside a function: the module, the blocks of the function, the
random cursor, the id counter and the flag `changed`. -/
structure GState where
  M : Module
  blocks : List BasicBlock
  pos : Nat
  next : Nat
  changed : Bool
deriving Repr

/-- The loop `for(Instruction *IP : junkSites)`. -/
def junkSitesLoop (rnd : Nat → Nat) :
    List (Nat × Nat) → List (List Slot) → Nat → Nat → Bool → List (List Slot) × Nat × Nat × Bool
  | [], S, pos, next, changed => (S, pos, next, changed)
  | IP :: rest, S, pos, next, _ =>
    let g := injectJunkMods rnd { pos := pos, next := next, insts := [] } .guard
    junkSitesLoop rnd rest (insertBefore S IP g.insts) g.pos g.next true

/-- The loop `for(Instruction *IP : ModifySites)`: the call of `integrity_guard` before
each site (`InlineFunction`, an external primitive, is not expanded: the call stands for
what is inlined in its place). -/
def modifySitesLoop : List (Nat × Nat) → List (List Slot) → Bool → List (List Slot) × Bool
  | [], S, changed => (S, changed)
  | IP :: rest, S, _ => modifySitesLoop rest (insertBefore S IP [.call "integrity_guard"]) true

/-- Function `injectIntegrityValidate` on the exit terminator `exitTerm` of block `b`,
with its call of `getOrCreateZeroVar`. `SplitBlockAndInsertIfThen` leaves the block of
the terminator with the check and the conditional branch, and makes two blocks: the
handler block and the block of the terminator (both appended to the function here; the
place of a block in the list has no meaning beyond the entry being first). -/
def exitStep (rnd : Nat → Nat) (st : GState) (b : Nat) (exitTerm : Inst) : GState :=
  let M := (getOrCreateZeroVar st.M).1
  let thenBlk := st.blocks.length
  let tail := st.blocks.length + 1
  let r := injectIntegrityValidate rnd { pos := st.pos, next := st.next, insts := [] }
    .guard .expected thenBlk tail
  let blocks := updBlock (fun B => { B with insts := B.insts.dropLast ++ r.1.insts }) b
    st.blocks
  let blocks := blocks ++ [{ newBlock "" with insts := r.2 },
                           { newBlock "" with insts := [exitTerm] }]
  { M := M, blocks := blocks, pos := r.1.pos, next := r.1.next, changed := true }

/-- The loop `for(Instruction *exitSite : ExitSites)`. -/
def exitSitesLoop (rnd : Nat → Nat) : List (Nat × Inst) → GState → GState
  | [], st => st
  | (b, exitTerm) :: rest, st => exitSitesLoop rnd rest (exitStep rnd st b exitTerm)

/-- State of the pass between functions. -/
structure MState where
  M : Module
  pos : Nat
  next : Nat
  changed : Bool
deriving Repr

/-- Body of the loop `for(auto &F : M)` of `runOnModule` for a function `F` that is
defined and is neither `integrity_guard` nor `on_integrity_violation`, after the two
calls of `getOrInsertFunction`: the entry stub, the site collection and the three loops
over the sites. The state afterwards, with the blocks of `F`. -/
def guardFunction (rnd : Nat → Nat) (M : Module) (F : Function) (pos next : Nat)
    (changed : Bool) : Option GState :=
  let g := entryStub F.args { pos := pos, next := next, insts := [] }
  let blocks := updBlock
    (fun B => { B with insts := insertAt B.insts (getFirstInsertionPt B) g.insts }) 0 F.blocks
  match scanBlocks rnd blocks 0
      { ModifySites := [], junkSites := [], ExitSites := [], pos := g.pos } with
  | none => none
  | some sites =>
    let S := blocks.map fun B => toSlots B.insts
    let junk := junkSitesLoop rnd sites.junkSites S sites.pos g.next changed
    let modify := modifySitesLoop sites.ModifySites junk.1 junk.2.2.2
    let blocks :=
      List.zipWith (fun (B : BasicBlock) slots => { B with insts := fromSlots slots }) blocks
        modify.1
    some (exitSitesLoop rnd sites.ExitSites
      { M := M, blocks := blocks, pos := junk.2.1, next := junk.2.2.1, changed := modify.2 })

/-- Body of the loop `for(auto &F : M)` of `runOnModule`, on the function at position
`fi`. -/
def moduleStep (rnd : Nat → Nat) (st : MState) (fi : Nat) : Option MState :=
  match st.M.functions[fi]? with
  | none => some st
  | some F =>
    if F.blocks.isEmpty then some st
    else if F.name = "integrity_guard" ∨ F.name = "on_integrity_violation" then some st
    else
      let M := st.M.getOrInsertFunction "integrity_guard"
      let M := M.getOrInsertFunction "on_integrity_violation"
      match guardFunction rnd M F st.pos st.next st.changed with
      | none => none
      | some s =>
        some { M := Module.mk s.M.globals (s.M.functions.set fi { F with blocks := s.blocks }),
               pos := s.pos, next := s.next, changed := s.changed }

/-- The loop `for(auto &F : M)` over the functions at the given positions. -/
def moduleLoop (rnd : Nat → Nat) : List Nat → MState → Option MState
  | [], st => some st
  | fi :: rest, st =>
    match moduleStep rnd st fi with
    | some st1 => moduleLoop rnd rest st1
    | none => none

/-- Function `IntegGuardCFGObf::runOnModule`: the module afterwards and the returned
flag. The loop goes through the functions the module has when it starts: those
`getOrInsertFunction` appends meanwhile are declarations, which the loop skips. -/
def runOnModule (rnd : Nat → Nat) (M : Module) (pos next : Nat) : Option (Module × Bool) :=
  let M := (setupCells M).1
  (moduleLoop rnd (List.range M.functions.length)
    { M := M, pos := pos, next := next, changed := false }).map fun st => (st.M, st.changed)

/-- What a pass reports to the pass manager. -/
inductive PreservedAnalyses where
  | none
  | all
deriving DecidableEq, Repr

/-- Function `IntegGuardCFGObf::run`. -/
def IntegGuardCFGObf.run (rnd : Nat → Nat) (M : Module) (pos next : Nat) :
    Option (Module × PreservedAnalyses) :=
  (runOnModule rnd M pos next).map fun r =>
    (r.1, if r.2 then PreservedAnalyses.none else PreservedAnalyses.all)

/-! ## Notions used in the statements and proofs -/

/-- What holds while the junk sequence is emitted: the code so far is free of terminators
and runs from `m`, leaving the globals as `gl`, the slot `save` holding `old` and the
working value `result` computed; `save` is an id already handed out. -/
def JunkInv (m : Machine) (save old : Nat) (gl : Global → Nat) (g : Gen) (result : Val) :
    Prop :=
  (∀ i ∈ g.insts, i.isTerminator = false) ∧ save < g.next ∧
  ∃ m1, m.exec g.insts = some m1 ∧ m1.globals = gl ∧ m1.slots save = some old ∧
    ∃ v, m1.eval result = some v

/-- Cells of the concrete scenario: guard `0x1001`, expected `0x1000`, decoy 0. -/
def tamperedCells : Global → Nat
  | .guard => 4097
  | .expected => 4096
  | _ => 0

/-- An operand is known below the id counter `n`: a constant, or an id already handed
out. -/
def Val.below (n : Nat) : Val → Prop
  | .const _ => True
  | .reg i => i < n
  | .global _ => False

/-- Largest divisor value `randomOperations` can emit in `N` iterations: 127 while the
shadow divisors cannot wrap around to 0 (`127 + 9 N < 2^32`), 635 beyond. -/
def divBound (N : Nat) : Nat := if 127 + 9 * N < 4294967296 then 127 else 635

/-- Every `sdiv` and `srem` of the sequence finds, when the code before it has run from
`m`, a divisor with a value in `[2, B]`. -/
def DivisorsOK (m : Machine) (B : Nat) (insts : List Inst) : Prop :=
  ∀ k id op a b, insts[k]? = some (.binop id op a b) → (op = .sdiv ∨ op = .srem) →
    ∃ m0 v, m.exec (insts.take k) = some m0 ∧ m0.eval b = some v ∧ 2 ≤ v ∧ v ≤ B

/-- What holds after `n` of `N` iterations of the loop of `randomOperations`, the emitted
code being run from `m`. The shadow divisors are followed without wrap-around: `Sy` is
the unwrapped sum behind `control[1]`, `ky` the number of times `ensureNot0` has fired on
`ly` (each time at a fresh multiple of `2^32`, reached by steps of at most 9); likewise
`Sz`, `kz`. -/
def DivInv (m : Machine) (N n : Nat) (g : Gen) (res ly lz : Val)
    (control1 control2 : Nat) : Prop :=
  ∃ (m1 : Machine) (vr vy vz Sy ky Sz kz : Nat),
    m.exec g.insts = some m1 ∧ DivisorsOK m (divBound N) g.insts ∧
    res.below g.next ∧ ly.below g.next ∧ lz.below g.next ∧
    m1.eval res = some vr ∧ m1.eval ly = some vy ∧ m1.eval lz = some vz ∧
    (2 ≤ vy ∧ vy ≤ 127 * (ky + 1)) ∧ (2 ≤ vz ∧ vz ≤ 127 * (kz + 1)) ∧
    (control1 = Sy % 4294967296 ∧ 4294967296 * ky + 2 ≤ Sy ∧ Sy ≤ 127 + 9 * n + 127 * ky ∧
      (ky = 0 ∨ 4294967296 * ky ≤ 9 * n + 127 * ky)) ∧
    (control2 = Sz % 4294967296 ∧ 4294967296 * kz + 2 ≤ Sz ∧ Sz ≤ 127 + 9 * n + 127 * kz ∧
      (kz = 0 ∨ 4294967296 * kz ≤ 9 * n + 127 * kz))

/-- Run-time state after the nine instructions that open `randomOperations`. -/
def initMachine (m : Machine) (next c0 c1 c2 : Nat) : Machine :=
  { regs := fun i =>
      if i = next + 5 then some c2 else if i = next + 4 then some c1
      else if i = next + 3 then some c0 else m.regs i,
    slots := fun i =>
      if i = next + 2 then some c2 else if i = next + 1 then some c1
      else if i = next then some c0 else m.slots i,
    globals := m.globals }

/-- The code `randomOperations` emits for the draws `x = 7`, `y = 2`, `z = 2` and one
iteration with choice 2 (`res = sdiv res, lz`). -/
def sdivExample : Gen × Val × Nat :=
  ({ pos := 4, next := 7,
     insts := [.alloca 0, .store (.const 7) (.reg 0) false, .alloca 1,
               .store (.const 2) (.reg 1) false, .alloca 2, .store (.const 2) (.reg 2) false,
               .load 3 (.reg 0) false, .load 4 (.reg 1) false, .load 5 (.reg 2) false,
               .binop 6 .sdiv (.reg 3) (.reg 5)] },
   .reg 6, 3)

/-- Neither a terminator nor a PHI. -/
def Inst.isPlain (i : Inst) : Bool := !i.isTerminator && !i.isPHI

/-- Builder `g1` continues `g`: it has appended plain instructions only. -/
def Gen.Extends (g g1 : Gen) : Prop :=
  ∃ body, g1.insts = g.insts ++ body ∧ ∀ i ∈ body, Inst.isPlain i = true

/-- The common shape of cases 1 to 6 of the `switch` of `genFakeFlow`. -/
def CondShape (recurse : Nat → FState → Option FState) (block leftBlock : Nat)
    (s sF : FState) : Prop :=
  ∃ (right : Nat) (body : List Inst) (s3 s4 : FState) (cmpI : Inst) (c : Val),
    right = s.blocks.length ∧
    (∀ i ∈ body, Inst.isPlain i = true) ∧
    s3.blocks = appendInsts s.blocks block body ++ [newBlock "right"] ∧
    s3.allBB = s.allBB ++ [right] ∧
    recurse right s3 = some s4 ∧ Inst.isPlain cmpI = true ∧
    sF.blocks = appendInsts (appendInsts s4.blocks block [cmpI]) block
      [.condBr c right leftBlock] ∧
    sF.allBB = s4.allBB

/-- A state in which `runOnFunction` calls `genFakeFlow`: the three blocks of `chain3`,
a predicate block and an originator, the candidates being blocks 1 and 2. -/
def fakeFlowStart : FState :=
  { blocks := chain3 ++ [newBlock "predicateBlock", newBlock "originator"],
    allBB := [1, 2], pos := 0, next := 0 }

/-- Block `B` ends in exactly one terminator, its last instruction, and every successor
is one of the `n` blocks of the function. -/
def BasicBlock.closed (n : Nat) (B : BasicBlock) : Bool :=
  match B.insts.getLast? with
  | some t =>
    t.isTerminator && B.insts.dropLast.all (fun i => !i.isTerminator) &&
      t.successors.all (fun x => decide (x < n))
  | none => false

/-- Every block of the function ends in exactly one terminator and branches only to
blocks of the function. -/
def wellFormed (F : List BasicBlock) : Bool := F.all (fun B => B.closed F.length)

/-- There is a control-flow edge from block `i` to block `t`. -/
def edge (F : List BasicBlock) (i t : Nat) : Prop :=
  ∃ B, F[i]? = some B ∧ t ∈ blockSuccessors B

/-- Block `t` exists and holds no PHI. -/
def NoPhiAt (F : List BasicBlock) (t : Nat) : Prop :=
  ∃ T, F[t]? = some T ∧ containsPHI T = false

/-- Block under construction: no terminator yet. -/
def BasicBlock.isOpen (B : BasicBlock) : Prop := ∀ i ∈ B.insts, i.isTerminator = false

/-- What the splice keeps true of the blocks `F`, the candidate list `A` and the set `O`
of blocks still without terminator, `F₀` being the input function and `X` a set of
further branch targets in use:
every block of `O` exists and has no terminator, every other block is closed; the
candidates and the targets of `X` exist and hold no PHI; every edge is an edge of the
input or goes to a block without PHI; and the blocks of the input keep their PHI
status. -/
structure CI (F₀ : List BasicBlock) (X : Nat → Prop) (F : List BasicBlock) (A : List Nat)
    (O : Nat → Prop) : Prop where
  bound : ∀ i : Nat, O i → i < F.length
  shape : ∀ (i : Nat) (B : BasicBlock), F[i]? = some B →
    (O i → B.isOpen) ∧ (¬ O i → B.closed F.length = true)
  cand : ∀ a ∈ A, NoPhiAt F a
  prot : ∀ x : Nat, X x → NoPhiAt F x
  edges : ∀ i t : Nat, edge F i t → edge F₀ i t ∨ NoPhiAt F t
  phi : ∀ (i : Nat) (B₀ : BasicBlock), F₀[i]? = some B₀ →
    ∃ B, F[i]? = some B ∧ containsPHI B = containsPHI B₀

/-- Successors of block `i` of `F`. -/
def succsAt (F : List BasicBlock) (i : Nat) : List Nat :=
  match F[i]? with
  | some B => blockSuccessors B
  | none => []

/-- Progress of the splice loop on the input `F₀`, the blocks in `rest` being still to
visit: every block of the input is as it was, or its single successor `e` has been
replaced by a new block `p` whose first successor is `e`; the blocks still to visit are
as they were. -/
def Spliced (F₀ : List BasicBlock) (rest : List Nat) (F : List BasicBlock) : Prop :=
  F₀.length ≤ F.length ∧
  (∀ i, i < F₀.length → F[i]? = F₀[i]? ∨
    ∃ e p, succsAt F₀ i = [e] ∧ succsAt F i = [p] ∧ F₀.length ≤ p ∧
      (succsAt F p).head? = some e) ∧
  ∀ B ∈ rest, F[B]? = F₀[B]?

/-- Some path from the entry block (block 0) to `u` along the edges `E` avoids block
`d`. -/
inductive AvoidingPath (E : Nat → Nat → Prop) (d : Nat) : Nat → Prop where
  | entry : 0 ≠ d → AvoidingPath E d 0
  | step {a b : Nat} : AvoidingPath E d a → E a b → b ≠ d → AvoidingPath E d b

/-- Block `d` dominates block `u`: every path from the entry to `u` goes through `d`. -/
def Dominates (E : Nat → Nat → Prop) (d u : Nat) : Prop := ¬ AvoidingPath E d u

/-- The edges taken when every block created by the splice (the blocks from `n` on) is
left through its first successor, the true outcome of its branch; blocks of the input
are left through any successor. -/
def realEdge (n : Nat) (F : List BasicBlock) (a b : Nat) : Prop :=
  b ∈ succsAt F a ∧ (n ≤ a → (succsAt F a).head? = some b)

/-- Input function `entry -> a -> b -> c`, `c` returning. -/
def chain4 : List BasicBlock :=
  [ { name := "entry", isEHPad := false, isLandingPad := false, insts := [.other, .br 1] },
    { name := "a", isEHPad := false, isLandingPad := false, insts := [.other, .br 2] },
    { name := "b", isEHPad := false, isLandingPad := false, insts := [.other, .br 3] },
    { name := "c", isEHPad := false, isLandingPad := false, insts := [.other, .ret] } ]

/-- The function `runOnFunction` makes of `chain4` with the random stream
`0,1,0,0,0,0,0,1,0,0,0,0,2`: block `a` is spliced (predicate block 4, originator 5, left
block 6 branching to `c`), then block `b` (blocks 7, 8, 9). -/
def spliced4 : List BasicBlock :=
  match runOnFunction (tape [0, 1, 0, 0, 0, 0, 0, 1, 0, 0, 0, 0, 2]) 1 chain4 0 0 with
  | some (F1, _) => F1
  | none => []

/-- The blocks open to the splice as the specification counts them: the blocks other
than the entry block (block 0) that are neither exception pads nor landing pads and hold
no PHI. -/
def eligibleBlocks (F : List BasicBlock) : List Nat :=
  (List.range F.length).filter fun i =>
    decide (i ≠ 0) &&
      match F[i]? with
      | some B => !(B.isEHPad || B.isLandingPad || containsPHI B)
      | none => false

/-- Input function `entry -> a`, `a` looping on itself. -/
def loop2 : List BasicBlock :=
  [ { name := "entry", isEHPad := false, isLandingPad := false, insts := [.other, .br 1] },
    { name := "a", isEHPad := false, isLandingPad := false, insts := [.other, .br 1] } ]

/-- Input function of the entry block alone. -/
def single1 : List BasicBlock :=
  [ { name := "entry", isEHPad := false, isLandingPad := false, insts := [.other, .ret] } ]

/-- The choices `rd()%NUMCHOICES` the loop of `randomOperations` draws in its
iterations, in order. -/
def randomChoices (rnd : Nat → Nat) (ng : Nat) : Nat → Loop → List Nat
  | 0, _ => []
  | n + 1, s =>
    (rd rnd s.g.pos % 17) ::
      match randomStep rnd ng s with
      | some s1 => randomChoices rnd ng n s1
      | none => []

/-- Lockstep of `randomOperations`: the code emitted so far runs from `m`, and at its
end the values `res`, `ly`, `lz` compute the shadow integers `c3`, `c1`, `c2`; the two
divisors are in `[2, 127]` and their values are not overwritten by later instructions. -/
def LockInv (m : Machine) (g : Gen) (res ly lz : Val) (c1 c2 c3 : Nat) : Prop :=
  ∃ m1, m.exec g.insts = some m1 ∧ ly.below g.next ∧ lz.below g.next ∧
    m1.eval res = some c3 ∧ m1.eval ly = some c1 ∧ m1.eval lz = some c2 ∧
    (2 ≤ c1 ∧ c1 ≤ 127) ∧ (2 ≤ c2 ∧ c2 ≤ 127)

/-- Progress of the splice loop on the input `F₀`, instruction by instruction, the
blocks in `rest` being still to visit: every block of the input is as it was, or it is
one of the blocks `L` the loop goes through, its terminator had a single successor, and
that terminator alone has been replaced, by a branch to a new block `p`; the blocks
still to visit are as they were. -/
def Framed (F₀ : List BasicBlock) (L rest : List Nat) (F : List BasicBlock) : Prop :=
  F₀.length ≤ F.length ∧
  (∀ i, i < F₀.length → F[i]? = F₀[i]? ∨
    (i ∈ L ∧ ∃ B₀ t e p, F₀[i]? = some B₀ ∧ getTerminator B₀ = some t ∧
      t.successors = [e] ∧ F₀.length ≤ p ∧
      F[i]? = some { B₀ with insts := B₀.insts.dropLast ++ [.br p] })) ∧
  ∀ B ∈ rest, F[B]? = F₀[B]?

/-- Function `genFakeFlow` with `base` standing for its depth-0 base case: the same
recursion, the base case alone being handed over to `base`. -/
def genFakeFlowWith (base : Nat → FState → Option FState) (rnd : Nat → Nat) (ng : Nat) :
    Nat → Nat → FState → Option FState
  | 0, block, s => base block s
  | numLevels + 1, block, s =>
    let iterations := rd rnd s.pos % 25
    let s := s.drew
    match randomOperations rnd ng s.gen iterations with
    | none => none
    | some (g, res, _) =>
      let s := s.putGen block g
      let (leftBlock, s) := s.createBlock "left"
      let s := s.pushBB leftBlock
      match fakeSwitch rnd ng (genFakeFlowWith base rnd ng numLevels) block leftBlock res s with
      | none => none
      | some s => genFakeFlowWith base rnd ng numLevels leftBlock s

/-- Body of the loop of `runOnFunction` with `fake` standing for the call of
`genFakeFlow`. -/
def spliceStepWith (fake : Nat → Nat → FState → Option FState) (rnd : Nat → Nat) (ng : Nat)
    (s : FState) (changed : Bool) (B : Nat) : Option (FState × Bool) :=
  match s.blocks[B]? with
  | none => none
  | some blk =>
    match getTerminator blk with
    | none => none
    | some term =>
      match term.successors with
      | [] => some (s, changed)
      | [endSuccessor] =>
        if s.allBB.isEmpty then some (s, changed)
        else
          match s.blocks[endSuccessor]? with
          | none => none
          | some succBlk =>
            if containsPHI succBlk then some (s, changed)
            else
              let (predicateBlock, s) := s.createBlock "predicateBlock"
              let s := s.eraseTerminator B
              let s := s.pushInst B (.br predicateBlock)
              let iterations := 1 + rd rnd s.pos % 6
              let s := s.drew
              match randomOperations rnd ng s.gen iterations with
              | none => none
              | some (g, result, _) =>
                let s := s.putGen predicateBlock g
                let (cmp, s) :=
                  s.emitAt predicateBlock (fun id => .icmp id .sgt result (.const 0))
                let (bogusOriginator, s) := s.createBlock "originator"
                let numLevels := 1 + rd rnd s.pos % 4
                let s := s.drew
                match fake numLevels bogusOriginator s with
                | none => none
                | some s =>
                  let s := s.pushInst predicateBlock (.condBr cmp endSuccessor bogusOriginator)
                  some (s.pushBB predicateBlock, true)
      | _ => some (s, changed)

/-- The loop of `runOnFunction` with `fake` standing for the call of `genFakeFlow`. -/
def spliceLoopWith (fake : Nat → Nat → FState → Option FState) (rnd : Nat → Nat) (ng : Nat) :
    List Nat → FState → Bool → Option (FState × Bool)
  | [], s, changed => some (s, changed)
  | B :: rest, s, changed =>
    match spliceStepWith fake rnd ng s changed B with
    | some (s1, changed1) => spliceLoopWith fake rnd ng rest s1 changed1
    | none => none

/-- Function `runOnFunction` with `fake` standing for the call of `genFakeFlow`. -/
def runOnFunctionWith (fake : Nat → Nat → FState → Option FState) (rnd : Nat → Nat)
    (ng : Nat) (F : List BasicBlock) (pos next : Nat) : Option (List BasicBlock × Bool) :=
  let origBB := collectFrom 0 F
  if origBB.length ≤ 1 then some (F, false)
  else
    let origBB := origBB.tail
    match spliceLoopWith fake rnd ng origBB
        { blocks := F, allBB := origBB, pos := pos, next := next } false with
    | some (s, changed) => some (s.blocks, changed)
    | none => none

/-- The candidate list is not empty and every candidate is a block of the function. -/
def GoodCandidates (s : FState) : Prop :=
  s.allBB ≠ [] ∧ ∀ a ∈ s.allBB, a < s.blocks.length

/-- The module without globals and functions. -/
def emptyModule : Module := { globals := [], functions := [] }

/-- A module that declares the decoy cell: `@zeroVar = external global i32`. -/
def declaresZeroVar : Module :=
  { globals := [{ name := "zeroVar", linkage := .ExternalLinkage, isConstant := false,
                  initializer := none }],
    functions := [] }

/-- A module that defines the guard cell with another value:
`@globalCheck0x1000 = global i32 5`. -/
def definesGuard : Module :=
  { globals := [{ name := "globalCheck0x1000", linkage := .ExternalLinkage,
                  isConstant := false, initializer := some 5 }],
    functions := [] }

/-- A module with an internal variable that bears the name of the guard cell:
`@globalCheck0x1000 = internal global i32 7`. -/
def internalGuard : Module :=
  { globals := [{ name := "globalCheck0x1000", linkage := .InternalLinkage,
                  isConstant := false, initializer := some 7 }],
    functions := [] }

/-- A module of one function: the entry block ends in an `invoke` (normal destination
block 1, unwind destination block 2), block 1 returns, block 2 is the landing pad and
ends in `resume`. -/
def invokeModule : Module :=
  { globals := [],
    functions := [
      { name := "f", args := [],
        blocks := [
          { name := "entry", isEHPad := false, isLandingPad := false,
            insts := [.otherTerm [1, 2]] },
          { name := "cont", isEHPad := false, isLandingPad := false, insts := [.other, .ret] },
          { name := "lpad", isEHPad := true, isLandingPad := true,
            insts := [.other, .resume] } ] } ] }

/-- Number of global variables of the module called `name`. -/
def Module.countNamed (M : Module) (name : String) : Nat :=
  (M.globals.filter fun G => G.name = name).length

/-- Block `b` ends in the integrity validation before the exit terminator `T`: the
volatile loads of the guard, the expected value and the decoy, the mask, the sum, the
comparison and the conditional branch to a handler block, which calls
`on_integrity_violation` and goes on to the block of `T`, or to the block of `T`
directly. -/
def ValidatedExit (blocks : List BasicBlock) (b : Nat) (T : Inst) : Prop :=
  ∃ (body : List Inst) (n r thenBlk tail : Nat),
    getInsts blocks b = body ++
      [.load n (.global .guard) true, .load (n + 1) (.global .expected) true,
       .load (n + 2) (.global .zeroVar) true, .binop (n + 3) .mul (.const r) (.reg (n + 2)),
       .binop (n + 4) .add (.reg (n + 1)) (.reg (n + 3)),
       .icmp (n + 5) .ne (.reg n) (.reg (n + 4)), .condBr (.reg (n + 5)) thenBlk tail] ∧
    getInsts blocks thenBlk = [.call "on_integrity_violation", .br tail] ∧
    getInsts blocks tail = [T]

/-- The initializer the list of globals gives the variable called `name`; `c` when it
has no such variable or gives it no initializer. -/
def cellInit (l : List GlobalVariable) (name : String) (c : Nat) : Nat :=
  match l.find? (fun G => G.name = name) with
  | some G => G.initializer.getD c
  | none => c

/-- The globals after a cell called `name` has been looked up, found and changed by `f`,
or not found and created as `fresh`. -/
def normalise (name : String) (f : GlobalVariable → GlobalVariable) (fresh : GlobalVariable)
    (l : List GlobalVariable) : List GlobalVariable :=
  if l.any (fun G => G.name = name) then l.map (fun G => if G.name = name then f G else G)
  else l ++ [fresh]

/-- The list holds a variable called `name`, and `f` leaves every such variable as it
is. -/
def Settled (name : String) (f : GlobalVariable → GlobalVariable)
    (l : List GlobalVariable) : Prop :=
  (∃ G ∈ l, G.name = name) ∧ ∀ G ∈ l, G.name = name → f G = G

/-- The guard cell as `runOnModule` creates it. -/
def guardFresh : GlobalVariable :=
  { name := "globalCheck0x1000", linkage := .ExternalLinkage, isConstant := false,
    initializer := some 4096 }

/-- What `runOnModule` does to a guard cell it finds. -/
def guardFix (G : GlobalVariable) : GlobalVariable :=
  { (if G.initializer.isNone then { G with initializer := some 4096 } else G) with
    linkage := .ExternalLinkage }

/-- The expected cell as `getOrCreateExpected` creates it. -/
def expectedFresh : GlobalVariable :=
  { name := "globalCheck0x1000_expected", linkage := .InternalLinkage, isConstant := false,
    initializer := some 4096 }

/-- What `getOrCreateExpected` does to a cell it finds. -/
def expectedFix (G : GlobalVariable) : GlobalVariable :=
  { (if G.initializer.isNone then { G with initializer := some 4096 } else G) with
    linkage := .InternalLinkage, isConstant := false }

/-- The decoy cell as `getOrCreateZeroVar` creates it. -/
def zeroFresh : GlobalVariable :=
  { name := "zeroVar", linkage := .InternalLinkage, isConstant := false,
    initializer := some 0 }

/-- What `getOrCreateZeroVar` does to a cell it finds. -/
def zeroFix (G : GlobalVariable) : GlobalVariable :=
  if G.initializer.isNone then { G with initializer := some 0 } else G

/-- The globals after the cell setup, when every lookup finds the variable of its name
if there is one. -/
def cellGlobals (l : List GlobalVariable) : List GlobalVariable :=
  normalise "zeroVar" zeroFix zeroFresh
    (normalise "globalCheck0x1000_expected" expectedFix expectedFresh
      (normalise "globalCheck0x1000" guardFix guardFresh l))

/-- As `ValidatedExit`, the handler block and the block of the terminator being at or
beyond position `n`. -/
def ValidatedFrom (n : Nat) (blocks : List BasicBlock) (b : Nat) (T : Inst) : Prop :=
  ∃ (body : List Inst) (k r thenBlk tail : Nat), n ≤ thenBlk ∧ n ≤ tail ∧
    getInsts blocks b = body ++
      [.load k (.global .guard) true, .load (k + 1) (.global .expected) true,
       .load (k + 2) (.global .zeroVar) true, .binop (k + 3) .mul (.const r) (.reg (k + 2)),
       .binop (k + 4) .add (.reg (k + 1)) (.reg (k + 3)),
       .icmp (k + 5) .ne (.reg k) (.reg (k + 4)), .condBr (.reg (k + 5)) thenBlk tail] ∧
    getInsts blocks thenBlk = [.call "on_integrity_violation", .br tail] ∧
    getInsts blocks tail = [T]

/-- The exit sites the site collection finds in the blocks, counted from `b`: the blocks
that are no exception pads and end in a return, `unreachable` or `resume`, with that
terminator. -/
def exitSitesOf : List BasicBlock → Nat → List (Nat × Inst)
  | [], _ => []
  | BB :: rest, b =>
    if BB.isEHPad then exitSitesOf rest (b + 1)
    else
      match getTerminator BB with
      | some T => if T.isExit then (b, T) :: exitSitesOf rest (b + 1) else exitSitesOf rest (b + 1)
      | none => exitSitesOf rest (b + 1)

/-- Cells of an untampered guard beside a decoy that is no longer zero: guard and expected
value `0x1000`, decoy 6. -/
def decoyCells : Global → Nat
  | .guard => 4096
  | .expected => 4096
  | .zeroVar => 6
  | _ => 0

/-- The entry block (block 0) is outside the candidate list `A`, and no block of `F`
has it among its successors; `F` has blocks. -/
def EntryFree (F : List BasicBlock) (A : List Nat) : Prop :=
  0 < F.length ∧ 0 ∉ A ∧ ∀ B ∈ F, 0 ∉ blockSuccessors B

/-- The entry block (block 0) is outside the candidate list of the state, whose function
has blocks. -/
def EntryOut (s : FState) : Prop := 0 < s.blocks.length ∧ 0 ∉ s.allBB

/-! ## Properties -/

/-- C1 (shadow fidelity), evaluated where it fails: with the draws `x = 5`, `y = 2`,
`z = 2`, one iteration and the choice 15 with constant 1, `randomOperations` returns
`controlVal = 5` while the returned value computes `y + 1 = 3` at run time. -/
theorem randomOperations_shadow_diverges :
    shadowResult (tape [5, 0, 0, 15, 0]) 1 1 = some 5 ∧
    runtimeResult (tape [5, 0, 0, 15, 0]) 1 1 (fun _ => 0) = some 3 := by
  decide

/-- C2 (predicate determinism), evaluated where it fails: splicing `entry -> a -> b` with
the draws `x = 10`, `y = 2`, `z = 3`, two iterations, choice 15 with constant 1 and then
choice 8, the predicate block (block 3) ends in `condBr cmp, 2, 4` with 2 the original
successor and 4 the originator, and executing it transfers control to block 4. -/
theorem runOnFunction_predicate_takes_fake :
    (runOnFunction (tape [1, 10, 0, 1, 15, 0, 8, 0, 0, 1, 0, 0, 0, 0, 0]) 1 chain3 0 0).map
        (fun r => ((getInsts r.1 3).getLast?, takenSuccessor r.1 3 (fun _ => 0)))
      = some (some (.condBr (.reg 8) 2 4), some 4) := by
  decide

/-- C9 (composed guard policy), evaluated where it fails: on the shadow value `INT_MIN`
(pattern `0x80000000`) `ensureGT0` leaves the shadow value 0, for every random draw; and
`randomOperations` reaches it: with `x = 16384`, `y = 64`, `z = 32` and the three
iterations `res *= y`, `res *= y`, `res *= z` it returns `controlVal = 0`, the returned
value being 0 at run time as well. -/
theorem ensureGT0_int_min (rnd : Nat → Nat) (g : Gen) (value : Val) :
    (ensureGT0 rnd g value 2147483648).2.2 = 0 ∧
    shadowResult (tape [16384, 62, 30, 0, 0, 1]) 1 3 = some 0 ∧
    runtimeResult (tape [16384, 62, 30, 0, 0, 1]) 1 3 (fun _ => 0) = some 0 := by
  refine ⟨rfl, ?_, ?_⟩ <;> decide

/-! ### Execution lemmas -/

theorem exec_append (m : Machine) (a b : List Inst) :
    m.exec (a ++ b) = (m.exec a).bind (fun m1 => m1.exec b) := by
  induction a generalizing m with
  | nil => simp [Machine.exec]
  | cons i rest ih =>
    simp only [List.cons_append, Machine.exec]
    cases h : m.step i with
    | none => simp
    | some m1 => simp [ih]

theorem run_cons_plain (m : Machine) (i : Inst) (rest : List Inst)
    (h : i.isTerminator = false) :
    m.run (i :: rest) = (m.step i).bind (fun m1 => m1.run rest) := by
  cases i <;> simp [Inst.isTerminator] at h <;> simp only [Machine.run] <;>
    cases m.step _ <;> rfl

theorem run_append_plain (m : Machine) (a b : List Inst)
    (h : ∀ i ∈ a, i.isTerminator = false) :
    m.run (a ++ b) = (m.exec a).bind (fun m1 => m1.run b) := by
  induction a generalizing m with
  | nil => simp [Machine.exec]
  | cons i rest ih =>
    have hi : i.isTerminator = false := h i (by simp)
    have hr : ∀ j ∈ rest, j.isTerminator = false := fun j hj => h j (by simp [hj])
    rw [List.cons_append, run_cons_plain m i _ hi]
    simp only [Machine.exec]
    cases m.step i with
    | none => simp
    | some m1 => simp [ih m1 hr]

theorem run_plain (m : Machine) (a : List Inst) (h : ∀ i ∈ a, i.isTerminator = false) :
    m.run a = (m.exec a).map (fun m1 => (m1, none)) := by
  have := run_append_plain m a [] h
  simp only [List.append_nil] at this
  rw [this]
  cases m.exec a <;> simp [Machine.run]

/-! ### The junk sequence of `injectJunkMods` -/

theorem JunkInv_drew {m : Machine} {save old : Nat} {gl : Global → Nat} {g : Gen}
    {result : Val} (h : JunkInv m save old gl g result) :
    JunkInv m save old gl g.drew result := h

theorem JunkInv_binop {m : Machine} {save old : Nat} {gl : Global → Nat} {g : Gen}
    {result : Val} (h : JunkInv m save old gl g result) (op : BinOp) (c : Nat)
    (hop : ∀ x y, ∃ r, evalBinOp op x y = some r) :
    JunkInv m save old gl (g.emit (fun id => .binop id op result (.const c))).2
      (g.emit (fun id => .binop id op result (.const c))).1 := by
  obtain ⟨hterm, hlt, m1, hexec, hgl, hslot, v, hv⟩ := h
  obtain ⟨r, hr⟩ := hop v (c % 4294967296)
  have hstep : m1.step (.binop g.next op result (.const c)) = some (m1.setReg g.next r) := by
    have hc : m1.eval (.const c) = some (c % 4294967296) := rfl
    simp only [Machine.step, hv, hc, hr, Option.map_some']
  refine ⟨?_, ?_, m1.setReg g.next r, ?_, hgl, hslot, r, ?_⟩
  · intro i hi
    simp only [Gen.emit, List.mem_append, List.mem_singleton] at hi
    rcases hi with hi | hi
    · exact hterm i hi
    · subst hi; rfl
  · simp only [Gen.emit]; omega
  · simp only [Gen.emit, exec_append, hexec, Option.some_bind, Machine.exec, hstep]
  · simp [Gen.emit, Machine.eval, Machine.setReg]

theorem JunkInv_step (rnd : Nat → Nat) {m : Machine} {save old : Nat} {gl : Global → Nat}
    {g : Gen} {result : Val} (c : Nat) (h : JunkInv m save old gl g result) :
    JunkInv m save old gl (junkStep rnd g result (.const c)).1
      (junkStep rnd g result (.const c)).2.1 ∧
    ∃ c1, (junkStep rnd g result (.const c)).2.2 = .const c1 := by
  have hd := JunkInv_drew h
  simp only [junkStep, randNonZeroInt]
  split <;> refine ⟨JunkInv_drew ?_, _, rfl⟩
  · exact JunkInv_binop hd .add c (fun x y => ⟨_, rfl⟩)
  · exact JunkInv_binop hd .sub c (fun x y => ⟨_, rfl⟩)
  · exact JunkInv_binop hd .sub c (fun x y => ⟨_, rfl⟩)
  · exact JunkInv_binop hd .or c (fun x y => ⟨_, rfl⟩)
  · exact JunkInv_binop hd .and c (fun x y => ⟨_, rfl⟩)
  · exact JunkInv_binop hd .xor c (fun x y => ⟨_, rfl⟩)
  · exact JunkInv_binop hd .mul c (fun x y => ⟨_, rfl⟩)
  · exact hd

theorem JunkInv_loop (rnd : Nat → Nat) {m : Machine} {save old : Nat} {gl : Global → Nat}
    (n : Nat) : ∀ (g : Gen) (result : Val) (c : Nat), JunkInv m save old gl g result →
      JunkInv m save old gl (junkLoop rnd n g result (.const c)).1
        (junkLoop rnd n g result (.const c)).2 := by
  induction n with
  | zero => intro g result c h; exact h
  | succ n ih =>
    intro g result c h
    obtain ⟨h1, c1, hc1⟩ := JunkInv_step rnd c h
    simp only [junkLoop]
    rw [hc1]
    exact ih _ _ c1 h1

/-- The closing part of the junk sequence: spill the junk value, store it in the cell,
reload the saved value and store it back. -/
theorem junk_tail_restores {m : Machine} {save old : Nat} {gl : Global → Nat} {g : Gen}
    {result : Val} (global : Global) (h : JunkInv m save old gl g result) :
    ∃ m2, m.run (g.insts ++
        [Inst.alloca g.next, Inst.store result (.reg g.next) false,
         Inst.load (g.next + 1) (.reg g.next) false,
         Inst.store (.reg (g.next + 1)) (.global global) true,
         Inst.load (g.next + 1 + 1) (.reg save) false,
         Inst.store (.reg (g.next + 1 + 1)) (.global global) true]) = some (m2, none) ∧
      m2.globals global = old := by
  obtain ⟨hterm, hlt, m1, hexec, hgl, hslot, v, hv⟩ := h
  have hne : ¬ (save = g.next) := by omega
  rw [run_plain]
  · rw [exec_append, hexec]
    simp only [Option.some_bind, Machine.exec, Machine.step, hv, Option.map_some']
    simp [Machine.setSlot, Machine.setReg, Machine.eval, Machine.setGlobal, hne, hslot]
  · intro i hi
    simp only [List.mem_append, List.mem_cons, List.mem_singleton, List.not_mem_nil,
      or_false] at hi
    rcases hi with hi | hi | hi | hi | hi | hi | hi
    · exact hterm i hi
    all_goals (subst hi; rfl)

/-- C4 (guard round-trip): from every run-time state and for every random draw, the
sequence inserted by `injectJunkMods` runs to its end and leaves in the guarded cell
exactly the value the cell held before the sequence. -/
theorem injectJunkMods_restores_guard (rnd : Nat → Nat) (pos next : Nat) (global : Global)
    (m : Machine) :
    ∃ m1, m.run (injectJunkMods rnd { pos := pos, next := next, insts := [] } global).insts
        = some (m1, none) ∧ m1.globals global = m.globals global := by
  have h0 : JunkInv m next (m.globals global) m.globals
      (Gen.push ((({ pos := pos, next := next, insts := [] } : Gen).emit .alloca).2.emit
        (fun id => .load id (.global global) true)).2
          (.store (.reg (next + 1)) (.reg next) false))
      (.reg (next + 1)) := by
    refine ⟨?_, ?_, ?_⟩
    · intro i hi
      simp only [Gen.emit, Gen.push, List.nil_append, List.mem_append, List.mem_cons,
        List.mem_singleton, List.not_mem_nil, or_false] at hi
      rcases hi with (hi | hi) | hi <;> subst hi <;> rfl
    · simp only [Gen.emit, Gen.push]; omega
    · simp [Gen.emit, Gen.push, Machine.exec, Machine.step, Machine.eval, Machine.setReg,
        Machine.setSlot]
  have h1 := JunkInv_loop rnd (1 + rand rnd (pos + 1) % 22) _ _
    (or32 (rand rnd pos) 1) (JunkInv_drew (JunkInv_drew h0))
  obtain ⟨m2, hrun, hval⟩ := junk_tail_restores global h1
  refine ⟨m2, ?_, hval⟩
  simpa [injectJunkMods, RandOperationsAt, randNonZeroInt, Gen.emit, Gen.push, Gen.drew]
    using hrun

/-! ### The check of `injectIntegrityValidate` -/

/-- The inserted check always runs to its conditional branch, and the branch goes to the
exit exactly when guard and expected value agree modulo `2^32` and the decoy is 0. -/
theorem injectIntegrityValidate_run (rnd : Nat → Nat) (pos next : Nat)
    (global expected : Global) (thenBlk tail : Nat) (m : Machine)
    (hz : m.globals .zeroVar = 0) :
    m.run (injectIntegrityValidate rnd { pos := pos, next := next, insts := [] }
        global expected thenBlk tail).1.insts =
      some (Machine.setReg (Machine.setReg (Machine.setReg (Machine.setReg (Machine.setReg
          (Machine.setReg m next (m.globals global)) (next + 1) (m.globals expected))
          (next + 1 + 1) 0) (next + 1 + 1 + 1) 0) (next + 1 + 1 + 1 + 1)
          (m.globals expected % 4294967296)) (next + 1 + 1 + 1 + 1 + 1)
          (if m.globals global % 4294967296 = m.globals expected % 4294967296 then 0 else 1),
        some (if m.globals global % 4294967296 = m.globals expected % 4294967296
          then tail else thenBlk)) := by
  simp only [injectIntegrityValidate, randNonZeroInt, Gen.emit, Gen.push, Gen.drew,
    List.nil_append, List.append_assoc, List.singleton_append, List.cons_append]
  rw [show ∀ (a b c d e f t : Inst), [a, b, c, d, e, f, t] = [a, b, c, d, e, f] ++ [t] from
    fun _ _ _ _ _ _ _ => rfl]
  rw [run_append_plain]
  · simp only [Machine.exec, Machine.step, Machine.eval, Machine.setReg, hz,
      Option.map_some', Option.some_bind]
    by_cases h : m.globals global % 4294967296 = m.globals expected % 4294967296
    · simp [Machine.run, Machine.eval, Machine.setReg, evalBinOp, mul32, add32, evalPred, h,
        Nat.add_assoc]
    · simp [Machine.run, Machine.eval, Machine.setReg, evalBinOp, mul32, add32, evalPred, h,
        Nat.add_assoc]
  · intro i hi
    simp only [List.mem_cons, List.mem_singleton, List.not_mem_nil, or_false] at hi
    rcases hi with hi | hi | hi | hi | hi | hi <;> subst hi <;> rfl

/-- C3 (integrity trip-wire): with the decoy cell at 0, for all 32-bit values of the
guard and expected cells and every drawn multiplier, the inserted check runs to its
conditional branch and leaves for the block that calls the handler if and only if the
guard differs from the expected value, and for the exit if and only if they agree. -/
theorem injectIntegrityValidate_tripwire (rnd : Nat → Nat) (pos next : Nat)
    (global expected : Global) (thenBlk tail : Nat) (m : Machine)
    (hblk : thenBlk ≠ tail)
    (hz : m.globals .zeroVar = 0)
    (hg : m.globals global < 4294967296) (he : m.globals expected < 4294967296) :
    (injectIntegrityValidate rnd { pos := pos, next := next, insts := [] }
        global expected thenBlk tail).2 = [.call "on_integrity_violation", .br tail] ∧
    ∃ m1 t, m.run (injectIntegrityValidate rnd { pos := pos, next := next, insts := [] }
        global expected thenBlk tail).1.insts = some (m1, some t) ∧
      (t = thenBlk ↔ m.globals global ≠ m.globals expected) ∧
      (t = tail ↔ m.globals global = m.globals expected) := by
  refine ⟨rfl, _, _, injectIntegrityValidate_run rnd pos next global expected thenBlk tail m hz,
    ?_, ?_⟩
  · rw [Nat.mod_eq_of_lt hg, Nat.mod_eq_of_lt he]
    by_cases h : m.globals global = m.globals expected
    · simp [h, Ne.symm hblk]
    · simp [h]
  · rw [Nat.mod_eq_of_lt hg, Nat.mod_eq_of_lt he]
    by_cases h : m.globals global = m.globals expected
    · simp [h]
    · simp [h, hblk]

/-- C3 at the concrete scenario: a guard forced to `0x1001` against the expected `0x1000`
leaves for the handler block. -/
theorem injectIntegrityValidate_tripwire_witness :
    (1 : Nat) ≠ 2 ∧ (Machine.init tamperedCells).globals .zeroVar = 0 ∧
    (Machine.init tamperedCells).globals .guard < 4294967296 ∧
    (Machine.init tamperedCells).globals .expected < 4294967296 ∧
    ((injectIntegrityValidate (tape []) { pos := 0, next := 0, insts := [] }
        .guard .expected 1 2).2 = [.call "on_integrity_violation", .br 2] ∧
    ∃ m1 t, (Machine.init tamperedCells).run
        (injectIntegrityValidate (tape []) { pos := 0, next := 0, insts := [] }
          .guard .expected 1 2).1.insts = some (m1, some t) ∧
      (t = 1 ↔ (Machine.init tamperedCells).globals .guard
          ≠ (Machine.init tamperedCells).globals .expected) ∧
      (t = 2 ↔ (Machine.init tamperedCells).globals .guard
          = (Machine.init tamperedCells).globals .expected)) :=
  ⟨by decide, rfl, by decide, by decide,
   injectIntegrityValidate_tripwire (tape []) 0 0 .guard .expected 1 2
     (Machine.init tamperedCells) (by decide) rfl (by decide) (by decide)⟩

/-! ### Division safety of `randomOperations` -/

theorem eval_setReg_below (m : Machine) (v : Val) (n r : Nat) (h : v.below n) :
    (m.setReg n r).eval v = m.eval v := by
  cases v with
  | const c => rfl
  | reg i =>
    have : i ≠ n := Nat.ne_of_lt h
    simp [Machine.eval, Machine.setReg, this]
  | global g => rfl

theorem Val.below_mono {v : Val} {n k : Nat} (h : v.below n) (hk : n ≤ k) : v.below k := by
  cases v with
  | const c => trivial
  | reg i => exact Nat.lt_of_lt_of_le h hk
  | global g => exact h

theorem divBound_ge (N : Nat) : 127 ≤ divBound N := by
  unfold divBound; split <;> omega

theorem divBound_le (N : Nat) : divBound N ≤ 635 := by
  unfold divBound; split <;> omega

theorem DivisorsOK_snoc {m : Machine} {B : Nat} {l : List Inst} {i : Inst}
    (h : DivisorsOK m B l)
    (hi : ∀ id op a b, i = .binop id op a b → (op = .sdiv ∨ op = .srem) →
      ∃ m0 v, m.exec l = some m0 ∧ m0.eval b = some v ∧ 2 ≤ v ∧ v ≤ B) :
    DivisorsOK m B (l ++ [i]) := by
  intro k id op a b hk hop
  by_cases hlt : k < l.length
  · rw [List.getElem?_append_left hlt] at hk
    rw [List.take_append_of_le_length (Nat.le_of_lt hlt)]
    exact h k id op a b hk hop
  · by_cases heq : k = l.length
    · subst heq
      rw [List.getElem?_append_right (Nat.le_refl _)] at hk
      simp only [Nat.sub_self, List.getElem?_cons_zero, Option.some.injEq] at hk
      rw [List.take_append_of_le_length (Nat.le_refl _), List.take_length]
      exact hi id op a b hk hop
    · have : (l ++ [i]).length ≤ k := by simp; omega
      rw [List.getElem?_eq_none this] at hk
      cases hk

theorem DivInv_mono {m : Machine} {N n : Nat} {g : Gen}
    {res ly lz : Val} {c1 c2 : Nat} (h : DivInv m N n g res ly lz c1 c2) :
    DivInv m N (n + 1) g res ly lz c1 c2 := by
  obtain ⟨m1, vr, vy, vz, Sy, ky, Sz, kz, h1, h2, h3, h4, h5, h6, h7, h8, h9, h10, h11, h12⟩ := h
  exact ⟨m1, vr, vy, vz, Sy, ky, Sz, kz, h1, h2, h3, h4, h5, h6, h7, h8, h9, h10,
    ⟨h11.1, h11.2.1, by omega, by omega⟩, ⟨h12.1, h12.2.1, by omega, by omega⟩⟩

theorem DivInv_drew {m : Machine} {N n : Nat} {g : Gen}
    {res ly lz : Val} {c1 c2 : Nat} (h : DivInv m N n g res ly lz c1 c2) :
    DivInv m N n g.drew res ly lz c1 c2 := h

/-- The divisor values the invariant knows stay within `divBound N`. -/
theorem divisor_le_bound {N n v k : Nat} (hN : N < 2147483648) (hn : n ≤ N)
    (hv : v ≤ 127 * (k + 1)) (hk : k = 0 ∨ 4294967296 * k ≤ 9 * n + 127 * k) :
    v ≤ divBound N := by
  unfold divBound; split <;> omega

theorem toInt_small (v : Nat) (h : v < 2147483648) : toInt v = (v : Int) := by
  unfold toInt
  have : v % 4294967296 = v := Nat.mod_eq_of_lt (by omega)
  rw [this, if_pos (by omega)]

theorem sdiv32_small (x v : Nat) (h2 : 2 ≤ v) (h : v < 2147483648) :
    ∃ r, sdiv32 x v = some r := by
  unfold sdiv32
  rw [toInt_small v h, if_neg (by omega), if_neg (by omega)]
  exact ⟨_, rfl⟩

theorem srem32_small (x v : Nat) (h2 : 2 ≤ v) (h : v < 2147483648) :
    ∃ r, srem32 x v = some r := by
  unfold srem32
  rw [toInt_small v h, if_neg (by omega), if_neg (by omega)]
  exact ⟨_, rfl⟩

theorem evalBinOp_small (op : BinOp) (x v : Nat) (h2 : 2 ≤ v) (h : v < 2147483648) :
    ∃ r, evalBinOp op x v = some r := by
  cases op
  case sdiv => exact sdiv32_small x v h2 h
  case srem => exact srem32_small x v h2 h
  all_goals exact ⟨_, rfl⟩

theorem evalBinOp_total (op : BinOp) (x y : Nat) (h : op ≠ .sdiv ∧ op ≠ .srem) :
    ∃ r, evalBinOp op x y = some r := by
  cases op
  case sdiv => exact absurd rfl h.1
  case srem => exact absurd rfl h.2
  all_goals exact ⟨_, rfl⟩

/-- Emitting `res = op a b` keeps the invariant when the right operand is a divisor the
invariant knows (`ly`, `lz` or a constant of `[2, 127]`), or when `op` does not divide. -/
theorem DivInv_emit {m : Machine} {N n : Nat} {g : Gen}
    {res ly lz : Val} {c1 c2 : Nat} (h : DivInv m N n g res ly lz c1 c2)
    (hN : N < 2147483648) (hn : n ≤ N) (op : BinOp) (a b : Val)
    (ha : a = res ∨ a = ly ∨ a = lz)
    (hb : b = ly ∨ b = lz ∨ (∃ c, b = .const c ∧ 2 ≤ c ∧ c ≤ 127) ∨
      ((op ≠ .sdiv ∧ op ≠ .srem) ∧ (b = res ∨ ∃ c, b = .const c))) :
    DivInv m N n (g.emit (fun id => .binop id op a b)).2
      (g.emit (fun id => .binop id op a b)).1 ly lz c1 c2 := by
  obtain ⟨m1, vr, vy, vz, Sy, ky, Sz, kz, hexec, hdiv, hbr, hby, hbz, her, hey, hez,
    hvy, hvz, hSy, hSz⟩ := h
  have hky : vy ≤ divBound N := divisor_le_bound hN hn hvy.2 hSy.2.2.2
  have hkz : vz ≤ divBound N := divisor_le_bound hN hn hvz.2 hSz.2.2.2
  have hB := divBound_le N
  have hB2 := divBound_ge N
  obtain ⟨x, hx⟩ : ∃ x, m1.eval a = some x := by
    rcases ha with ha | ha | ha <;> subst ha <;> exact ⟨_, by assumption⟩
  obtain ⟨y, hy, hy2⟩ : ∃ y, m1.eval b = some y ∧
      ((2 ≤ y ∧ y ≤ divBound N) ∨ (op ≠ .sdiv ∧ op ≠ .srem)) := by
    rcases hb with hb | hb | ⟨c, hb, hc2, hc⟩ | ⟨hop, hb | ⟨c, hb⟩⟩
    · subst hb; exact ⟨vy, hey, Or.inl ⟨hvy.1, hky⟩⟩
    · subst hb; exact ⟨vz, hez, Or.inl ⟨hvz.1, hkz⟩⟩
    · subst hb
      refine ⟨c % 4294967296, rfl, Or.inl ?_⟩
      rw [Nat.mod_eq_of_lt (by omega)]; omega
    · subst hb; exact ⟨vr, her, Or.inr hop⟩
    · subst hb; exact ⟨c % 4294967296, rfl, Or.inr hop⟩
  obtain ⟨r, hr⟩ : ∃ r, evalBinOp op x y = some r := by
    rcases hy2 with ⟨h2, h635⟩ | hop
    · exact evalBinOp_small op x y h2 (by omega)
    · exact evalBinOp_total op x y hop
  have hstep : m1.step (.binop g.next op a b) = some (m1.setReg g.next r) := by
    simp only [Machine.step, hx, hy, hr, Option.map_some']
  refine ⟨m1.setReg g.next r, r, vy, vz, Sy, ky, Sz, kz, ?_, ?_, ?_, ?_, ?_, ?_, ?_, ?_,
    hvy, hvz, hSy, hSz⟩
  · simp only [Gen.emit, exec_append, hexec, Option.some_bind, Machine.exec, hstep]
  · refine DivisorsOK_snoc hdiv ?_
    intro id op1 a1 b1 hi hop1
    simp only [Inst.binop.injEq] at hi
    obtain ⟨-, rfl, -, rfl⟩ := hi
    refine ⟨m1, y, hexec, hy, ?_⟩
    rcases hy2 with h | h
    · exact h
    · rcases hop1 with h1 | h1
      · exact absurd h1 h.1
      · exact absurd h1 h.2
  · show g.next < g.next + 1
    omega
  · exact Val.below_mono hby (Nat.le_succ _)
  · exact Val.below_mono hbz (Nat.le_succ _)
  · simp [Gen.emit, Machine.eval, Machine.setReg]
  · show (m1.setReg g.next r).eval ly = some vy
    rw [eval_setReg_below _ _ _ _ hby]; exact hey
  · show (m1.setReg g.next r).eval lz = some vz
    rw [eval_setReg_below _ _ _ _ hbz]; exact hez

/-- The volatile store of case 14 keeps the invariant. -/
theorem DivInv_store {m : Machine} {N n : Nat} {g : Gen}
    {res ly lz : Val} {c1 c2 : Nat} (h : DivInv m N n g res ly lz c1 c2) (tmp : Global) :
    DivInv m N n (g.push (.store res (.global tmp) true)) res ly lz c1 c2 := by
  obtain ⟨m1, vr, vy, vz, Sy, ky, Sz, kz, hexec, hdiv, hbr, hby, hbz, her, hey, hez,
    hvy, hvz, hSy, hSz⟩ := h
  have hstep : m1.step (.store res (.global tmp) true) = some (m1.setGlobal tmp vr) := by
    simp only [Machine.step, her, Option.map_some']
  have heval : ∀ v, (m1.setGlobal tmp vr).eval v = m1.eval v := by
    intro v; cases v <;> rfl
  refine ⟨m1.setGlobal tmp vr, vr, vy, vz, Sy, ky, Sz, kz, ?_, ?_, hbr, hby, hbz, ?_, ?_, ?_,
    hvy, hvz, hSy, hSz⟩
  · simp only [Gen.push, exec_append, hexec, Option.some_bind, Machine.exec, hstep]
  · refine DivisorsOK_snoc hdiv ?_
    intro id op a b hi
    cases hi
  · rw [heval]; exact her
  · rw [heval]; exact hey
  · rw [heval]; exact hez

/-- Function `ensureNot0` on the divisor `ly` keeps the invariant. -/
theorem DivInv_ensureNot0_y {rnd : Nat → Nat} {m : Machine} {N n : Nat} {g : Gen}
    {res ly lz : Val} {c1 c2 : Nat} (h : DivInv m N n g res ly lz c1 c2)
    (hN : N < 2147483648) (hn : n ≤ N) :
    DivInv m N n (ensureNot0 rnd g ly c1).1 res (ensureNot0 rnd g ly c1).2.1 lz
      (ensureNot0 rnd g ly c1).2.2 c2 := by
  unfold ensureNot0
  split
  · rename_i hc
    obtain ⟨m1, vr, vy, vz, Sy, ky, Sz, kz, hexec, hdiv, hbr, hby, hbz, her, hey, hez,
      hvy, hvz, hSy, hSz⟩ := h
    have hadd : 2 ≤ dist8 rnd g.pos ∧ dist8 rnd g.pos ≤ 127 := by
      unfold dist8; omega
    have hB := divBound_le N
    have hky : vy ≤ divBound N := divisor_le_bound hN hn hvy.2 hSy.2.2.2
    have hstep : m1.step (.binop g.next .add ly (.const (dist8 rnd g.pos)))
        = some (m1.setReg g.next (vy + dist8 rnd g.pos)) := by
      have hc : m1.eval (.const (dist8 rnd g.pos)) = some (dist8 rnd g.pos) := by
        simp only [Machine.eval]; rw [Nat.mod_eq_of_lt (by omega)]
      simp only [Machine.step, hey, hc, evalBinOp, add32, Option.map_some']
      rw [Nat.mod_eq_of_lt (by omega)]
    refine ⟨m1.setReg g.next (vy + dist8 rnd g.pos), vr, vy + dist8 rnd g.pos, vz,
      Sy + dist8 rnd g.pos, ky + 1, Sz, kz, ?_, ?_, ?_, ?_, ?_, ?_, ?_, ?_, ?_, hvz, ?_, hSz⟩
    · simp only [Gen.emit, Gen.drew, exec_append, hexec, Option.some_bind, Machine.exec, hstep]
    · refine DivisorsOK_snoc hdiv ?_
      intro id op a b hi hop
      simp only [Inst.binop.injEq] at hi
      obtain ⟨-, rfl, -, -⟩ := hi
      rcases hop with h1 | h1 <;> cases h1
    · exact Val.below_mono hbr (Nat.le_succ _)
    · show g.next < g.next + 1
      omega
    · exact Val.below_mono hbz (Nat.le_succ _)
    · show (m1.setReg g.next _).eval res = some vr
      rw [eval_setReg_below _ _ _ _ hbr]; exact her
    · simp [Gen.emit, Gen.drew, Machine.eval, Machine.setReg]
    · show (m1.setReg g.next _).eval lz = some vz
      rw [eval_setReg_below _ _ _ _ hbz]; exact hez
    · omega
    · refine ⟨?_, ?_, ?_, ?_⟩
      · simp only [add32]; omega
      · omega
      · omega
      · omega
  · exact h

/-- Function `ensureNot0` on the divisor `lz` keeps the invariant. -/
theorem DivInv_ensureNot0_z {rnd : Nat → Nat} {m : Machine} {N n : Nat} {g : Gen}
    {res ly lz : Val} {c1 c2 : Nat} (h : DivInv m N n g res ly lz c1 c2)
    (hN : N < 2147483648) (hn : n ≤ N) :
    DivInv m N n (ensureNot0 rnd g lz c2).1 res ly (ensureNot0 rnd g lz c2).2.1 c1
      (ensureNot0 rnd g lz c2).2.2 := by
  unfold ensureNot0
  split
  · rename_i hc
    obtain ⟨m1, vr, vy, vz, Sy, ky, Sz, kz, hexec, hdiv, hbr, hby, hbz, her, hey, hez,
      hvy, hvz, hSy, hSz⟩ := h
    have hadd : 2 ≤ dist8 rnd g.pos ∧ dist8 rnd g.pos ≤ 127 := by
      unfold dist8; omega
    have hB := divBound_le N
    have hkz : vz ≤ divBound N := divisor_le_bound hN hn hvz.2 hSz.2.2.2
    have hstep : m1.step (.binop g.next .add lz (.const (dist8 rnd g.pos)))
        = some (m1.setReg g.next (vz + dist8 rnd g.pos)) := by
      have hc : m1.eval (.const (dist8 rnd g.pos)) = some (dist8 rnd g.pos) := by
        simp only [Machine.eval]; rw [Nat.mod_eq_of_lt (by omega)]
      simp only [Machine.step, hez, hc, evalBinOp, add32, Option.map_some']
      rw [Nat.mod_eq_of_lt (by omega)]
    refine ⟨m1.setReg g.next (vz + dist8 rnd g.pos), vr, vy, vz + dist8 rnd g.pos,
      Sy, ky, Sz + dist8 rnd g.pos, kz + 1, ?_, ?_, ?_, ?_, ?_, ?_, ?_, ?_, hvy, ?_, hSy, ?_⟩
    · simp only [Gen.emit, Gen.drew, exec_append, hexec, Option.some_bind, Machine.exec, hstep]
    · refine DivisorsOK_snoc hdiv ?_
      intro id op a b hi hop
      simp only [Inst.binop.injEq] at hi
      obtain ⟨-, rfl, -, -⟩ := hi
      rcases hop with h1 | h1 <;> cases h1
    · exact Val.below_mono hbr (Nat.le_succ _)
    · exact Val.below_mono hby (Nat.le_succ _)
    · show g.next < g.next + 1
      omega
    · show (m1.setReg g.next _).eval res = some vr
      rw [eval_setReg_below _ _ _ _ hbr]; exact her
    · show (m1.setReg g.next _).eval ly = some vy
      rw [eval_setReg_below _ _ _ _ hby]; exact hey
    · simp [Gen.emit, Gen.drew, Machine.eval, Machine.setReg]
    · omega
    · refine ⟨?_, ?_, ?_, ?_⟩
      · simp only [add32]; omega
      · omega
      · omega
      · omega
  · exact h

/-- Cases 15 and 16 add at most 9 to a shadow divisor in one iteration. -/
theorem DivInv_bump {m : Machine} {N n : Nat} {g : Gen}
    {res ly lz : Val} {c1 c2 : Nat} (h : DivInv m N n g res ly lz c1 c2) (r : Nat)
    (hr : r ≤ 9) :
    DivInv m N (n + 1) g res ly lz (add32 c1 r) c2 ∧
    DivInv m N (n + 1) g res ly lz c1 (add32 c2 r) := by
  obtain ⟨m1, vr, vy, vz, Sy, ky, Sz, kz, h1, h2, h3, h4, h5, h6, h7, h8, h9, h10, h11, h12⟩ := h
  constructor
  · refine ⟨m1, vr, vy, vz, Sy + r, ky, Sz, kz, h1, h2, h3, h4, h5, h6, h7, h8, h9, h10,
      ⟨?_, by omega, by omega, by omega⟩, ⟨h12.1, h12.2.1, by omega, by omega⟩⟩
    simp only [add32, h11.1]; omega
  · refine ⟨m1, vr, vy, vz, Sy, ky, Sz + r, kz, h1, h2, h3, h4, h5, h6, h7, h8, h9, h10,
      ⟨h11.1, h11.2.1, by omega, by omega⟩, ⟨?_, by omega, by omega, by omega⟩⟩
    simp only [add32, h12.1]; omega

theorem DivInv_step {rnd : Nat → Nat} {ng : Nat} {m : Machine} {N n : Nat} {s s1 : Loop}
    (h : DivInv m N n s.g s.res s.ly s.lz s.control1 s.control2)
    (hN : N < 2147483648) (hn : n < N) (hs : randomStep rnd ng s = some s1) :
    DivInv m N (n + 1) s1.g s1.res s1.ly s1.lz s1.control1 s1.control2 := by
  have hd := DivInv_drew h
  have hn1 : n ≤ N := Nat.le_of_lt hn
  have hnd : ∀ op : BinOp, op = .mul ∨ op = .add ∨ op = .sub ∨ op = .xor ∨ op = .or →
      op ≠ .sdiv ∧ op ≠ .srem := by
    intro op hop
    rcases hop with h | h | h | h | h <;> subst h <;> exact ⟨by decide, by decide⟩
  unfold randomStep at hs
  dsimp only at hs
  split at hs
  · simp only [Option.some.injEq] at hs
    subst hs
    exact DivInv_mono (DivInv_emit hd hN hn1 .mul s.res s.ly (Or.inl rfl) (Or.inl rfl))
  · simp only [Option.some.injEq] at hs
    subst hs
    exact DivInv_mono (DivInv_emit hd hN hn1 .mul s.res s.lz (Or.inl rfl) (Or.inr (Or.inl rfl)))
  · simp only [Option.map_eq_some'] at hs
    obtain ⟨c3, -, rfl⟩ := hs
    exact DivInv_mono (DivInv_emit (DivInv_ensureNot0_z hd hN hn1) hN hn1 .sdiv s.res _
      (Or.inl rfl) (Or.inr (Or.inl rfl)))
  · simp only [Option.map_eq_some'] at hs
    obtain ⟨c3, -, rfl⟩ := hs
    exact DivInv_mono (DivInv_emit (DivInv_ensureNot0_y hd hN hn1) hN hn1 .sdiv s.res _
      (Or.inl rfl) (Or.inl rfl))
  · simp only [Option.some.injEq] at hs
    subst hs
    exact DivInv_mono (DivInv_emit hd hN hn1 .add s.res s.ly (Or.inl rfl) (Or.inl rfl))
  · simp only [Option.some.injEq] at hs
    subst hs
    exact DivInv_mono (DivInv_emit hd hN hn1 .add s.res s.lz (Or.inl rfl) (Or.inr (Or.inl rfl)))
  · simp only [Option.some.injEq] at hs
    subst hs
    exact DivInv_mono (DivInv_emit hd hN hn1 .add s.res s.res (Or.inl rfl)
      (Or.inr (Or.inr (Or.inr ⟨⟨by decide, by decide⟩, Or.inl rfl⟩))))
  · simp only [Option.some.injEq] at hs
    subst hs
    exact DivInv_mono (DivInv_emit hd hN hn1 .sub s.res s.ly (Or.inl rfl) (Or.inl rfl))
  · simp only [Option.some.injEq] at hs
    subst hs
    exact DivInv_mono (DivInv_emit hd hN hn1 .sub s.res s.lz (Or.inl rfl) (Or.inr (Or.inl rfl)))
  · simp only [Option.map_eq_some'] at hs
    obtain ⟨c3, -, rfl⟩ := hs
    refine DivInv_mono (DivInv_emit (DivInv_drew hd) hN hn1 .srem s.res _ (Or.inl rfl)
      (Or.inr (Or.inr (Or.inl ⟨_, rfl, ?_, ?_⟩))))
    · unfold dist8; omega
    · unfold dist8; omega
  · simp only [Option.some.injEq] at hs
    subst hs
    exact DivInv_mono (DivInv_emit hd hN hn1 .xor s.res s.ly (Or.inl rfl) (Or.inl rfl))
  · simp only [Option.some.injEq] at hs
    subst hs
    exact DivInv_mono (DivInv_emit hd hN hn1 .xor s.res s.lz (Or.inl rfl) (Or.inr (Or.inl rfl)))
  · simp only [Option.some.injEq] at hs
    subst hs
    exact DivInv_mono (DivInv_emit hd hN hn1 .or s.res s.ly (Or.inl rfl) (Or.inl rfl))
  · simp only [Option.some.injEq] at hs
    subst hs
    exact DivInv_mono (DivInv_emit hd hN hn1 .or s.res s.lz (Or.inl rfl) (Or.inr (Or.inl rfl)))
  · simp only [Option.map_eq_some'] at hs
    obtain ⟨tmp, -, rfl⟩ := hs
    exact DivInv_mono (DivInv_store (DivInv_drew hd) tmp)
  · simp only [Option.some.injEq] at hs
    subst hs
    exact (DivInv_bump (DivInv_emit (DivInv_drew hd) hN hn1 .add s.ly _ (Or.inr (Or.inl rfl))
      (Or.inr (Or.inr (Or.inr ⟨⟨by decide, by decide⟩, Or.inr ⟨_, rfl⟩⟩)))) _ (by omega)).1
  · simp only [Option.some.injEq] at hs
    subst hs
    exact (DivInv_bump (DivInv_emit (DivInv_drew hd) hN hn1 .add s.lz _
      (Or.inr (Or.inr rfl))
      (Or.inr (Or.inr (Or.inr ⟨⟨by decide, by decide⟩, Or.inr ⟨_, rfl⟩⟩)))) _ (by omega)).2
  · simp only [Option.some.injEq] at hs
    subst hs
    exact DivInv_mono hd

theorem DivInv_loop {rnd : Nat → Nat} {ng : Nat} {m : Machine} {N : Nat}
    (hN : N < 2147483648) (k : Nat) : ∀ (n : Nat) (s s1 : Loop), n + k ≤ N →
      DivInv m N n s.g s.res s.ly s.lz s.control1 s.control2 →
      randomLoop rnd ng k s = some s1 →
      DivInv m N (n + k) s1.g s1.res s1.ly s1.lz s1.control1 s1.control2 := by
  induction k with
  | zero =>
    intro n s s1 _ h hs
    simp only [randomLoop, Option.some.injEq] at hs
    subst hs
    exact h
  | succ k ih =>
    intro n s s1 hnk h hs
    simp only [randomLoop] at hs
    cases hstep : randomStep rnd ng s with
    | none => rw [hstep] at hs; cases hs
    | some s2 =>
      rw [hstep] at hs
      have h2 := DivInv_step h hN (by omega) hstep
      have := ih (n + 1) s2 s1 (by omega) h2 hs
      rwa [show n + (k + 1) = n + 1 + k by omega]

theorem exec_randomInit (rnd : Nat → Nat) (m : Machine) (pos next : Nat) :
    m.exec (randomInit rnd { pos := pos, next := next, insts := [] }).g.insts =
      some (initMachine m next (dist16 rnd pos % 4294967296)
        (dist8 rnd (pos + 1) % 4294967296) (dist8 rnd (pos + 2) % 4294967296)) := by
  simp [randomInit, Gen.emit, Gen.push, Machine.exec, Machine.step, Machine.eval,
    Machine.setSlot, Machine.setReg, Nat.add_assoc, initMachine]

/-- The invariant holds when the loop is entered, in a fresh builder. -/
theorem DivInv_init (rnd : Nat → Nat) (m : Machine) (N pos next : Nat) :
    DivInv m N 0 (randomInit rnd { pos := pos, next := next, insts := [] }).g
      (randomInit rnd { pos := pos, next := next, insts := [] }).res
      (randomInit rnd { pos := pos, next := next, insts := [] }).ly
      (randomInit rnd { pos := pos, next := next, insts := [] }).lz
      (randomInit rnd { pos := pos, next := next, insts := [] }).control1
      (randomInit rnd { pos := pos, next := next, insts := [] }).control2 := by
  have h1 : 2 ≤ dist8 rnd (pos + 1) ∧ dist8 rnd (pos + 1) ≤ 127 := by unfold dist8; omega
  have h2 : 2 ≤ dist8 rnd (pos + 2) ∧ dist8 rnd (pos + 2) ≤ 127 := by unfold dist8; omega
  have e1 : dist8 rnd (pos + 1) % 4294967296 = dist8 rnd (pos + 1) :=
    Nat.mod_eq_of_lt (by omega)
  have e2 : dist8 rnd (pos + 2) % 4294967296 = dist8 rnd (pos + 2) :=
    Nat.mod_eq_of_lt (by omega)
  refine ⟨_, dist16 rnd pos % 4294967296, dist8 rnd (pos + 1), dist8 rnd (pos + 2),
    dist8 rnd (pos + 1), 0, dist8 rnd (pos + 2), 0, exec_randomInit rnd m pos next,
    ?_, ?_, ?_, ?_, ?_, ?_, ?_,
    ⟨h1.1, by omega⟩, ⟨h2.1, by omega⟩, ⟨?_, by omega, by omega, Or.inl rfl⟩,
    ⟨?_, by omega, by omega, Or.inl rfl⟩⟩
  · intro k id op a b hk hop
    simp only [randomInit, Gen.emit, Gen.push, List.nil_append, List.cons_append,
      List.singleton_append] at hk
    match k, hk with
    | 0, hk => simp at hk
    | 1, hk => simp at hk
    | 2, hk => simp at hk
    | 3, hk => simp at hk
    | 4, hk => simp at hk
    | 5, hk => simp at hk
    | 6, hk => simp at hk
    | 7, hk => simp at hk
    | 8, hk => simp at hk
    | k + 9, hk => simp at hk
  · simp [randomInit, Gen.emit, Gen.push, Val.below]
  · simp [randomInit, Gen.emit, Gen.push, Val.below]
  · simp [randomInit, Gen.emit, Gen.push, Val.below]
  · simp [randomInit, Gen.emit, Gen.push, Machine.eval, initMachine, Nat.add_assoc]
  · simp [randomInit, Gen.emit, Gen.push, Machine.eval, initMachine, Nat.add_assoc, e1]
  · simp [randomInit, Gen.emit, Gen.push, Machine.eval, initMachine, Nat.add_assoc, e2]
  · simp [randomInit, e1]
  · simp [randomInit, e2]

/-- Function `ensureNot0` on the result keeps the invariant. -/
theorem DivInv_ensureNot0_res (rnd : Nat → Nat) {m : Machine} {N n : Nat} {g : Gen}
    {res ly lz : Val} {c1 c2 : Nat} (h : DivInv m N n g res ly lz c1 c2)
    (hN : N < 2147483648) (hn : n ≤ N) (c3 : Nat) :
    DivInv m N n (ensureNot0 rnd g res c3).1 (ensureNot0 rnd g res c3).2.1 ly lz c1 c2 := by
  unfold ensureNot0
  split
  · exact DivInv_emit (DivInv_drew h) hN hn .add res (.const (dist8 rnd g.pos))
      (Or.inl rfl) (Or.inr (Or.inr (Or.inr ⟨⟨by decide, by decide⟩, Or.inr ⟨_, rfl⟩⟩)))
  · exact h

/-- Function `ensureGT0` on the result keeps the invariant. -/
theorem DivInv_ensureGT0 (rnd : Nat → Nat) {m : Machine} {N n : Nat} {g : Gen}
    {res ly lz : Val} {c1 c2 : Nat} (h : DivInv m N n g res ly lz c1 c2)
    (hN : N < 2147483648) (hn : n ≤ N) (c3 : Nat) :
    DivInv m N n (ensureGT0 rnd g res c3).1 (ensureGT0 rnd g res c3).2.1 ly lz c1 c2 := by
  have h1 := DivInv_ensureNot0_res rnd h hN hn c3
  unfold ensureGT0
  dsimp only
  split
  · exact DivInv_emit h1 hN hn .and _ (.const 2147483647) (Or.inl rfl)
      (Or.inr (Or.inr (Or.inr ⟨⟨by decide, by decide⟩, Or.inr ⟨_, rfl⟩⟩)))
  · exact h1

/-- C8 (division safety): for every iteration count `N` an `int` can hold and all draws,
the code emitted by `randomOperations` in a fresh builder runs to its end from every
state, and the divisor operand of each of its `sdiv` and `srem` instructions has, when
control reaches the instruction, a non-zero value: it lies in `[2, divBound N]`, which is
`[2, 127]` for every `N` up to 477218574 and `[2, 635]` beyond. -/
theorem randomOperations_divisors_nonzero (rnd : Nat → Nat) (ng pos next N : Nat)
    (m : Machine) (g : Gen) (res : Val) (controlVal : Nat) (hN : N < 2147483648)
    (h : randomOperations rnd ng { pos := pos, next := next, insts := [] } N
      = some (g, res, controlVal)) :
    (∃ m1, m.exec g.insts = some m1) ∧
    ∀ k id op a b, g.insts[k]? = some (.binop id op a b) → (op = .sdiv ∨ op = .srem) →
      ∃ m0 v, m.exec (g.insts.take k) = some m0 ∧ m0.eval b = some v ∧
        toInt v ≠ 0 ∧ 2 ≤ v ∧ v ≤ divBound N := by
  unfold randomOperations at h
  cases hl : randomLoop rnd ng N (randomInit rnd { pos := pos, next := next, insts := [] }) with
  | none => rw [hl] at h; cases h
  | some s =>
    rw [hl] at h
    simp only [Option.some.injEq, Prod.mk.injEq] at h
    obtain ⟨rfl, -, -⟩ := h
    have h0 := DivInv_loop hN N 0 _ s (by omega) (DivInv_init rnd m N pos next) hl
    have h1 := DivInv_ensureGT0 rnd h0 hN (by omega) s.control3
    obtain ⟨m1, vr, vy, vz, Sy, ky, Sz, kz, hexec, hdiv, -⟩ := h1
    refine ⟨⟨m1, hexec⟩, ?_⟩
    intro k id op a b hk hop
    obtain ⟨m0, v, hm0, hv, h2, hB⟩ := hdiv k id op a b hk hop
    have hB2 := divBound_le N
    refine ⟨m0, v, hm0, hv, ?_, h2, hB⟩
    rw [toInt_small v (by omega)]
    omega

/-- C8 at a concrete emission: one iteration with the choice `sdiv res, lz`. -/
theorem randomOperations_divisors_nonzero_witness :
    (1 : Nat) < 2147483648 ∧
    randomOperations (tape [7, 0, 0, 2]) 1 { pos := 0, next := 0, insts := [] } 1
      = some (sdivExample.1, sdivExample.2.1, sdivExample.2.2) ∧
    ((∃ m1, (Machine.init (fun _ => 0)).exec sdivExample.1.insts = some m1) ∧
    ∀ k id op a b, sdivExample.1.insts[k]? = some (.binop id op a b) →
      (op = .sdiv ∨ op = .srem) →
      ∃ m0 v, (Machine.init (fun _ => 0)).exec (sdivExample.1.insts.take k) = some m0 ∧
        m0.eval b = some v ∧ toInt v ≠ 0 ∧ 2 ≤ v ∧ v ≤ divBound 1) :=
  ⟨by decide, rfl,
   randomOperations_divisors_nonzero (tape [7, 0, 0, 2]) 1 0 0 1 (Machine.init (fun _ => 0))
     sdivExample.1 sdivExample.2.1 sdivExample.2.2 (by decide) rfl⟩

/-! ### What `randomOperations` appends, and when it has a result -/

theorem Gen.Extends.refl (g : Gen) : g.Extends g := ⟨[], by simp, by simp⟩

theorem Gen.Extends.trans {a b c : Gen} (h1 : a.Extends b) (h2 : b.Extends c) :
    a.Extends c := by
  obtain ⟨x, hx, hxp⟩ := h1
  obtain ⟨y, hy, hyp⟩ := h2
  refine ⟨x ++ y, by rw [hy, hx, List.append_assoc], ?_⟩
  intro i hi
  rcases List.mem_append.1 hi with h | h
  · exact hxp i h
  · exact hyp i h

theorem Gen.Extends.drew (g : Gen) : g.Extends g.drew := ⟨[], by simp [Gen.drew], by simp⟩

theorem Gen.Extends.emit (g : Gen) (mk : Nat → Inst) (h : Inst.isPlain (mk g.next) = true) :
    g.Extends (g.emit mk).2 :=
  ⟨[mk g.next], rfl, by simpa using h⟩

theorem Gen.Extends.push (g : Gen) (i : Inst) (h : Inst.isPlain i = true) :
    g.Extends (g.push i) :=
  ⟨[i], rfl, by simpa using h⟩

theorem Gen.Extends.binop (g : Gen) (op : BinOp) (a b : Val) :
    g.Extends (g.emit (fun id => .binop id op a b)).2 :=
  Gen.Extends.emit g _ rfl

theorem Gen.Extends.store (g : Gen) (v p : Val) (vol : Bool) :
    g.Extends (g.push (.store v p vol)) :=
  Gen.Extends.push g _ rfl

theorem ensureNot0_extends (rnd : Nat → Nat) (g : Gen) (value : Val) (control : Nat) :
    g.Extends (ensureNot0 rnd g value control).1 := by
  unfold ensureNot0
  split
  · exact (Gen.Extends.drew g).trans (Gen.Extends.binop _ _ _ _)
  · exact Gen.Extends.refl g

theorem ensureGT0_extends (rnd : Nat → Nat) (g : Gen) (value : Val) (control : Nat) :
    g.Extends (ensureGT0 rnd g value control).1 := by
  have h1 := ensureNot0_extends rnd g value control
  unfold ensureGT0
  dsimp only
  split
  · exact h1.trans (Gen.Extends.binop _ _ _ _)
  · exact h1

theorem randomStep_extends {rnd : Nat → Nat} {ng : Nat} {s s1 : Loop}
    (hs : randomStep rnd ng s = some s1) : s.g.Extends s1.g := by
  have hd := Gen.Extends.drew s.g
  unfold randomStep at hs
  dsimp only at hs
  split at hs
  case h_3 =>
    simp only [Option.map_eq_some'] at hs
    obtain ⟨c3, -, rfl⟩ := hs
    exact (hd.trans (ensureNot0_extends _ _ _ _)).trans (Gen.Extends.binop _ _ _ _)
  case h_4 =>
    simp only [Option.map_eq_some'] at hs
    obtain ⟨c3, -, rfl⟩ := hs
    exact (hd.trans (ensureNot0_extends _ _ _ _)).trans (Gen.Extends.binop _ _ _ _)
  case h_10 =>
    simp only [Option.map_eq_some'] at hs
    obtain ⟨c3, -, rfl⟩ := hs
    exact (hd.trans (Gen.Extends.drew _)).trans (Gen.Extends.binop _ _ _ _)
  case h_15 =>
    simp only [Option.map_eq_some'] at hs
    obtain ⟨tmp, -, rfl⟩ := hs
    exact (hd.trans (Gen.Extends.drew _)).trans (Gen.Extends.store _ _ _ _)
  case h_16 =>
    simp only [Option.some.injEq] at hs
    subst hs
    exact (hd.trans (Gen.Extends.drew _)).trans (Gen.Extends.binop _ _ _ _)
  case h_17 =>
    simp only [Option.some.injEq] at hs
    subst hs
    exact (hd.trans (Gen.Extends.drew _)).trans (Gen.Extends.binop _ _ _ _)
  case h_18 =>
    simp only [Option.some.injEq] at hs
    subst hs
    exact hd
  all_goals
    simp only [Option.some.injEq] at hs
    subst hs
    exact hd.trans (Gen.Extends.binop _ _ _ _)

theorem randomLoop_extends {rnd : Nat → Nat} {ng : Nat} (k : Nat) :
    ∀ (s s1 : Loop), randomLoop rnd ng k s = some s1 → s.g.Extends s1.g := by
  induction k with
  | zero =>
    intro s s1 hs
    simp only [randomLoop, Option.some.injEq] at hs
    subst hs
    exact Gen.Extends.refl _
  | succ k ih =>
    intro s s1 hs
    simp only [randomLoop] at hs
    cases hstep : randomStep rnd ng s with
    | none => rw [hstep] at hs; cases hs
    | some s2 =>
      rw [hstep] at hs
      exact (randomStep_extends hstep).trans (ih s2 s1 hs)

theorem randomInit_extends (rnd : Nat → Nat) (g : Gen) : g.Extends (randomInit rnd g).g := by
  refine ⟨[.alloca g.next, .store (.const (dist16 rnd g.pos)) (.reg g.next) false,
    .alloca (g.next + 1), .store (.const (dist8 rnd (g.pos + 1))) (.reg (g.next + 1)) false,
    .alloca (g.next + 1 + 1),
    .store (.const (dist8 rnd (g.pos + 2))) (.reg (g.next + 1 + 1)) false,
    .load (g.next + 1 + 1 + 1) (.reg g.next) false,
    .load (g.next + 1 + 1 + 1 + 1) (.reg (g.next + 1)) false,
    .load (g.next + 1 + 1 + 1 + 1 + 1) (.reg (g.next + 1 + 1)) false], ?_, ?_⟩
  · simp [randomInit, Gen.emit, Gen.push]
  · intro i hi
    simp only [List.mem_cons, List.mem_singleton, List.not_mem_nil, or_false] at hi
    rcases hi with hi | hi | hi | hi | hi | hi | hi | hi | hi <;> subst hi <;> rfl

/-- What `randomOperations` emits is a run of plain instructions. -/
theorem randomOperations_extends {rnd : Nat → Nat} {ng : Nat} {g g1 : Gen} {N : Nat}
    {res : Val} {c : Nat} (h : randomOperations rnd ng g N = some (g1, res, c)) :
    g.Extends g1 := by
  unfold randomOperations at h
  cases hl : randomLoop rnd ng N (randomInit rnd g) with
  | none => rw [hl] at h; cases h
  | some s =>
    rw [hl] at h
    simp only [Option.some.injEq, Prod.mk.injEq] at h
    obtain ⟨rfl, -, -⟩ := h
    exact ((randomInit_extends rnd g).trans (randomLoop_extends N _ _ hl)).trans
      (ensureGT0_extends _ _ _ _)

theorem ensureNot0_of_ne_zero (rnd : Nat → Nat) (g : Gen) (value : Val) (control : Nat)
    (h : control ≠ 0) : ensureNot0 rnd g value control = (g, value, control) := by
  unfold ensureNot0
  rw [if_neg h]

/-- One iteration has a result while both shadow divisors are in `[2, 2^31 - 10]` and the
scratch pool is not empty; it adds at most 9 to either. -/
theorem randomStep_succeeds (rnd : Nat → Nat) {ng : Nat} (s : Loop) (hng : 0 < ng)
    (h1 : 2 ≤ s.control1 ∧ s.control1 + 9 < 2147483648)
    (h2 : 2 ≤ s.control2 ∧ s.control2 + 9 < 2147483648) :
    ∃ s1, randomStep rnd ng s = some s1 ∧
      (2 ≤ s1.control1 ∧ s1.control1 ≤ s.control1 + 9) ∧
      (2 ≤ s1.control2 ∧ s1.control2 ≤ s.control2 + 9) := by
  have e1 := ensureNot0_of_ne_zero rnd s.g.drew s.ly s.control1 (by omega)
  have e2 := ensureNot0_of_ne_zero rnd s.g.drew s.lz s.control2 (by omega)
  have hg : getRandGlobal rnd ng s.g.drew.pos = some (.scratch (rnd s.g.drew.pos % ng)) := by
    unfold getRandGlobal
    rw [if_neg (by omega)]
  unfold randomStep
  dsimp only
  split
  case h_3 =>
    obtain ⟨r, hr⟩ := sdiv32_small s.control3 s.control2 h2.1 (by omega)
    rw [e2]
    simp only [hr, Option.map_some']
    exact ⟨_, rfl, ⟨h1.1, Nat.le_add_right _ _⟩, ⟨h2.1, Nat.le_add_right _ _⟩⟩
  case h_4 =>
    obtain ⟨r, hr⟩ := sdiv32_small s.control3 s.control1 h1.1 (by omega)
    rw [e1]
    simp only [hr, Option.map_some']
    exact ⟨_, rfl, ⟨h1.1, Nat.le_add_right _ _⟩, ⟨h2.1, Nat.le_add_right _ _⟩⟩
  case h_10 =>
    obtain ⟨r, hr⟩ := srem32_small s.control3 (dist8 rnd s.g.drew.pos)
      (by unfold dist8; omega) (by unfold dist8; omega)
    simp only [hr, Option.map_some']
    exact ⟨_, rfl, ⟨h1.1, Nat.le_add_right _ _⟩, ⟨h2.1, Nat.le_add_right _ _⟩⟩
  case h_15 =>
    simp only [hg, Option.map_some']
    exact ⟨_, rfl, ⟨h1.1, Nat.le_add_right _ _⟩, ⟨h2.1, Nat.le_add_right _ _⟩⟩
  case h_16 =>
    refine ⟨_, rfl, ⟨?_, ?_⟩, ⟨h2.1, Nat.le_add_right _ _⟩⟩
    · show 2 ≤ (s.control1 + (1 + rd rnd s.g.drew.pos % 9)) % 4294967296
      omega
    · show (s.control1 + (1 + rd rnd s.g.drew.pos % 9)) % 4294967296 ≤ s.control1 + 9
      omega
  case h_17 =>
    refine ⟨_, rfl, ⟨h1.1, Nat.le_add_right _ _⟩, ⟨?_, ?_⟩⟩
    · show 2 ≤ (s.control2 + (1 + rd rnd s.g.drew.pos % 9)) % 4294967296
      omega
    · show (s.control2 + (1 + rd rnd s.g.drew.pos % 9)) % 4294967296 ≤ s.control2 + 9
      omega
  all_goals exact ⟨_, rfl, ⟨h1.1, Nat.le_add_right _ _⟩, ⟨h2.1, Nat.le_add_right _ _⟩⟩

theorem randomLoop_succeeds (rnd : Nat → Nat) {ng : Nat} (hng : 0 < ng) (k : Nat) :
    ∀ (s : Loop) (b : Nat), b + 9 * k < 2147483648 →
      (2 ≤ s.control1 ∧ s.control1 ≤ b) → (2 ≤ s.control2 ∧ s.control2 ≤ b) →
      ∃ s1, randomLoop rnd ng k s = some s1 := by
  induction k with
  | zero => intro s b _ _ _; exact ⟨s, rfl⟩
  | succ k ih =>
    intro s b hb h1 h2
    obtain ⟨s1, hs1, h11, h12⟩ := randomStep_succeeds rnd s hng ⟨h1.1, by omega⟩ ⟨h2.1, by omega⟩
    obtain ⟨s2, hs2⟩ := ih s1 (b + 9) (by omega) ⟨h11.1, by omega⟩ ⟨h12.1, by omega⟩
    exact ⟨s2, by simp only [randomLoop, hs1, hs2]⟩

/-- Function `randomOperations` has a result for every iteration count up to 238609280
(so for every count the callers draw), provided the scratch pool is not empty. -/
theorem randomOperations_succeeds (rnd : Nat → Nat) {ng : Nat} (hng : 0 < ng) (g : Gen)
    (N : Nat) (hN : 9 * N + 127 < 2147483648) :
    ∃ g1 res c, randomOperations rnd ng g N = some (g1, res, c) := by
  have h1 : 2 ≤ dist8 rnd (g.pos + 1) ∧ dist8 rnd (g.pos + 1) ≤ 127 := by unfold dist8; omega
  have h2 : 2 ≤ dist8 rnd (g.pos + 2) ∧ dist8 rnd (g.pos + 2) ≤ 127 := by unfold dist8; omega
  obtain ⟨s, hs⟩ := randomLoop_succeeds rnd hng N (randomInit rnd g) 127 (by omega) h1 h2
  unfold randomOperations
  rw [hs]
  exact ⟨_, _, _, rfl⟩

/-! ### Blocks of a function under the rewriting primitives -/

theorem length_updBlock (f : BasicBlock → BasicBlock) (b : Nat) (F : List BasicBlock) :
    (updBlock f b F).length = F.length := by
  induction F generalizing b with
  | nil => cases b <;> rfl
  | cons B F ih =>
    cases b with
    | zero => rfl
    | succ b => simp [updBlock, ih]

theorem getElem?_updBlock (f : BasicBlock → BasicBlock) (b i : Nat) (F : List BasicBlock) :
    (updBlock f b F)[i]? = if i = b then F[i]?.map f else F[i]? := by
  induction F generalizing b i with
  | nil => cases b <;> simp [updBlock]
  | cons B F ih =>
    cases b with
    | zero =>
      cases i with
      | zero => simp [updBlock]
      | succ i => simp [updBlock]
    | succ b =>
      cases i with
      | zero => simp [updBlock]
      | succ i => simp [updBlock, ih]

theorem length_appendInsts (F : List BasicBlock) (b : Nat) (body : List Inst) :
    (appendInsts F b body).length = F.length :=
  length_updBlock _ b F

/-! ### Termination and size of `genFakeFlow` -/

theorem updBlock_updBlock (f g : BasicBlock → BasicBlock) (b : Nat) (F : List BasicBlock) :
    updBlock g b (updBlock f b F) = updBlock (fun B => g (f B)) b F := by
  induction F generalizing b with
  | nil => cases b <;> rfl
  | cons B F ih =>
    cases b with
    | zero => rfl
    | succ b => simp [updBlock, ih]

theorem appendInsts_appendInsts (F : List BasicBlock) (b : Nat) (x y : List Inst) :
    appendInsts (appendInsts F b x) b y = appendInsts F b (x ++ y) := by
  unfold appendInsts
  rw [updBlock_updBlock]
  simp only [List.append_assoc]

theorem updBlock_append_of_lt (f : BasicBlock → BasicBlock) (b : Nat)
    (F G : List BasicBlock) (h : b < F.length) :
    updBlock f b (F ++ G) = updBlock f b F ++ G := by
  induction F generalizing b with
  | nil => simp at h
  | cons B F ih =>
    cases b with
    | zero => rfl
    | succ b =>
      simp only [List.cons_append, updBlock, List.cons.injEq, true_and]
      exact ih b (by simpa using h)

theorem updBlock_id (f : BasicBlock → BasicBlock) (hf : ∀ B, f B = B) (b : Nat)
    (F : List BasicBlock) : updBlock f b F = F := by
  induction F generalizing b with
  | nil => cases b <;> rfl
  | cons B F ih =>
    cases b with
    | zero => simp [updBlock, hf]
    | succ b => simp [updBlock, ih]

theorem appendInsts_nil (F : List BasicBlock) (b : Nat) : appendInsts F b [] = F :=
  updBlock_id _ (fun B => by simp) b F

/-! ### The shape of one level of `genFakeFlow` -/

/-- Cases 2 to 6: a new registered block `right`, the recursive call on it, then a
comparison against a constant and the conditional branch. -/
theorem condShape_const {recurse : Nat → FState → Option FState} {block leftBlock : Nat}
    {s s4 : FState} (p : Pred) (res : Val) (c : Nat) (pos : Nat)
    (hrec : recurse (s.drew.createBlock "right").1
      ((s.drew.createBlock "right").2.pushBB (s.drew.createBlock "right").1) = some s4) :
    CondShape recurse block leftBlock s
      ((({ s4 with pos := pos } : FState).emitAt block
          (fun id => .icmp id p res (.const c))).2.pushInst block
        (.condBr (({ s4 with pos := pos } : FState).emitAt block
          (fun id => .icmp id p res (.const c))).1 (s.drew.createBlock "right").1 leftBlock)) := by
  refine ⟨_, [], (s.drew.createBlock "right").2.pushBB (s.drew.createBlock "right").1, s4,
    .icmp s4.next p res (.const c), .reg s4.next, rfl, by simp, ?_, rfl, hrec, rfl, rfl, rfl⟩
  simp [appendInsts_nil, FState.pushBB, FState.createBlock, FState.drew]

/-- What the `switch` of `genFakeFlow` does to the blocks and the candidate list: either
a plain instruction and `br leftBlock` at the end of `block` (case 0), or plain
instructions at the end of `block`, a new registered block `right`, the recursive call on
it, and then a comparison and `condBr cmp, right, leftBlock` at the end of `block`. -/
theorem fakeSwitch_cases {rnd : Nat → Nat} {ng : Nat}
    {recurse : Nat → FState → Option FState} {block leftBlock : Nat} {res : Val}
    {s sF : FState} (h : fakeSwitch rnd ng recurse block leftBlock res s = some sF) :
    (∃ i, Inst.isPlain i = true ∧
        sF.blocks = appendInsts (appendInsts s.blocks block [i]) block [.br leftBlock] ∧
        sF.allBB = s.allBB) ∨
    CondShape recurse block leftBlock s sF := by
  have hlt : rd rnd s.pos % 7 < 7 := Nat.mod_lt _ (by decide)
  unfold fakeSwitch at h
  dsimp only at h
  split at h
  · -- case 0
    split at h
    · cases h
    · rename_i tmp _
      simp only [Option.some.injEq] at h
      subst h
      exact Or.inl ⟨.store res (.global tmp) true, rfl, rfl, rfl⟩
  · -- case 1
    split at h
    · cases h
    · split at h
      · cases h
      · rename_i tmp _ _ s4 hrec
        simp only [Option.some.injEq] at h
        subst h
        refine Or.inr ⟨_, [.load s.next (.global tmp) false], _, s4,
          .icmp s4.next .sgt res (.reg s.next), .reg s4.next, ?_, ?_, ?_, ?_, hrec, rfl, rfl,
          rfl⟩
        · simp [FState.createBlock, FState.emitAt, FState.drew, length_appendInsts]
        · intro i hi
          simp only [List.mem_singleton] at hi
          subst hi; rfl
        · rfl
        · rfl
  · split at h
    · cases h
    · rename_i s4 hrec
      simp only [Option.some.injEq] at h
      subst h
      exact Or.inr (condShape_const .sgt res _ _ hrec)
  · split at h
    · cases h
    · rename_i s4 hrec
      simp only [Option.some.injEq] at h
      subst h
      exact Or.inr (condShape_const .ne res _ _ hrec)
  · split at h
    · cases h
    · rename_i s4 hrec
      simp only [Option.some.injEq] at h
      subst h
      exact Or.inr (condShape_const .eq res _ _ hrec)
  · split at h
    · cases h
    · rename_i s4 hrec
      simp only [Option.some.injEq] at h
      subst h
      exact Or.inr (condShape_const .ne res 0 s4.pos hrec)
  · split at h
    · cases h
    · rename_i s4 hrec
      simp only [Option.some.injEq] at h
      subst h
      exact Or.inr (condShape_const .eq res 0 s4.pos hrec)
  · rename_i h0 h1 h2 h3 h4 h5 h6
    have k0 : rd rnd s.pos % 7 ≠ 0 := h0
    have k1 : rd rnd s.pos % 7 ≠ 1 := h1
    have k2 : rd rnd s.pos % 7 ≠ 2 := h2
    have k3 : rd rnd s.pos % 7 ≠ 3 := h3
    have k4 : rd rnd s.pos % 7 ≠ 4 := h4
    have k5 : rd rnd s.pos % 7 ≠ 5 := h5
    have k6 : rd rnd s.pos % 7 ≠ 6 := h6
    omega

theorem genFakeFlow_zero_cases {rnd : Nat → Nat} {ng : Nat} {block : Nat} {s sF : FState}
    (h : genFakeFlow rnd ng 0 block s = some sF) :
    ∃ target, target ∈ s.allBB ∧ sF.blocks = appendInsts s.blocks block [.br target] ∧
      sF.allBB = s.allBB := by
  simp only [genFakeFlow] at h
  split at h
  · cases h
  · rename_i target ht
    simp only [Option.some.injEq] at h
    subst h
    exact ⟨target, List.getElem?_mem ht, rfl, rfl⟩

theorem genFakeFlow_succ_cases {rnd : Nat → Nat} {ng : Nat} {D block : Nat} {s sF : FState}
    (h : genFakeFlow rnd ng (D + 1) block s = some sF) :
    ∃ (left : Nat) (body : List Inst) (s1 s2 : FState) (res : Val),
      left = s.blocks.length ∧ (∀ i ∈ body, Inst.isPlain i = true) ∧
      s1.blocks = appendInsts s.blocks block body ++ [newBlock "left"] ∧
      s1.allBB = s.allBB ++ [left] ∧
      fakeSwitch rnd ng (genFakeFlow rnd ng D) block left res s1 = some s2 ∧
      genFakeFlow rnd ng D left s2 = some sF := by
  simp only [genFakeFlow] at h
  split at h
  · cases h
  · rename_i g res c hro
    split at h
    · cases h
    · rename_i s2 hsw
      obtain ⟨body, hbody, hplain⟩ := randomOperations_extends hro
      refine ⟨_, body, _, s2, res, ?_, hplain, ?_, rfl, hsw, h⟩
      · simp [FState.createBlock, FState.putGen, FState.drew, length_appendInsts]
      · simp only [FState.gen, List.nil_append] at hbody
        simp [FState.pushBB, FState.createBlock, FState.putGen, FState.drew, hbody]

/-- Invariant rule for `genFakeFlow`. A property `I` of the blocks, the candidate list
and the set `O` of blocks still without terminator that is kept by (1) plain instructions
appended to a block of `O`, (2) a new empty block, registered as candidate and added to
`O`, and (3) a branch to candidates appended to a block of `O`, which leaves `O`, is
carried by `genFakeFlow` from its entry, with `block` in `O`, to its exit, with `block`
out of `O`. The candidate list only grows. -/
theorem genFakeFlow_rule {rnd : Nat → Nat} {ng : Nat}
    (I : List BasicBlock → List Nat → (Nat → Prop) → Prop)
    (hbound : ∀ F A O, I F A O → ∀ i, O i → i < F.length)
    (happ : ∀ F A O b body, I F A O → O b → (∀ i ∈ body, Inst.isPlain i = true) →
      I (appendInsts F b body) A O)
    (hnew : ∀ F A O name, I F A O →
      I (F ++ [newBlock name]) (A ++ [F.length]) (fun i => O i ∨ i = F.length))
    (hterm : ∀ F A O b t, I F A O → O b → ((∃ x, t = .br x) ∨ (∃ c x y, t = .condBr c x y)) →
      (∀ x ∈ t.successors, x ∈ A) → I (appendInsts F b [t]) A (fun i => O i ∧ i ≠ b))
    (D : Nat) :
    ∀ (block : Nat) (s sF : FState) (O : Nat → Prop), I s.blocks s.allBB O → O block →
      genFakeFlow rnd ng D block s = some sF →
      I sF.blocks sF.allBB (fun i => O i ∧ i ≠ block) ∧ ∀ x ∈ s.allBB, x ∈ sF.allBB := by
  induction D with
  | zero =>
    intro block s sF O hI hb h
    obtain ⟨target, ht, hblocks, hall⟩ := genFakeFlow_zero_cases h
    rw [hblocks, hall]
    exact ⟨hterm _ _ _ _ _ hI hb (Or.inl ⟨_, rfl⟩) (by simpa [Inst.successors] using ht),
      fun x hx => hx⟩
  | succ D ih =>
    intro block s sF O hI hb h
    obtain ⟨left, body, s1, s2, res, hleft, hplain, hb1, ha1, hsw, hrecL⟩ :=
      genFakeFlow_succ_cases h
    have hOlt : ∀ i, O i → i < s.blocks.length := hbound _ _ _ hI
    have hblt : block < s.blocks.length := hOlt _ hb
    have I1 := happ _ _ _ _ body hI hb hplain
    have I2 := hnew _ _ _ "left" I1
    rw [length_appendInsts, ← hleft, ← hb1, ← ha1] at I2
    have hleft1 : left ∈ s1.allBB := by rw [ha1]; simp
    rcases fakeSwitch_cases hsw with ⟨i, hi, hb2, ha2⟩ | ⟨right, body2, s3, s4, cmpI, c, hright,
      hplain2, hb3, ha3, hrecR, hcmp, hb2, ha2⟩
    · -- case 0: a store and `br left`
      have I3 := happ _ _ _ block [i] I2 (Or.inl hb) (by simpa using hi)
      have I4 := hterm _ _ _ block (.br left) I3 (Or.inl hb) (Or.inl ⟨_, rfl⟩)
        (by simpa [Inst.successors] using hleft1)
      rw [← hb2, ← ha2] at I4
      obtain ⟨I5, hmono⟩ := ih left s2 sF _ I4 ⟨Or.inr rfl, by omega⟩ hrecL
      refine ⟨?_, ?_⟩
      · have hO : (fun i => ((O i ∨ i = left) ∧ i ≠ block) ∧ i ≠ left)
            = (fun i => O i ∧ i ≠ block) := by
          funext i
          apply propext
          constructor
          · rintro ⟨⟨h1 | h1, h2⟩, h3⟩
            · exact ⟨h1, h2⟩
            · exact absurd h1 h3
          · rintro ⟨h1, h2⟩
            have := hOlt i h1
            exact ⟨⟨Or.inl h1, h2⟩, by omega⟩
        rw [← hO]
        exact I5
      · intro x hx
        apply hmono
        rw [ha2, ha1]
        exact List.mem_append_left _ hx
    · -- cases 1 to 6: the `right` subtree and the conditional branch
      have hlen1 : s1.blocks.length = s.blocks.length + 1 := by
        rw [hb1]; simp [length_appendInsts]
      have I3 := happ _ _ _ block body2 I2 (Or.inl hb) hplain2
      have I4 := hnew _ _ _ "right" I3
      rw [length_appendInsts, ← hright, ← hb3, ← ha3] at I4
      obtain ⟨I5, hmonoR⟩ := ih right s3 s4 _ I4 (Or.inr rfl) hrecR
      have hbO : ((O block ∨ block = left) ∨ block = right) ∧ block ≠ right :=
        ⟨Or.inl (Or.inl hb), by omega⟩
      have I6 := happ _ _ _ block [cmpI] I5 hbO (by simpa using hcmp)
      have hr4 : right ∈ s4.allBB := hmonoR _ (by rw [ha3]; simp)
      have hl4 : left ∈ s4.allBB := hmonoR _ (by rw [ha3]; exact List.mem_append_left _ hleft1)
      have I7 := hterm _ _ _ block (.condBr c right left) I6 hbO (Or.inr ⟨_, _, _, rfl⟩)
        (by
          intro x hx
          simp only [Inst.successors, List.mem_cons, List.mem_singleton, List.not_mem_nil,
            or_false] at hx
          rcases hx with rfl | rfl
          · exact hr4
          · exact hl4)
      rw [← hb2, ← ha2] at I7
      obtain ⟨I8, hmonoL⟩ := ih left s2 sF _ I7
        ⟨⟨Or.inl (Or.inr rfl), by omega⟩, by omega⟩ hrecL
      refine ⟨?_, ?_⟩
      · have hO : (fun i => ((((O i ∨ i = left) ∨ i = right) ∧ i ≠ right) ∧ i ≠ block)
            ∧ i ≠ left) = (fun i => O i ∧ i ≠ block) := by
          funext i
          apply propext
          constructor
          · rintro ⟨⟨⟨(h1 | h1) | h1, h2⟩, h3⟩, h4⟩
            · exact ⟨h1, h3⟩
            · exact absurd h1 h4
            · exact absurd h1 h2
          · rintro ⟨h1, h2⟩
            have := hOlt i h1
            exact ⟨⟨⟨Or.inl (Or.inl h1), by omega⟩, h2⟩, by omega⟩
        rw [← hO]
        exact I8
      · intro x hx
        apply hmonoL
        rw [ha2]
        apply hmonoR
        rw [ha3, ha1]
        exact List.mem_append_left _ (List.mem_append_left _ hx)

/-! ### Termination and size of `genFakeFlow` -/

theorem fakeSwitch_succeeds (rnd : Nat → Nat) {ng : Nat} (hng : 0 < ng)
    {recurse : Nat → FState → Option FState}
    (hrec : ∀ b t, t.allBB ≠ [] → ∃ t1, recurse b t = some t1 ∧ t1.allBB ≠ [])
    (block leftBlock : Nat) (res : Val) (s : FState) (hs : s.allBB ≠ []) :
    ∃ s1, fakeSwitch rnd ng recurse block leftBlock res s = some s1 ∧ s1.allBB ≠ [] := by
  have hg : ∀ p, getRandGlobal rnd ng p = some (.scratch (rnd p % ng)) := by
    intro p
    unfold getRandGlobal
    rw [if_neg (by omega)]
  have hpush : ∀ (t : FState) (b : Nat), (t.pushBB b).allBB ≠ [] := by
    intro t b
    simp [FState.pushBB]
  unfold fakeSwitch
  dsimp only
  split
  · simp only [hg]
    exact ⟨_, rfl, hs⟩
  · simp only [hg]
    obtain ⟨t1, ht1, hne⟩ := hrec _ _ (hpush _ _)
    rw [ht1]
    exact ⟨_, rfl, hne⟩
  · obtain ⟨t1, ht1, hne⟩ := hrec _ _ (hpush _ _)
    rw [ht1]
    exact ⟨_, rfl, hne⟩
  · obtain ⟨t1, ht1, hne⟩ := hrec _ _ (hpush _ _)
    rw [ht1]
    exact ⟨_, rfl, hne⟩
  · obtain ⟨t1, ht1, hne⟩ := hrec _ _ (hpush _ _)
    rw [ht1]
    exact ⟨_, rfl, hne⟩
  · obtain ⟨t1, ht1, hne⟩ := hrec _ _ (hpush _ _)
    rw [ht1]
    exact ⟨_, rfl, hne⟩
  · obtain ⟨t1, ht1, hne⟩ := hrec _ _ (hpush _ _)
    rw [ht1]
    exact ⟨_, rfl, hne⟩
  · exact ⟨_, rfl, hs⟩

/-- Function `genFakeFlow` has a result whenever the candidate list and the scratch pool
are not empty; the candidate list stays non-empty. -/
theorem genFakeFlow_succeeds (rnd : Nat → Nat) {ng : Nat} (hng : 0 < ng) (D : Nat) :
    ∀ (block : Nat) (s : FState), s.allBB ≠ [] →
      ∃ s1, genFakeFlow rnd ng D block s = some s1 ∧ s1.allBB ≠ [] := by
  induction D with
  | zero =>
    intro block s hbb
    have hlen : 0 < s.allBB.length := List.length_pos.2 hbb
    have hidx : rnd s.pos % s.allBB.length < s.allBB.length := Nat.mod_lt _ hlen
    simp only [genFakeFlow, List.getElem?_eq_getElem hidx]
    exact ⟨_, rfl, hbb⟩
  | succ D ih =>
    intro block s _
    obtain ⟨g, res, c, hro⟩ := randomOperations_succeeds rnd hng s.drew.gen
      (rd rnd s.pos % 25) (by omega)
    simp only [genFakeFlow, hro]
    obtain ⟨s2, hs2, hne2⟩ := fakeSwitch_succeeds rnd hng ih block
      ((s.drew.putGen block g).createBlock "left").1 res
      (((s.drew.putGen block g).createBlock "left").2.pushBB
        ((s.drew.putGen block g).createBlock "left").1) (by simp [FState.pushBB])
    rw [hs2]
    exact ih _ s2 hne2

/-- Blocks are only added by `genFakeFlow`, at most `2^(D+1) - 2` of them. -/
theorem genFakeFlow_size {rnd : Nat → Nat} {ng : Nat} (D : Nat) :
    ∀ (block : Nat) (s sF : FState), genFakeFlow rnd ng D block s = some sF →
      s.blocks.length ≤ sF.blocks.length ∧
      sF.blocks.length + 2 ≤ s.blocks.length + 2 ^ (D + 1) := by
  induction D with
  | zero =>
    intro block s sF h
    obtain ⟨target, -, hblocks, -⟩ := genFakeFlow_zero_cases h
    rw [hblocks, length_appendInsts]
    simp
  | succ D ih =>
    intro block s sF h
    obtain ⟨left, body, s1, s2, res, hleft, hplain, hb1, ha1, hsw, hrecL⟩ :=
      genFakeFlow_succ_cases h
    have hlen1 : s1.blocks.length = s.blocks.length + 1 := by
      rw [hb1]; simp [length_appendInsts]
    have hpow : 2 ^ (D + 1 + 1) = 2 ^ (D + 1) + 2 ^ (D + 1) := by
      rw [pow_succ]; omega
    have hL := ih left s2 sF hrecL
    rcases fakeSwitch_cases hsw with ⟨i, hi, hb2, ha2⟩ | ⟨right, body2, s3, s4, cmpI, c, hright,
      hplain2, hb3, ha3, hrecR, hcmp, hb2, ha2⟩
    · have hlen2 : s2.blocks.length = s1.blocks.length := by
        rw [hb2]; simp [length_appendInsts]
      have : 2 ≤ 2 ^ (D + 1) := by
        have := @Nat.one_le_two_pow D
        rw [pow_succ]; omega
      omega
    · have hR := ih right s3 s4 hrecR
      have hlen3 : s3.blocks.length = s1.blocks.length + 1 := by
        rw [hb3]; simp [length_appendInsts]
      have hlen2 : s2.blocks.length = s4.blocks.length := by
        rw [hb2]; simp [length_appendInsts]
      omega

/-- C10 (termination and size of the fake flow): for every depth `D`, every non-empty
candidate list and all draws (the scratch pool being non-empty, as `run` makes it),
`genFakeFlow` returns, it removes no block, and it creates at most `2^(D+1) - 1` new
blocks. -/
theorem genFakeFlow_terminates_bounded (rnd : Nat → Nat) (ng D block : Nat) (s : FState)
    (hng : 0 < ng) (hbb : s.allBB ≠ []) :
    ∃ sF, genFakeFlow rnd ng D block s = some sF ∧
      s.blocks.length ≤ sF.blocks.length ∧
      sF.blocks.length - s.blocks.length ≤ 2 ^ (D + 1) - 1 := by
  obtain ⟨sF, hsF, -⟩ := genFakeFlow_succeeds rnd hng D block s hbb
  obtain ⟨h1, h2⟩ := genFakeFlow_size D block s sF hsF
  refine ⟨sF, hsF, h1, ?_⟩
  omega

/-- C10 at a concrete call: depth 1 on the originator (block 4) of `fakeFlowStart`. -/
theorem genFakeFlow_terminates_bounded_witness :
    0 < 1 ∧ fakeFlowStart.allBB ≠ [] ∧
    ∃ sF, genFakeFlow (tape []) 1 1 4 fakeFlowStart = some sF ∧
      fakeFlowStart.blocks.length ≤ sF.blocks.length ∧
      sF.blocks.length - fakeFlowStart.blocks.length ≤ 2 ^ (1 + 1) - 1 :=
  ⟨by decide, by decide,
   genFakeFlow_terminates_bounded (tape []) 1 1 4 fakeFlowStart (by decide) (by decide)⟩

/-! ### Well-formedness of the control-flow graph -/

theorem closed_iff (n : Nat) (B : BasicBlock) :
    B.closed n = true ↔ ∃ body t, B.insts = body ++ [t] ∧
      (∀ i ∈ body, i.isTerminator = false) ∧ t.isTerminator = true ∧
      ∀ x ∈ t.successors, x < n := by
  unfold BasicBlock.closed
  constructor
  · intro h
    split at h
    · rename_i t ht
      simp only [Bool.and_eq_true, List.all_eq_true, Bool.not_eq_eq_eq_not, Bool.not_true,
        decide_eq_true_eq] at h
      refine ⟨B.insts.dropLast, t, ?_, h.1.2, h.1.1, h.2⟩
      exact (List.dropLast_append_getLast? t ht).symm
    · cases h
  · rintro ⟨body, t, hB, hbody, ht, hsucc⟩
    have h1 : (body ++ [t]).getLast? = some t := by simp
    have h2 : (body ++ [t]).dropLast = body := by simp
    rw [hB, h1]
    simp only [h2, Bool.and_eq_true, List.all_eq_true, Bool.not_eq_eq_eq_not,
      Bool.not_true, decide_eq_true_eq]
    exact ⟨⟨ht, hbody⟩, hsucc⟩

theorem getTerminator_snoc (B : BasicBlock) (body : List Inst) (t : Inst)
    (hB : B.insts = body ++ [t]) (ht : t.isTerminator = true) : getTerminator B = some t := by
  unfold getTerminator
  rw [hB]
  simp [ht]

theorem blockSuccessors_of_isOpen (B : BasicBlock) (h : B.isOpen) : blockSuccessors B = [] := by
  unfold blockSuccessors getTerminator
  cases hl : B.insts.getLast? with
  | none => rfl
  | some i =>
    have : i ∈ B.insts := List.mem_of_mem_getLast? hl
    simp [h i this]

theorem blockSuccessors_of_closed (B : BasicBlock) (body : List Inst) (t : Inst)
    (hB : B.insts = body ++ [t]) (ht : t.isTerminator = true) :
    blockSuccessors B = t.successors := by
  unfold blockSuccessors
  rw [getTerminator_snoc B body t hB ht]

theorem isTerminator_not_isPHI (t : Inst) (h : t.isTerminator = true) : t.isPHI = false := by
  cases t <;> first | rfl | cases h

theorem isPlain_iff (i : Inst) :
    Inst.isPlain i = true ↔ i.isTerminator = false ∧ i.isPHI = false := by
  unfold Inst.isPlain
  cases i.isTerminator <;> cases i.isPHI <;> simp

theorem NoPhiAt_lt {F : List BasicBlock} {x : Nat} (h : NoPhiAt F x) : x < F.length := by
  obtain ⟨T, hT, -⟩ := h
  exact (List.getElem?_eq_some_iff.1 hT).1

theorem containsPHI_append (B : BasicBlock) (body : List Inst)
    (h : ∀ i ∈ body, i.isPHI = false) :
    containsPHI { B with insts := B.insts ++ body } = containsPHI B := by
  unfold containsPHI
  simp only [List.any_append]
  have : body.any Inst.isPHI = false := by
    rw [List.any_eq_false]
    intro i hi
    simp [h i hi]
  rw [this, Bool.or_false]

theorem getElem?_appendInsts (F : List BasicBlock) (b i : Nat) (body : List Inst) :
    (appendInsts F b body)[i]? =
      if i = b then F[i]?.map (fun B => { B with insts := B.insts ++ body }) else F[i]? :=
  getElem?_updBlock _ b i F

theorem NoPhiAt_appendInsts {F : List BasicBlock} {x : Nat} (b : Nat) (body : List Inst)
    (h : NoPhiAt F x) (hbody : ∀ i ∈ body, i.isPHI = false) :
    NoPhiAt (appendInsts F b body) x := by
  obtain ⟨T, hT, hphi⟩ := h
  rw [NoPhiAt, getElem?_appendInsts]
  by_cases hx : x = b
  · rw [if_pos hx, hT]
    exact ⟨_, rfl, by rw [containsPHI_append T body hbody]; exact hphi⟩
  · rw [if_neg hx]
    exact ⟨T, hT, hphi⟩

theorem NoPhiAt_append {F : List BasicBlock} {x : Nat} (G : List BasicBlock)
    (h : NoPhiAt F x) : NoPhiAt (F ++ G) x := by
  obtain ⟨T, hT, hphi⟩ := h
  have hlt : x < F.length := (List.getElem?_eq_some_iff.1 hT).1
  exact ⟨T, by rw [List.getElem?_append_left hlt]; exact hT, hphi⟩

theorem closed_mono {n k : Nat} {B : BasicBlock} (h : B.closed n = true) (hk : n ≤ k) :
    B.closed k = true := by
  rw [closed_iff] at h ⊢
  obtain ⟨body, t, h1, h2, h3, h4⟩ := h
  exact ⟨body, t, h1, h2, h3, fun x hx => Nat.lt_of_lt_of_le (h4 x hx) hk⟩

/-- Plain instructions at the end of a block without terminator. -/
theorem CI.plain {F₀ : List BasicBlock} {X : Nat → Prop} {F : List BasicBlock}
    {A : List Nat} {O : Nat → Prop} (h : CI F₀ X F A O) (b : Nat) (body : List Inst)
    (hb : O b) (hbody : ∀ i ∈ body, Inst.isPlain i = true) :
    CI F₀ X (appendInsts F b body) A O := by
  have hnt : ∀ i ∈ body, i.isTerminator = false := fun i hi => ((isPlain_iff i).1 (hbody i hi)).1
  have hnp : ∀ i ∈ body, i.isPHI = false := fun i hi => ((isPlain_iff i).1 (hbody i hi)).2
  have hopen : ∀ B, F[b]? = some B →
      BasicBlock.isOpen { B with insts := B.insts ++ body } := by
    intro B hB i hi
    rcases List.mem_append.1 hi with h1 | h1
    · exact ((h.shape b B hB).1 hb) i h1
    · exact hnt i h1
  refine ⟨?_, ?_, ?_, ?_, ?_, ?_⟩
  · intro i hi
    rw [length_appendInsts]
    exact h.bound i hi
  · intro i B hB
    rw [getElem?_appendInsts] at hB
    rw [length_appendInsts]
    by_cases hi : i = b
    · subst hi
      rw [if_pos rfl] at hB
      cases hF : F[i]? with
      | none => rw [hF] at hB; cases hB
      | some B1 =>
        rw [hF] at hB
        simp only [Option.map_some', Option.some.injEq] at hB
        subst hB
        exact ⟨fun _ => hopen B1 hF, fun hn => absurd hb hn⟩
    · rw [if_neg hi] at hB
      exact h.shape i B hB
  · exact fun a ha => NoPhiAt_appendInsts b body (h.cand a ha) hnp
  · exact fun x hx => NoPhiAt_appendInsts b body (h.prot x hx) hnp
  · rintro i t ⟨B, hB, ht⟩
    rw [getElem?_appendInsts] at hB
    by_cases hi : i = b
    · subst hi
      rw [if_pos rfl] at hB
      cases hF : F[i]? with
      | none => rw [hF] at hB; cases hB
      | some B1 =>
        rw [hF] at hB
        simp only [Option.map_some', Option.some.injEq] at hB
        subst hB
        rw [blockSuccessors_of_isOpen _ (hopen B1 hF)] at ht
        cases ht
    · rw [if_neg hi] at hB
      rcases h.edges i t ⟨B, hB, ht⟩ with h1 | h1
      · exact Or.inl h1
      · exact Or.inr (NoPhiAt_appendInsts b body h1 hnp)
  · intro i B₀ hB₀
    obtain ⟨B, hB, hphi⟩ := h.phi i B₀ hB₀
    rw [getElem?_appendInsts]
    by_cases hi : i = b
    · rw [if_pos hi, hB]
      exact ⟨_, rfl, by rw [containsPHI_append B body hnp]; exact hphi⟩
    · rw [if_neg hi]
      exact ⟨B, hB, hphi⟩

/-- A terminator at the end of a block without terminator, all of whose successors
exist and hold no PHI. -/
theorem CI.term {F₀ : List BasicBlock} {X : Nat → Prop} {F : List BasicBlock}
    {A : List Nat} {O : Nat → Prop} (h : CI F₀ X F A O) (b : Nat) (t : Inst)
    (hb : O b) (ht : t.isTerminator = true) (hsucc : ∀ x ∈ t.successors, NoPhiAt F x) :
    CI F₀ X (appendInsts F b [t]) A (fun i => O i ∧ i ≠ b) := by
  have hnp : ∀ i ∈ [t], i.isPHI = false := by
    intro i hi
    simp only [List.mem_singleton] at hi
    subst hi
    exact isTerminator_not_isPHI i ht
  refine ⟨?_, ?_, ?_, ?_, ?_, ?_⟩
  · intro i hi
    rw [length_appendInsts]
    exact h.bound i hi.1
  · intro i B hB
    rw [getElem?_appendInsts] at hB
    rw [length_appendInsts]
    by_cases hi : i = b
    · subst hi
      rw [if_pos rfl] at hB
      cases hF : F[i]? with
      | none => rw [hF] at hB; cases hB
      | some B1 =>
        rw [hF] at hB
        simp only [Option.map_some', Option.some.injEq] at hB
        subst hB
        refine ⟨fun hn => absurd rfl hn.2, fun _ => ?_⟩
        rw [closed_iff]
        exact ⟨B1.insts, t, rfl, (h.shape i B1 hF).1 hb, ht,
          fun x hx => NoPhiAt_lt (hsucc x hx)⟩
    · rw [if_neg hi] at hB
      refine ⟨fun hn => (h.shape i B hB).1 hn.1, fun hn => (h.shape i B hB).2 ?_⟩
      exact fun ho => hn ⟨ho, hi⟩
  · exact fun a ha => NoPhiAt_appendInsts b [t] (h.cand a ha) hnp
  · exact fun x hx => NoPhiAt_appendInsts b [t] (h.prot x hx) hnp
  · rintro i x ⟨B, hB, hx⟩
    rw [getElem?_appendInsts] at hB
    by_cases hi : i = b
    · subst hi
      rw [if_pos rfl] at hB
      cases hF : F[i]? with
      | none => rw [hF] at hB; cases hB
      | some B1 =>
        rw [hF] at hB
        simp only [Option.map_some', Option.some.injEq] at hB
        subst hB
        rw [blockSuccessors_of_closed _ B1.insts t rfl ht] at hx
        exact Or.inr (NoPhiAt_appendInsts i [t] (hsucc x hx) hnp)
    · rw [if_neg hi] at hB
      rcases h.edges i x ⟨B, hB, hx⟩ with h1 | h1
      · exact Or.inl h1
      · exact Or.inr (NoPhiAt_appendInsts b [t] h1 hnp)
  · intro i B₀ hB₀
    obtain ⟨B, hB, hphi⟩ := h.phi i B₀ hB₀
    rw [getElem?_appendInsts]
    by_cases hi : i = b
    · rw [if_pos hi, hB]
      exact ⟨_, rfl, by rw [containsPHI_append B [t] hnp]; exact hphi⟩
    · rw [if_neg hi]
      exact ⟨B, hB, hphi⟩

theorem containsPHI_newBlock (name : String) : containsPHI (newBlock name) = false := rfl

theorem newBlock_isOpen (name : String) : (newBlock name).isOpen := by
  intro i hi
  cases hi

theorem NoPhiAt_new (F : List BasicBlock) (name : String) :
    NoPhiAt (F ++ [newBlock name]) F.length :=
  ⟨newBlock name, by simp, rfl⟩

/-- A new empty block at the end of the function. -/
theorem CI.create {F₀ : List BasicBlock} {X : Nat → Prop} {F : List BasicBlock}
    {A : List Nat} {O : Nat → Prop} (h : CI F₀ X F A O) (name : String) :
    CI F₀ X (F ++ [newBlock name]) A (fun i => O i ∨ i = F.length) := by
  have hget : ∀ i B, (F ++ [newBlock name])[i]? = some B →
      (i < F.length ∧ F[i]? = some B) ∨ (i = F.length ∧ B = newBlock name) := by
    intro i B hB
    by_cases hi : i < F.length
    · rw [List.getElem?_append_left hi] at hB
      exact Or.inl ⟨hi, hB⟩
    · have hlt : i < (F ++ [newBlock name]).length := (List.getElem?_eq_some_iff.1 hB).1
      simp only [List.length_append, List.length_singleton] at hlt
      have hi2 : i = F.length := by omega
      subst hi2
      simp only [List.getElem?_concat_length, Option.some.injEq] at hB
      exact Or.inr ⟨rfl, hB.symm⟩
  refine ⟨?_, ?_, ?_, ?_, ?_, ?_⟩
  · intro i hi
    simp only [List.length_append, List.length_singleton]
    rcases hi with hi | hi
    · exact Nat.lt_succ_of_lt (h.bound i hi)
    · omega
  · intro i B hB
    rcases hget i B hB with ⟨hi, hF⟩ | ⟨hi, hBn⟩
    · refine ⟨fun ho => ?_, fun hn => ?_⟩
      · rcases ho with ho | ho
        · exact (h.shape i B hF).1 ho
        · omega
      · have := (h.shape i B hF).2 (fun ho => hn (Or.inl ho))
        exact closed_mono this (by simp)
    · subst hBn
      exact ⟨fun _ => newBlock_isOpen name, fun hn => absurd (Or.inr hi) hn⟩
  · exact fun a ha => NoPhiAt_append _ (h.cand a ha)
  · exact fun x hx => NoPhiAt_append _ (h.prot x hx)
  · rintro i t ⟨B, hB, ht⟩
    rcases hget i B hB with ⟨hi, hF⟩ | ⟨hi, hBn⟩
    · rcases h.edges i t ⟨B, hF, ht⟩ with h1 | h1
      · exact Or.inl h1
      · exact Or.inr (NoPhiAt_append _ h1)
    · subst hBn
      rw [blockSuccessors_of_isOpen _ (newBlock_isOpen name)] at ht
      cases ht
  · intro i B₀ hB₀
    obtain ⟨B, hB, hphi⟩ := h.phi i B₀ hB₀
    have hlt : i < F.length := (List.getElem?_eq_some_iff.1 hB).1
    exact ⟨B, by rw [List.getElem?_append_left hlt]; exact hB, hphi⟩

/-- A block without PHI joins the candidates. -/
theorem CI.register {F₀ : List BasicBlock} {X : Nat → Prop} {F : List BasicBlock}
    {A : List Nat} {O : Nat → Prop} (h : CI F₀ X F A O) (b : Nat) (hb : NoPhiAt F b) :
    CI F₀ X F (A ++ [b]) O := by
  refine ⟨h.bound, h.shape, ?_, h.prot, h.edges, h.phi⟩
  intro a ha
  rcases List.mem_append.1 ha with h1 | h1
  · exact h.cand a h1
  · simp only [List.mem_singleton] at h1
    subst h1
    exact hb

/-- The protected targets may be forgotten or exchanged for others without PHI. -/
theorem CI.protect {F₀ : List BasicBlock} {X Y : Nat → Prop} {F : List BasicBlock}
    {A : List Nat} {O : Nat → Prop} (h : CI F₀ X F A O) (hY : ∀ x, Y x → NoPhiAt F x) :
    CI F₀ Y F A O :=
  ⟨h.bound, h.shape, h.cand, hY, h.edges, h.phi⟩

theorem getElem?_eraseTerminator (F : List BasicBlock) (b i : Nat) :
    (updBlock (fun B => { B with insts := B.insts.dropLast }) b F)[i]? =
      if i = b then F[i]?.map (fun B => { B with insts := B.insts.dropLast }) else F[i]? :=
  getElem?_updBlock _ b i F

theorem containsPHI_dropLast (B : BasicBlock) (h : containsPHI B = false) :
    containsPHI { B with insts := B.insts.dropLast } = false := by
  unfold containsPHI at h ⊢
  rw [List.any_eq_false] at h ⊢
  intro i hi
  exact h i (List.dropLast_subset _ hi)

theorem NoPhiAt_erase {F : List BasicBlock} {x : Nat} (b : Nat) (h : NoPhiAt F x) :
    NoPhiAt (updBlock (fun B => { B with insts := B.insts.dropLast }) b F) x := by
  obtain ⟨T, hT, hphi⟩ := h
  rw [NoPhiAt, getElem?_eraseTerminator]
  by_cases hx : x = b
  · rw [if_pos hx, hT]
    exact ⟨_, rfl, containsPHI_dropLast T hphi⟩
  · rw [if_neg hx]
    exact ⟨T, hT, hphi⟩

/-- The terminator of a closed block is erased: the block is without terminator again. -/
theorem CI.erase {F₀ : List BasicBlock} {X : Nat → Prop} {F : List BasicBlock}
    {A : List Nat} {O : Nat → Prop} (h : CI F₀ X F A O) (b : Nat) (hb : b < F.length)
    (hnb : ¬ O b) :
    CI F₀ X (updBlock (fun B => { B with insts := B.insts.dropLast }) b F) A
      (fun i => O i ∨ i = b) := by
  have hshape : ∀ B, F[b]? = some B →
      BasicBlock.isOpen { B with insts := B.insts.dropLast } ∧
      containsPHI { B with insts := B.insts.dropLast } = containsPHI B := by
    intro B hB
    have hc := (h.shape b B hB).2 hnb
    rw [closed_iff] at hc
    obtain ⟨body, t, h1, h2, h3, -⟩ := hc
    have hd : B.insts.dropLast = body := by rw [h1]; simp
    refine ⟨?_, ?_⟩
    · intro i hi
      simp only [hd] at hi
      exact h2 i hi
    · unfold containsPHI
      simp only [hd]
      simp only [h1, List.any_append, List.any_cons, List.any_nil, Bool.or_false,
        isTerminator_not_isPHI t h3]
  refine ⟨?_, ?_, ?_, ?_, ?_, ?_⟩
  · intro i hi
    rw [length_updBlock]
    rcases hi with hi | hi
    · exact h.bound i hi
    · omega
  · intro i B hB
    rw [getElem?_eraseTerminator] at hB
    rw [length_updBlock]
    by_cases hi : i = b
    · subst hi
      rw [if_pos rfl] at hB
      cases hF : F[i]? with
      | none => rw [hF] at hB; cases hB
      | some B1 =>
        rw [hF] at hB
        simp only [Option.map_some', Option.some.injEq] at hB
        subst hB
        exact ⟨fun _ => (hshape B1 hF).1, fun hn => absurd (Or.inr rfl) hn⟩
    · rw [if_neg hi] at hB
      refine ⟨fun ho => ?_, fun hn => (h.shape i B hB).2 (fun ho => hn (Or.inl ho))⟩
      rcases ho with ho | ho
      · exact (h.shape i B hB).1 ho
      · exact absurd ho hi
  · exact fun a ha => NoPhiAt_erase b (h.cand a ha)
  · exact fun x hx => NoPhiAt_erase b (h.prot x hx)
  · rintro i t ⟨B, hB, ht⟩
    rw [getElem?_eraseTerminator] at hB
    by_cases hi : i = b
    · subst hi
      rw [if_pos rfl] at hB
      cases hF : F[i]? with
      | none => rw [hF] at hB; cases hB
      | some B1 =>
        rw [hF] at hB
        simp only [Option.map_some', Option.some.injEq] at hB
        subst hB
        rw [blockSuccessors_of_isOpen _ (hshape B1 hF).1] at ht
        cases ht
    · rw [if_neg hi] at hB
      rcases h.edges i t ⟨B, hB, ht⟩ with h1 | h1
      · exact Or.inl h1
      · exact Or.inr (NoPhiAt_erase b h1)
  · intro i B₀ hB₀
    obtain ⟨B, hB, hphi⟩ := h.phi i B₀ hB₀
    rw [getElem?_eraseTerminator]
    by_cases hi : i = b
    · subst hi
      rw [if_pos rfl, hB]
      exact ⟨_, rfl, by rw [(hshape B hB).2]; exact hphi⟩
    · rw [if_neg hi]
      exact ⟨B, hB, hphi⟩

/-- Function `genFakeFlow` keeps the invariant and closes its block. -/
theorem genFakeFlow_CI {rnd : Nat → Nat} {ng : Nat} {F₀ : List BasicBlock} {X : Nat → Prop}
    {D block : Nat} {s sF : FState} {O : Nat → Prop} (h : CI F₀ X s.blocks s.allBB O)
    (hb : O block) (hgen : genFakeFlow rnd ng D block s = some sF) :
    CI F₀ X sF.blocks sF.allBB (fun i => O i ∧ i ≠ block) := by
  refine (genFakeFlow_rule (CI F₀ X) ?_ ?_ ?_ ?_ D block s sF O h hb hgen).1
  · exact fun F A O h => h.bound
  · exact fun F A O b body h hb hbody => h.plain b body hb hbody
  · intro F A O name h
    exact (h.create name).register F.length (NoPhiAt_new F name)
  · intro F A O b t h hb ht hsucc
    refine h.term b t hb ?_ (fun x hx => h.cand x (hsucc x hx))
    rcases ht with ⟨x, rfl⟩ | ⟨c, x, y, rfl⟩ <;> rfl

/-- The splice of one block, from the state `s` in which every block is closed: the
predicate block `p`, the rewired block `B`, the code `body` of `randomOperations` and the
comparison `cmpI` in `p`, the originator `o` with its fake flow, the conditional branch
and the registration of `p`. -/
theorem splice_CI {rnd : Nat → Nat} {ng : Nat} {F₀ : List BasicBlock} {s sh si : FState}
    {B e D : Nat} {body : List Inst} {cmpI : Inst} (cmp : Val)
    (h : CI F₀ (fun _ => False) s.blocks s.allBB (fun _ => False))
    (hB : B < s.blocks.length) (he : NoPhiAt s.blocks e)
    (hbody : ∀ i ∈ body, Inst.isPlain i = true) (hcmp : Inst.isPlain cmpI = true)
    (hshb : sh.blocks = appendInsts (appendInsts (appendInsts
      (updBlock (fun B => { B with insts := B.insts.dropLast }) B
        (s.blocks ++ [newBlock "predicateBlock"])) B [.br s.blocks.length])
      s.blocks.length body) s.blocks.length [cmpI] ++ [newBlock "originator"])
    (hsha : sh.allBB = s.allBB)
    (hgen : genFakeFlow rnd ng D (s.blocks.length + 1) sh = some si) :
    CI F₀ (fun _ => False)
      (appendInsts si.blocks s.blocks.length [.condBr cmp e (s.blocks.length + 1)])
      (si.allBB ++ [s.blocks.length]) (fun _ => False) := by
  have h0 : CI F₀ (fun x => x = e) s.blocks s.allBB (fun _ => False) :=
    h.protect (fun x hx => hx ▸ he)
  have h1 := (h0.create "predicateBlock").protect (Y := fun x => x = e ∨ x = s.blocks.length)
    (by
      rintro x (rfl | rfl)
      · exact NoPhiAt_append _ he
      · exact NoPhiAt_new s.blocks _)
  have h2 := h1.erase B (by simp; omega) (by
    rintro (h | h)
    · exact h
    · omega)
  have h3 := h2.term B (.br s.blocks.length) (Or.inr rfl) rfl (by
    intro x hx
    simp only [Inst.successors, List.mem_singleton] at hx
    exact h2.prot x (Or.inr hx))
  have hp3 : (fun i => ((False ∨ i = s.blocks.length) ∨ i = B) ∧ i ≠ B) s.blocks.length :=
    ⟨Or.inl (Or.inr rfl), by omega⟩
  have h4 := h3.plain s.blocks.length body hp3 hbody
  have h5 := h4.plain s.blocks.length [cmpI] hp3 (by simpa using hcmp)
  have h6 := h5.create "originator"
  have hlen5 : (appendInsts (appendInsts (appendInsts
      (updBlock (fun B => { B with insts := B.insts.dropLast }) B
        (s.blocks ++ [newBlock "predicateBlock"])) B [.br s.blocks.length])
      s.blocks.length body) s.blocks.length [cmpI]).length = s.blocks.length + 1 := by
    simp [length_appendInsts, length_updBlock]
  rw [hlen5, ← hshb, ← hsha] at h6
  have h6p := h6.protect (Y := fun x => x = e ∨ x = s.blocks.length ∨ x = s.blocks.length + 1)
    (by
      rintro x (rfl | rfl | rfl)
      · exact h6.prot _ (Or.inl rfl)
      · exact h6.prot _ (Or.inr rfl)
      · rw [hshb, ← hlen5]
        exact NoPhiAt_new _ _)
  have h7 := genFakeFlow_CI h6p (Or.inr rfl) hgen
  have h8 := h7.term s.blocks.length (.condBr cmp e (s.blocks.length + 1))
    ⟨Or.inl hp3, by omega⟩ rfl (by
      intro x hx
      simp only [Inst.successors, List.mem_cons, List.mem_singleton, List.not_mem_nil,
        or_false] at hx
      rcases hx with rfl | rfl
      · exact h7.prot _ (Or.inl rfl)
      · exact h7.prot _ (Or.inr (Or.inr rfl)))
  have h9 := (h8.register s.blocks.length (h8.prot _ (Or.inr (Or.inl rfl)))).protect
    (Y := fun _ => False) (fun x hx => absurd hx id)
  have hO : (fun i => (((((False ∨ i = s.blocks.length) ∨ i = B) ∧ i ≠ B) ∨
      i = s.blocks.length + 1) ∧ i ≠ s.blocks.length + 1) ∧ i ≠ s.blocks.length)
      = (fun _ => False) := by
    funext i
    apply propext
    constructor
    · rintro ⟨⟨⟨(h1 | h1) | h1, h2⟩ | h1, h3⟩, h4⟩
      · exact h1
      · omega
      · omega
      · omega
    · intro h
      exact absurd h id
  rw [hO] at h9
  exact h9

theorem randomOperations_ne_none (rnd : Nat → Nat) {ng : Nat} (hng : 0 < ng) (g : Gen)
    (N : Nat) (hN : 9 * N + 127 < 2147483648) : randomOperations rnd ng g N ≠ none := by
  obtain ⟨g1, res, c, h⟩ := randomOperations_succeeds rnd hng g N hN
  rw [h]
  exact Option.some_ne_none _

theorem genFakeFlow_ne_none (rnd : Nat → Nat) {ng : Nat} (hng : 0 < ng) (D block : Nat)
    (s : FState) (hs : s.allBB ≠ []) : genFakeFlow rnd ng D block s ≠ none := by
  obtain ⟨s1, h, -⟩ := genFakeFlow_succeeds rnd hng D block s hs
  rw [h]
  exact Option.some_ne_none _

/-- One iteration of the splice loop, from a state in which every block is closed: it
has a result, and every block is closed again. -/
theorem spliceStep_CI (rnd : Nat → Nat) {ng : Nat} (hng : 0 < ng) {F₀ : List BasicBlock}
    (s : FState) (changed : Bool) (B : Nat)
    (h : CI F₀ (fun _ => False) s.blocks s.allBB (fun _ => False))
    (hB : B < s.blocks.length) :
    ∃ s1 c1, spliceStep rnd ng s changed B = some (s1, c1) ∧
      CI F₀ (fun _ => False) s1.blocks s1.allBB (fun _ => False) ∧
      s.blocks.length ≤ s1.blocks.length := by
  have hblk : s.blocks[B]? = some s.blocks[B] := List.getElem?_eq_getElem hB
  have hclosed := (h.shape B _ hblk).2 id
  rw [closed_iff] at hclosed
  obtain ⟨body, t, hins, -, ht, hsucc⟩ := hclosed
  have hterm : getTerminator s.blocks[B] = some t := getTerminator_snoc _ body t hins ht
  unfold spliceStep
  rw [hblk]
  simp only [hterm]
  split
  · exact ⟨s, changed, rfl, h, Nat.le_refl _⟩
  · rename_i e hsuccs
    split
    · exact ⟨s, changed, rfl, h, Nat.le_refl _⟩
    · rename_i hne
      have helt : e < s.blocks.length := hsucc e (by rw [hsuccs]; simp)
      have he : s.blocks[e]? = some s.blocks[e] := List.getElem?_eq_getElem helt
      rw [he]
      simp only
      split
      · exact ⟨s, changed, rfl, h, Nat.le_refl _⟩
      · rename_i hphi
        have hnophi : NoPhiAt s.blocks e := ⟨_, he, by simpa using hphi⟩
        have hall : s.allBB ≠ [] := by
          intro h0
          rw [h0] at hne
          exact hne rfl
        split
        · rename_i hro
          exact absurd hro (randomOperations_ne_none rnd hng _ _ (by omega))
        · rename_i g result c hro
          obtain ⟨gbody, hgb, hplain⟩ := randomOperations_extends hro
          split
          · rename_i hgen
            exact absurd hgen (genFakeFlow_ne_none rnd hng _ _ _ hall)
          · rename_i si hgen
            refine ⟨_, _, rfl, ?_, ?_⟩
            · simp only [FState.createBlock, FState.pushInst, FState.eraseTerminator,
                FState.drew, FState.putGen, FState.emitAt, FState.pushBB, FState.gen,
                length_appendInsts, length_updBlock, List.length_append,
                List.length_singleton, List.nil_append] at hgen hgb ⊢
              have hgp : ∀ i ∈ g.insts, Inst.isPlain i = true := hgb ▸ hplain
              have hcp : Inst.isPlain (.icmp g.next .sgt result (.const 0)) = true := rfl
              refine splice_CI (.reg g.next) h hB hnophi hgp hcp ?_ ?_ hgen
              · rfl
              · rfl
            · have hsz := (genFakeFlow_size _ _ _ _ hgen).1
              simp only [FState.createBlock, FState.pushInst, FState.eraseTerminator,
                FState.drew, FState.putGen, FState.emitAt, FState.pushBB, FState.gen,
                length_appendInsts, length_updBlock, List.length_append,
                List.length_singleton, List.nil_append] at hsz ⊢
              omega
  · exact ⟨s, changed, rfl, h, Nat.le_refl _⟩

/-- The splice loop, from a state in which every block is closed. -/
theorem spliceLoop_CI (rnd : Nat → Nat) {ng : Nat} (hng : 0 < ng) {F₀ : List BasicBlock}
    (rest : List Nat) : ∀ (s : FState) (changed : Bool),
      CI F₀ (fun _ => False) s.blocks s.allBB (fun _ => False) →
      (∀ B ∈ rest, B < s.blocks.length) →
      ∃ s1 c1, spliceLoop rnd ng rest s changed = some (s1, c1) ∧
        CI F₀ (fun _ => False) s1.blocks s1.allBB (fun _ => False) ∧
        s.blocks.length ≤ s1.blocks.length := by
  induction rest with
  | nil =>
    intro s changed h _
    exact ⟨s, changed, rfl, h, Nat.le_refl _⟩
  | cons B rest ih =>
    intro s changed h hlt
    obtain ⟨s1, c1, hstep, h1, hlen1⟩ :=
      spliceStep_CI rnd hng s changed B h (hlt B (by simp))
    obtain ⟨s2, c2, hloop, h2, hlen2⟩ := ih s1 c1 h1
      (fun x hx => Nat.lt_of_lt_of_le (hlt x (by simp [hx])) hlen1)
    refine ⟨s2, c2, ?_, h2, Nat.le_trans hlen1 hlen2⟩
    simp only [spliceLoop, hstep, hloop]

/-- The blocks collected into `origBB` exist, hold no PHI and are no pads. -/
theorem collectFrom_spec (F : List BasicBlock) : ∀ (i a : Nat), a ∈ collectFrom i F →
    i ≤ a ∧ ∃ B, F[a - i]? = some B ∧ containsPHI B = false ∧ B.isEHPad = false ∧
      B.isLandingPad = false := by
  induction F with
  | nil =>
    intro i a ha
    cases ha
  | cons B F ih =>
    intro i a ha
    simp only [collectFrom] at ha
    have hrest : a ∈ collectFrom (i + 1) F → i ≤ a ∧ ∃ B1, (B :: F)[a - i]? = some B1 ∧
        containsPHI B1 = false ∧ B1.isEHPad = false ∧ B1.isLandingPad = false := by
      intro h1
      obtain ⟨hle, B1, hB1, hp⟩ := ih (i + 1) a h1
      refine ⟨by omega, B1, ?_, hp⟩
      have : a - i = (a - (i + 1)) + 1 := by omega
      rw [this, List.getElem?_cons_succ]
      exact hB1
    split at ha
    · exact hrest ha
    · rename_i hcond
      rcases List.mem_cons.1 ha with h1 | h1
      · subst h1
        simp only [Bool.or_eq_true, not_or, Bool.not_eq_true] at hcond
        exact ⟨Nat.le_refl _, B, by simp, hcond.2, hcond.1.1, hcond.1.2⟩
      · exact hrest h1

theorem wellFormed_iff (F : List BasicBlock) :
    wellFormed F = true ↔ ∀ (i : Nat) (B : BasicBlock), F[i]? = some B →
      B.closed F.length = true := by
  unfold wellFormed
  rw [List.all_eq_true]
  constructor
  · intro h i B hB
    exact h B (List.getElem?_mem hB)
  · intro h B hB
    obtain ⟨i, hi, rfl⟩ := List.getElem_of_mem hB
    exact h i _ (List.getElem?_eq_getElem hi)

/-- The invariant holds of a well-formed input with the candidates `runOnFunction`
starts from. -/
theorem CI_start (F : List BasicBlock) (hF : wellFormed F = true) :
    CI F (fun _ => False) F (collectFrom 0 F).tail (fun _ => False) := by
  refine ⟨fun i hi => absurd hi id, ?_, ?_, fun x hx => absurd hx id,
    fun i t h => Or.inl h, fun i B₀ h => ⟨B₀, h, rfl⟩⟩
  · intro i B hB
    exact ⟨fun hi => absurd hi id, fun _ => (wellFormed_iff F).1 hF i B hB⟩
  · intro a ha
    obtain ⟨-, B, hB, hphi, -⟩ := collectFrom_spec F 0 a (List.mem_of_mem_tail ha)
    exact ⟨B, hB, hphi⟩

/-- On a well-formed function, with a non-empty scratch pool, `runOnFunction` has a
result and the invariant holds of it. -/
theorem runOnFunction_CI (rnd : Nat → Nat) {ng : Nat} (hng : 0 < ng) (F : List BasicBlock)
    (pos next : Nat) (hF : wellFormed F = true) :
    ∃ F1 changed A, runOnFunction rnd ng F pos next = some (F1, changed) ∧
      CI F (fun _ => False) F1 A (fun _ => False) := by
  unfold runOnFunction
  dsimp only
  split
  · exact ⟨F, false, _, rfl, CI_start F hF⟩
  · have hstart := CI_start F hF
    obtain ⟨s1, c1, hloop, h1, -⟩ := spliceLoop_CI rnd hng (collectFrom 0 F).tail
      { blocks := F, allBB := (collectFrom 0 F).tail, pos := pos, next := next } false hstart
      (by
        intro B hB
        obtain ⟨-, B1, hB1, -⟩ := collectFrom_spec F 0 B (List.mem_of_mem_tail hB)
        exact (List.getElem?_eq_some_iff.1 hB1).1)
    rw [hloop]
    exact ⟨s1.blocks, c1, s1.allBB, rfl, h1⟩

/-- C5 (CFG well-formedness): for every well-formed input function and all draws (the
scratch pool being non-empty, as `run` makes it), `runOnFunction` returns and in the
function it leaves every block, old or new, ends in exactly one terminator, its last
instruction, and every branch target is a block of the function. -/
theorem runOnFunction_wellFormed (rnd : Nat → Nat) (ng : Nat) (F : List BasicBlock)
    (pos next : Nat) (hng : 0 < ng) (hF : wellFormed F = true) :
    ∃ F1 changed, runOnFunction rnd ng F pos next = some (F1, changed) ∧
      wellFormed F1 = true := by
  obtain ⟨F1, changed, A, hrun, hci⟩ := runOnFunction_CI rnd hng F pos next hF
  refine ⟨F1, changed, hrun, (wellFormed_iff F1).2 ?_⟩
  intro i B hB
  exact (hci.shape i B hB).2 id

/-- C5 at a concrete input: the function `entry -> a -> b`. -/
theorem runOnFunction_wellFormed_witness :
    0 < 1 ∧ wellFormed chain3 = true ∧
    ∃ F1 changed, runOnFunction (tape [1, 10, 0, 1, 15, 0, 8]) 1 chain3 0 0
        = some (F1, changed) ∧ wellFormed F1 = true :=
  ⟨by decide, by decide,
   runOnFunction_wellFormed (tape [1, 10, 0, 1, 15, 0, 8]) 1 chain3 0 0 (by decide)
     (by decide)⟩

/-- C6 (no PHI-bearing block gains a predecessor): for every well-formed input function
and all draws, every control-flow edge of the function `runOnFunction` leaves that is not
an edge of the input goes to a block that holds no PHI, and that held none in the input
if it is a block of the input. -/
theorem runOnFunction_new_edges_avoid_phi (rnd : Nat → Nat) (ng : Nat)
    (F : List BasicBlock) (pos next : Nat) (hng : 0 < ng) (hF : wellFormed F = true) :
    ∃ F1 changed, runOnFunction rnd ng F pos next = some (F1, changed) ∧
      ∀ i t, edge F1 i t → ¬ edge F i t →
        NoPhiAt F1 t ∧ ∀ T₀, F[t]? = some T₀ → containsPHI T₀ = false := by
  obtain ⟨F1, changed, A, hrun, hci⟩ := runOnFunction_CI rnd hng F pos next hF
  refine ⟨F1, changed, hrun, ?_⟩
  intro i t hedge hnew
  rcases hci.edges i t hedge with h | h
  · exact absurd h hnew
  · refine ⟨h, ?_⟩
    intro T₀ hT₀
    obtain ⟨T, hT, hphi⟩ := hci.phi t T₀ hT₀
    obtain ⟨T1, hT1, hphi1⟩ := h
    rw [hT] at hT1
    cases hT1
    rw [← hphi]
    exact hphi1

/-- C6 at a concrete input: the function `entry -> a -> b`. -/
theorem runOnFunction_new_edges_avoid_phi_witness :
    0 < 1 ∧ wellFormed chain3 = true ∧
    ∃ F1 changed, runOnFunction (tape [1, 10, 0, 1, 15, 0, 8]) 1 chain3 0 0
        = some (F1, changed) ∧
      ∀ i t, edge F1 i t → ¬ edge chain3 i t →
        NoPhiAt F1 t ∧ ∀ T₀, chain3[t]? = some T₀ → containsPHI T₀ = false :=
  ⟨by decide, by decide,
   runOnFunction_new_edges_avoid_phi (tape [1, 10, 0, 1, 15, 0, 8]) 1 chain3 0 0 (by decide)
     (by decide)⟩

/-! ### Dominance -/

/-- Frame of `genFakeFlow`: the blocks below `K` are left as they are when the block
worked on is at or above `K`. -/
theorem genFakeFlow_frame {rnd : Nat → Nat} {ng : Nat} {D block K : Nat} {s sF : FState}
    (hK : K ≤ block) (hb : block < s.blocks.length)
    (hgen : genFakeFlow rnd ng D block s = some sF) :
    ∀ i, i < K → sF.blocks[i]? = s.blocks[i]? := by
  have hrule := @genFakeFlow_rule rnd ng
    (fun F _ O => (∀ i, O i → K ≤ i ∧ i < F.length) ∧ K ≤ F.length ∧
      ∀ i, i < K → F[i]? = s.blocks[i]?)
    (fun F A O h i hi => (h.1 i hi).2)
    (by
      intro F A O b body h hOb _
      refine ⟨fun i hi => ?_, ?_, fun i hi => ?_⟩
      · rw [length_appendInsts]; exact h.1 i hi
      · rw [length_appendInsts]; exact h.2.1
      · rw [getElem?_appendInsts, if_neg (by have := (h.1 b hOb).1; omega)]
        exact h.2.2 i hi)
    (by
      intro F A O name h
      refine ⟨fun i hi => ?_, ?_, fun i hi => ?_⟩
      · simp only [List.length_append, List.length_singleton]
        rcases hi with hi | hi
        · have := h.1 i hi; omega
        · have := h.2.1; omega
      · simp only [List.length_append, List.length_singleton]
        have := h.2.1; omega
      · rw [List.getElem?_append_left (by have := h.2.1; omega)]
        exact h.2.2 i hi)
    (by
      intro F A O b t h hOb _ _
      refine ⟨fun i hi => ?_, ?_, fun i hi => ?_⟩
      · rw [length_appendInsts]; exact h.1 i hi.1
      · rw [length_appendInsts]; exact h.2.1
      · rw [getElem?_appendInsts, if_neg (by have := (h.1 b hOb).1; omega)]
        exact h.2.2 i hi)
    D block s sF (fun i => i = block)
    ⟨fun i hi => by subst hi; exact ⟨hK, hb⟩, by omega, fun i _ => rfl⟩ rfl hgen
  exact hrule.1.2.2

/-- What one iteration of the splice loop does: nothing, or the splice of block `B`
whose only successor is `e`. -/
theorem spliceStep_cases {rnd : Nat → Nat} {ng : Nat} {s s1 : FState} {changed c1 : Bool}
    {B : Nat} (h : spliceStep rnd ng s changed B = some (s1, c1)) :
    s1 = s ∨ ∃ (blk : BasicBlock) (term : Inst) (e : Nat) (body : List Inst) (cmpI : Inst)
        (cmp : Val) (D : Nat) (sh si : FState),
      s.blocks[B]? = some blk ∧ getTerminator blk = some term ∧ term.successors = [e] ∧
      (∀ i ∈ body, Inst.isPlain i = true) ∧ Inst.isPlain cmpI = true ∧
      sh.blocks = appendInsts (appendInsts (appendInsts
        (updBlock (fun B => { B with insts := B.insts.dropLast }) B
          (s.blocks ++ [newBlock "predicateBlock"])) B [.br s.blocks.length])
        s.blocks.length body) s.blocks.length [cmpI] ++ [newBlock "originator"] ∧
      genFakeFlow rnd ng D (s.blocks.length + 1) sh = some si ∧
      s1.blocks = appendInsts si.blocks s.blocks.length
        [.condBr cmp e (s.blocks.length + 1)] := by
  unfold spliceStep at h
  split at h
  · cases h
  · rename_i blk hblk
    split at h
    · cases h
    · rename_i term hterm
      split at h
      · simp only [Option.some.injEq, Prod.mk.injEq] at h
        exact Or.inl h.1.symm
      · rename_i e hsuccs
        split at h
        · simp only [Option.some.injEq, Prod.mk.injEq] at h
          exact Or.inl h.1.symm
        · split at h
          · cases h
          · split at h
            · simp only [Option.some.injEq, Prod.mk.injEq] at h
              exact Or.inl h.1.symm
            · dsimp only at h
              split at h
              · cases h
              · rename_i g result c hro
                obtain ⟨gbody, hgb, hplain⟩ := randomOperations_extends hro
                split at h
                · cases h
                · rename_i si hgen
                  simp only [Option.some.injEq, Prod.mk.injEq] at h
                  obtain ⟨h1, -⟩ := h
                  subst h1
                  simp only [FState.createBlock, FState.pushInst, FState.eraseTerminator,
                    FState.drew, FState.putGen, FState.emitAt, FState.pushBB, FState.gen,
                    length_appendInsts, length_updBlock, List.length_append,
                    List.length_singleton, List.nil_append] at hgen hgb ⊢
                  have hgp : ∀ i ∈ g.insts, Inst.isPlain i = true := hgb ▸ hplain
                  exact Or.inr ⟨blk, term, e, g.insts,
                    .icmp g.next .sgt result (.const 0), .reg g.next, _, _, si, hblk, hterm,
                    hsuccs, hgp, rfl, rfl, hgen, rfl⟩
      · simp only [Option.some.injEq, Prod.mk.injEq] at h
        exact Or.inl h.1.symm

/-- Effect of a splice on the blocks that existed before it: all but `B` are left as
they are, `B` now branches to the predicate block alone, and the first successor of the
predicate block is the old successor of `B`. -/
theorem splice_effect {rnd : Nat → Nat} {ng : Nat} {F : List BasicBlock} {F1 : List BasicBlock}
    {B e D : Nat} {blk : BasicBlock} {body : List Inst} {cmpI : Inst} {cmp : Val}
    {sh si : FState} (hB : F[B]? = some blk)
    (hsh : sh.blocks = appendInsts (appendInsts (appendInsts
        (updBlock (fun B => { B with insts := B.insts.dropLast }) B
          (F ++ [newBlock "predicateBlock"])) B [.br F.length])
        F.length body) F.length [cmpI] ++ [newBlock "originator"])
    (hgen : genFakeFlow rnd ng D (F.length + 1) sh = some si)
    (hF1 : F1 = appendInsts si.blocks F.length [.condBr cmp e (F.length + 1)]) :
    (∀ i, i < F.length → i ≠ B → F1[i]? = F[i]?) ∧
    (∃ B1, F1[B]? = some B1 ∧ blockSuccessors B1 = [F.length]) ∧
    (∃ P, F1[F.length]? = some P ∧ (blockSuccessors P).head? = some e) := by
  have hBlt : B < F.length := (List.getElem?_eq_some_iff.1 hB).1
  have hlen : (appendInsts (appendInsts (appendInsts
        (updBlock (fun B => { B with insts := B.insts.dropLast }) B
          (F ++ [newBlock "predicateBlock"])) B [.br F.length])
        F.length body) F.length [cmpI]).length = F.length + 1 := by
    simp [length_appendInsts, length_updBlock]
  have hshlen : sh.blocks.length = F.length + 1 + 1 := by
    rw [hsh, List.length_append, hlen]; rfl
  have hframe := genFakeFlow_frame (K := F.length + 1) (Nat.le_refl _) (by omega) hgen
  have hget : ∀ i, i < F.length + 1 → F1[i]? =
      if i = F.length then
        some { newBlock "predicateBlock" with
          insts := body ++ [cmpI] ++ [.condBr cmp e (F.length + 1)] }
      else if i = B then some { blk with insts := blk.insts.dropLast ++ [.br F.length] }
      else F[i]? := by
    intro i hi
    rw [hF1, getElem?_appendInsts, hframe i hi, hsh,
      List.getElem?_append_left (by rw [hlen]; exact hi)]
    simp only [getElem?_appendInsts, getElem?_eraseTerminator]
    by_cases h1 : i = F.length
    · subst h1
      have hne : ¬ (F.length = B) := by omega
      simp [hne, newBlock]
    · have hlt : i < F.length := by omega
      simp only [h1, if_false]
      by_cases h2 : i = B
      · subst h2
        simp [List.getElem?_append_left hlt, hB]
      · simp [h2, List.getElem?_append_left hlt]
  refine ⟨?_, ?_, ?_⟩
  · intro i hi hne
    rw [hget i (by omega), if_neg (by omega), if_neg hne]
  · refine ⟨_, by rw [hget B (by omega), if_neg (by omega), if_pos rfl], ?_⟩
    exact blockSuccessors_of_closed _ blk.insts.dropLast (.br F.length) rfl rfl
  · refine ⟨_, by rw [hget F.length (by omega), if_pos rfl], ?_⟩
    rw [blockSuccessors_of_closed _ (body ++ [cmpI]) (.condBr cmp e (F.length + 1)) rfl rfl]
    rfl

theorem edge_iff (F : List BasicBlock) (i t : Nat) : edge F i t ↔ t ∈ succsAt F i := by
  unfold edge succsAt
  cases F[i]? with
  | none => simp
  | some B => simp

theorem succsAt_congr {F G : List BasicBlock} {i : Nat} (h : F[i]? = G[i]?) :
    succsAt F i = succsAt G i := by
  unfold succsAt
  rw [h]

theorem lt_of_succsAt_head {F : List BasicBlock} {p e : Nat}
    (h : (succsAt F p).head? = some e) : p < F.length := by
  unfold succsAt at h
  cases hp : F[p]? with
  | none => rw [hp] at h; cases h
  | some P => exact (List.getElem?_eq_some_iff.1 hp).1

/-- One iteration of the splice loop keeps `Spliced`. -/
theorem spliceStep_Spliced {rnd : Nat → Nat} {ng : Nat} {F₀ : List BasicBlock}
    {s s1 : FState} {changed c1 : Bool} {B : Nat} {rest : List Nat}
    (hnodup : (B :: rest).Nodup) (hB : B < F₀.length)
    (hrest : ∀ x ∈ rest, x < F₀.length)
    (hJ : Spliced F₀ (B :: rest) s.blocks)
    (h : spliceStep rnd ng s changed B = some (s1, c1)) :
    Spliced F₀ rest s1.blocks := by
  obtain ⟨hlen, hall, hun⟩ := hJ
  rcases spliceStep_cases h with h1 | ⟨blk, term, e, body, cmpI, cmp, D, sh, si, hblk, hterm,
    hsuccs, -, -, hsh, hgen, hF1⟩
  · subst h1
    exact ⟨hlen, hall, fun x hx => hun x (by simp [hx])⟩
  · obtain ⟨hframe, ⟨B1, hB1, hsB1⟩, ⟨P, hP, hsP⟩⟩ := splice_effect hblk hsh hgen hF1
    have hPlt : s.blocks.length < s1.blocks.length := (List.getElem?_eq_some_iff.1 hP).1
    have hBne : B ∉ rest := (List.nodup_cons.1 hnodup).1
    refine ⟨by omega, ?_, ?_⟩
    · intro i hi
      by_cases hiB : i = B
      · subst hiB
        right
        refine ⟨e, s.blocks.length, ?_, ?_, hlen, ?_⟩
        · have h0 : s.blocks[i]? = F₀[i]? := hun i (by simp)
          rw [← succsAt_congr h0]
          unfold succsAt blockSuccessors
          rw [hblk]
          simp only [hterm, hsuccs]
        · unfold succsAt
          rw [hB1]
          exact hsB1
        · unfold succsAt
          rw [hP]
          exact hsP
      · have hfi : s1.blocks[i]? = s.blocks[i]? := hframe i (by omega) hiB
        rcases hall i hi with h0 | ⟨e1, p1, h1, h2, h3, h4⟩
        · left
          rw [hfi]; exact h0
        · right
          have hp1 : p1 < s.blocks.length := lt_of_succsAt_head h4
          have hfp : s1.blocks[p1]? = s.blocks[p1]? := hframe p1 hp1 (by omega)
          exact ⟨e1, p1, h1, by rw [succsAt_congr hfi]; exact h2, h3,
            by rw [succsAt_congr hfp]; exact h4⟩
    · intro x hx
      have hxB : x ≠ B := fun hxb => hBne (hxb ▸ hx)
      rw [hframe x (by have := hrest x hx; omega) hxB]
      exact hun x (by simp [hx])

theorem spliceLoop_Spliced {rnd : Nat → Nat} {ng : Nat} {F₀ : List BasicBlock}
    (rest : List Nat) : ∀ (s s1 : FState) (changed c1 : Bool), rest.Nodup →
      (∀ x ∈ rest, x < F₀.length) → Spliced F₀ rest s.blocks →
      spliceLoop rnd ng rest s changed = some (s1, c1) → Spliced F₀ [] s1.blocks := by
  induction rest with
  | nil =>
    intro s s1 changed c1 _ _ hJ h
    simp only [spliceLoop, Option.some.injEq, Prod.mk.injEq] at h
    rw [← h.1]
    exact hJ
  | cons B rest ih =>
    intro s s1 changed c1 hnodup hlt hJ h
    simp only [spliceLoop] at h
    cases hstep : spliceStep rnd ng s changed B with
    | none => rw [hstep] at h; cases h
    | some r =>
      obtain ⟨s2, c2⟩ := r
      rw [hstep] at h
      have hJ2 := spliceStep_Spliced hnodup (hlt B (by simp))
        (fun x hx => hlt x (by simp [hx])) hJ hstep
      exact ih s2 s1 c2 c1 (List.nodup_cons.1 hnodup).2 (fun x hx => hlt x (by simp [hx]))
        hJ2 h

theorem collectFrom_nodup (F : List BasicBlock) : ∀ i, (collectFrom i F).Nodup := by
  induction F with
  | nil => intro i; simp [collectFrom]
  | cons B F ih =>
    intro i
    simp only [collectFrom]
    split
    · exact ih (i + 1)
    · refine List.nodup_cons.2 ⟨?_, ih (i + 1)⟩
      intro hmem
      have := (collectFrom_spec F (i + 1) i hmem).1
      omega

/-- The function `runOnFunction` returns is the input with some blocks spliced. -/
theorem runOnFunction_Spliced {rnd : Nat → Nat} {ng : Nat} {F F1 : List BasicBlock}
    {pos next : Nat} {changed : Bool}
    (h : runOnFunction rnd ng F pos next = some (F1, changed)) : Spliced F [] F1 := by
  have hstart : ∀ rest, Spliced F rest F :=
    fun rest => ⟨Nat.le_refl _, fun i _ => Or.inl rfl, fun _ _ => rfl⟩
  unfold runOnFunction at h
  dsimp only at h
  split at h
  · simp only [Option.some.injEq, Prod.mk.injEq] at h
    rw [← h.1]
    exact hstart []
  · split at h
    · rename_i s1 c1 hloop
      simp only [Option.some.injEq, Prod.mk.injEq] at h
      rw [← h.1]
      refine spliceLoop_Spliced (collectFrom 0 F).tail _ s1 false c1 ?_ ?_ (hstart _) hloop
      · exact (collectFrom_nodup F 0).sublist (List.tail_sublist _)
      · intro x hx
        obtain ⟨-, B1, hB1, -⟩ := collectFrom_spec F 0 x (List.mem_of_mem_tail hx)
        exact (List.getElem?_eq_some_iff.1 hB1).1
    · cases h

/-- A path of the spliced function that leaves the new blocks by their first successor
and avoids `d` projects to a path of the input that avoids `d`. -/
theorem avoidingPath_project {F₀ F1 : List BasicBlock} {d : Nat} (hn : 0 < F₀.length)
    (hwf : ∀ i t, t ∈ succsAt F₀ i → t < F₀.length) (hJ : Spliced F₀ [] F1) (v : Nat)
    (hp : AvoidingPath (realEdge F₀.length F1) d v) :
    (v < F₀.length → AvoidingPath (edge F₀) d v) ∧
    (F₀.length ≤ v → ∃ a e, AvoidingPath (edge F₀) d a ∧ succsAt F₀ a = [e] ∧
      (succsAt F1 v).head? = some e) := by
  induction hp with
  | entry h0 => exact ⟨fun _ => AvoidingPath.entry h0, fun h => by omega⟩
  | @step a b hpa hedge hbd ih =>
    obtain ⟨hmem, hfirst⟩ := hedge
    by_cases ha : a < F₀.length
    · have hpa0 := ih.1 ha
      rcases hJ.2.1 a ha with h0 | ⟨e, p, h1, h2, h3, h4⟩
      · rw [succsAt_congr h0] at hmem
        have hb := hwf a b hmem
        exact ⟨fun _ => AvoidingPath.step hpa0 ((edge_iff F₀ a b).2 hmem) hbd,
          fun h => by omega⟩
      · rw [h2] at hmem
        simp only [List.mem_singleton] at hmem
        subst hmem
        exact ⟨fun h => by omega, fun _ => ⟨a, e, hpa0, h1, h4⟩⟩
    · obtain ⟨a1, e, hpa1, hs1, hhead⟩ := ih.2 (by omega)
      have hbe : b = e := by
        have := hfirst (by omega)
        rw [hhead] at this
        exact (Option.some.inj this).symm
      subst hbe
      have hmem1 : b ∈ succsAt F₀ a1 := by rw [hs1]; simp
      have hb := hwf a1 b hmem1
      exact ⟨fun _ => AvoidingPath.step hpa1 ((edge_iff F₀ a1 b).2 hmem1) hbd,
        fun h => by omega⟩

theorem succsAt_lt_of_wellFormed {F : List BasicBlock} (hF : wellFormed F = true) :
    ∀ i t, t ∈ succsAt F i → t < F.length := by
  intro i t ht
  unfold succsAt at ht
  cases hB : F[i]? with
  | none => rw [hB] at ht; cases ht
  | some B =>
    rw [hB] at ht
    dsimp only at ht
    have hc := (wellFormed_iff F).1 hF i B hB
    rw [closed_iff] at hc
    obtain ⟨body, tm, h1, -, h3, h4⟩ := hc
    rw [blockSuccessors_of_closed B body tm h1 h3] at ht
    exact h4 t ht

/-- C7 as amended (dominance along the real edges): for every well-formed input function
and all draws, `runOnFunction` returns, and if block `d` dominates block `u` in the input
then every path of the result from the entry to `u` that leaves each new block by its
first successor (the true outcome of its branch) goes through `d`. -/
theorem runOnFunction_dominance_real (rnd : Nat → Nat) (ng : Nat) (F : List BasicBlock)
    (pos next : Nat) (hng : 0 < ng) (hF : wellFormed F = true) :
    ∃ F1 changed, runOnFunction rnd ng F pos next = some (F1, changed) ∧
      ∀ d u, d < F.length → u < F.length → Dominates (edge F) d u →
        Dominates (realEdge F.length F1) d u := by
  obtain ⟨F1, changed, A, hrun, -⟩ := runOnFunction_CI rnd hng F pos next hF
  refine ⟨F1, changed, hrun, ?_⟩
  intro d u hd hu hdom hpath
  exact hdom ((avoidingPath_project (by omega) (succsAt_lt_of_wellFormed hF)
    (runOnFunction_Spliced hrun) u hpath).1 hu)

/-- C7 as stated fails: in `entry -> a -> b -> c` block `b` dominates block `c`, and in
the function `runOnFunction` makes of it the path `entry, a, 4, 5, 6, c` through the fake
flow reaches `c` without `b`. -/
theorem runOnFunction_breaks_dominance :
    runOnFunction (tape [0, 1, 0, 0, 0, 0, 0, 1, 0, 0, 0, 0, 2]) 1 chain4 0 0
      = some (spliced4, true) ∧
    Dominates (edge chain4) 2 3 ∧ ¬ Dominates (edge spliced4) 2 3 := by
  refine ⟨by decide, ?_, ?_⟩
  · intro hp
    have key : ∀ v, AvoidingPath (edge chain4) 2 v → v = 0 ∨ v = 1 := by
      intro v hv
      induction hv with
      | entry _ => exact Or.inl rfl
      | @step a b _ hedge hbd ih =>
        rw [edge_iff] at hedge
        rcases ih with rfl | rfl
        · have h0 : succsAt chain4 0 = [1] := by decide
          rw [h0] at hedge
          simp only [List.mem_singleton] at hedge
          exact Or.inr hedge
        · have h1 : succsAt chain4 1 = [2] := by decide
          rw [h1] at hedge
          simp only [List.mem_singleton] at hedge
          exact absurd hedge hbd
    rcases key 3 hp with h | h <;> cases h
  · intro hdom
    apply hdom
    have e01 : edge spliced4 0 1 := (edge_iff _ _ _).2 (by decide)
    have e14 : edge spliced4 1 4 := (edge_iff _ _ _).2 (by decide)
    have e45 : edge spliced4 4 5 := (edge_iff _ _ _).2 (by decide)
    have e56 : edge spliced4 5 6 := (edge_iff _ _ _).2 (by decide)
    have e63 : edge spliced4 6 3 := (edge_iff _ _ _).2 (by decide)
    exact AvoidingPath.step (AvoidingPath.step (AvoidingPath.step (AvoidingPath.step
      (AvoidingPath.step (AvoidingPath.entry (by decide)) e01 (by decide)) e14 (by decide))
      e45 (by decide)) e56 (by decide)) e63 (by decide)

/-- C7 as amended, at a concrete input: the function `entry -> a -> b -> c`. -/
theorem runOnFunction_dominance_real_witness :
    0 < 1 ∧ wellFormed chain4 = true ∧
    ∃ F1 changed, runOnFunction (tape [0, 1, 0, 0, 0, 0, 0, 1, 0, 0, 0, 0, 2]) 1 chain4 0 0
        = some (F1, changed) ∧
      ∀ d u, d < chain4.length → u < chain4.length → Dominates (edge chain4) d u →
        Dominates (realEdge chain4.length F1) d u :=
  ⟨by decide, by decide,
   runOnFunction_dominance_real (tape [0, 1, 0, 0, 0, 0, 0, 1, 0, 0, 0, 0, 2]) 1 chain4 0 0
     (by decide) (by decide)⟩

/-! ### The guard policy: `ensureNot0` and `ensureGT0` -/

theorem step_binop (m : Machine) (id : Nat) (op : BinOp) (a b : Val) (x y r : Nat)
    (ha : m.eval a = some x) (hb : m.eval b = some y) (hr : evalBinOp op x y = some r) :
    m.step (.binop id op a b) = some (m.setReg id r) := by
  simp only [Machine.step, ha, hb, hr, Option.map_some']

theorem eval_const_small (m : Machine) (c : Nat) (h : c < 4294967296) :
    m.eval (.const c) = some c := by
  simp [Machine.eval, Nat.mod_eq_of_lt h]

/-- C15 (non-zero rule): for every 32-bit shadow value `control` and every value, when
`control = 0` the function `ensureNot0` draws once, emits exactly one instruction, the
`add` of the value and a constant `k` in `[2, 127]`, returns that instruction (which
computes `v + k` at run time wherever the value computes `v`) and leaves the shadow `k`;
when `control ≠ 0` it emits nothing and returns value and shadow as they are; in both
cases the shadow it leaves is non-zero. -/
theorem ensureNot0_rule (rnd : Nat → Nat) (g : Gen) (value : Val) (control : Nat)
    (hc : control < 4294967296) :
    (control = 0 →
      ∃ k, 2 ≤ k ∧ k ≤ 127 ∧
        ensureNot0 rnd g value control =
          ({ pos := g.pos + 1, next := g.next + 1,
             insts := g.insts ++ [.binop g.next .add value (.const k)] }, .reg g.next, k) ∧
        ∀ (m : Machine) (x : Nat), m.eval value = some x →
          ∃ m1, m.step (.binop g.next .add value (.const k)) = some m1 ∧
            m1.eval (.reg g.next) = some (add32 x k)) ∧
    (control ≠ 0 → ensureNot0 rnd g value control = (g, value, control)) ∧
    (ensureNot0 rnd g value control).2.2 % 4294967296 ≠ 0 := by
  have hk : 2 ≤ dist8 rnd g.pos ∧ dist8 rnd g.pos ≤ 127 := by unfold dist8; omega
  refine ⟨?_, ?_, ?_⟩
  · intro h0
    subst h0
    refine ⟨dist8 rnd g.pos, hk.1, hk.2, ?_, ?_⟩
    · have : add32 0 (dist8 rnd g.pos) = dist8 rnd g.pos := by
        unfold add32; omega
      simp [ensureNot0, Gen.emit, Gen.drew, this]
    · intro m x hx
      refine ⟨m.setReg g.next (add32 x (dist8 rnd g.pos)), ?_, ?_⟩
      · exact step_binop m _ _ _ _ x _ _ hx (eval_const_small m _ (by omega)) rfl
      · simp [Machine.eval, Machine.setReg]
  · intro h0
    simp [ensureNot0, h0]
  · by_cases h0 : control = 0
    · subst h0
      have : add32 0 (dist8 rnd g.pos) = dist8 rnd g.pos := by
        unfold add32; omega
      simp only [ensureNot0, Gen.emit, Gen.drew, if_true, this]
      omega
    · simp only [ensureNot0, h0, if_false]
      omega

/-- C15 at a concrete call: shadow 0, the draw giving the constant `2 + 5 = 7`. -/
theorem ensureNot0_rule_witness :
    (0 : Nat) < 4294967296 ∧
    ((0 : Nat) = 0 →
      ∃ k, 2 ≤ k ∧ k ≤ 127 ∧
        ensureNot0 (tape [5]) { pos := 0, next := 0, insts := [] } (.const 0) 0 =
          ({ pos := 0 + 1, next := 0 + 1,
             insts := [] ++ [.binop 0 .add (.const 0) (.const k)] }, .reg 0, k) ∧
        ∀ (m : Machine) (x : Nat), m.eval (.const 0) = some x →
          ∃ m1, m.step (.binop 0 .add (.const 0) (.const k)) = some m1 ∧
            m1.eval (.reg 0) = some (add32 x k)) ∧
    ((0 : Nat) ≠ 0 →
      ensureNot0 (tape [5]) { pos := 0, next := 0, insts := [] } (.const 0) 0 =
        ({ pos := 0, next := 0, insts := [] }, .const 0, 0)) ∧
    (ensureNot0 (tape [5]) { pos := 0, next := 0, insts := [] } (.const 0) 0).2.2
      % 4294967296 ≠ 0 :=
  ⟨by decide,
   ensureNot0_rule (tape [5]) { pos := 0, next := 0, insts := [] } (.const 0) 0 (by decide)⟩

/-- What `ensureNot0` appends runs, and the value it returns computes the shadow it
leaves. -/
theorem ensureNot0_exec (rnd : Nat → Nat) (g : Gen) (value : Val) (control : Nat)
    (m m1 : Machine) (hrun : m.exec g.insts = some m1)
    (hv : m1.eval value = some control) :
    ∃ m2, m.exec (ensureNot0 rnd g value control).1.insts = some m2 ∧
      m2.eval (ensureNot0 rnd g value control).2.1
        = some (ensureNot0 rnd g value control).2.2 := by
  unfold ensureNot0
  split
  · refine ⟨m1.setReg g.next (add32 control (dist8 rnd g.pos)), ?_, ?_⟩
    · have e : dist8 rnd g.pos < 4294967296 := by unfold dist8; omega
      simp only [Gen.emit, Gen.drew, exec_append, hrun, Option.some_bind, Machine.exec]
      rw [step_binop m1 g.next .add _ _ control _ (add32 control (dist8 rnd g.pos)) hv
        (eval_const_small m1 _ e) rfl]
    · simp [Gen.emit, Gen.drew, Machine.eval, Machine.setReg]
  · exact ⟨m1, hrun, hv⟩

/-- What `ensureGT0` appends runs, and the value it returns computes the shadow it
leaves. -/
theorem ensureGT0_exec (rnd : Nat → Nat) (g : Gen) (value : Val) (control : Nat)
    (m m1 : Machine) (hrun : m.exec g.insts = some m1)
    (hv : m1.eval value = some control) :
    ∃ m2, m.exec (ensureGT0 rnd g value control).1.insts = some m2 ∧
      m2.eval (ensureGT0 rnd g value control).2.1
        = some (ensureGT0 rnd g value control).2.2 := by
  obtain ⟨m2, h2, hv2⟩ := ensureNot0_exec rnd g value control m m1 hrun hv
  unfold ensureGT0
  dsimp only
  split
  · refine ⟨m2.setReg (ensureNot0 rnd g value control).1.next
      (and32 (ensureNot0 rnd g value control).2.2 2147483647), ?_, ?_⟩
    · simp only [Gen.emit, exec_append, h2, Option.some_bind, Machine.exec]
      rw [step_binop m2 _ .and _ _ _ _ (and32 (ensureNot0 rnd g value control).2.2 2147483647)
        hv2 (eval_const_small m2 _ (by decide)) rfl]
    · simp [Gen.emit, Machine.eval, Machine.setReg]
  · exact ⟨m2, h2, hv2⟩

/-- C19 (lockstep of the guard policy): whenever the code emitted so far runs and the
value computes the shadow `control` at its end, the code with what `ensureGT0` appends
runs as well and the value `ensureGT0` returns computes the shadow `ensureGT0` leaves, for
all draws; and the same holds of `ensureNot0`. -/
theorem ensureGT0_lockstep (rnd : Nat → Nat) (g : Gen) (value : Val) (control : Nat)
    (m m1 : Machine) (hrun : m.exec g.insts = some m1)
    (hv : m1.eval value = some control) :
    (∃ m2, m.exec (ensureGT0 rnd g value control).1.insts = some m2 ∧
      m2.eval (ensureGT0 rnd g value control).2.1
        = some (ensureGT0 rnd g value control).2.2) ∧
    (∃ m2, m.exec (ensureNot0 rnd g value control).1.insts = some m2 ∧
      m2.eval (ensureNot0 rnd g value control).2.1
        = some (ensureNot0 rnd g value control).2.2) :=
  ⟨ensureGT0_exec rnd g value control m m1 hrun hv,
   ensureNot0_exec rnd g value control m m1 hrun hv⟩

/-- C19 at a concrete call: the negative shadow `-5` (pattern `0xfffffffb`), masked to
`0x7ffffffb`. -/
theorem ensureGT0_lockstep_witness :
    (Machine.init (fun _ => 0)).exec [] = some (Machine.init (fun _ => 0)) ∧
    (Machine.init (fun _ => 0)).eval (.const 4294967291) = some 4294967291 ∧
    ((∃ m2, (Machine.init (fun _ => 0)).exec
        (ensureGT0 (tape []) { pos := 0, next := 0, insts := [] }
          (.const 4294967291) 4294967291).1.insts = some m2 ∧
      m2.eval (ensureGT0 (tape []) { pos := 0, next := 0, insts := [] }
          (.const 4294967291) 4294967291).2.1
        = some (ensureGT0 (tape []) { pos := 0, next := 0, insts := [] }
          (.const 4294967291) 4294967291).2.2) ∧
    (∃ m2, (Machine.init (fun _ => 0)).exec
        (ensureNot0 (tape []) { pos := 0, next := 0, insts := [] }
          (.const 4294967291) 4294967291).1.insts = some m2 ∧
      m2.eval (ensureNot0 (tape []) { pos := 0, next := 0, insts := [] }
          (.const 4294967291) 4294967291).2.1
        = some (ensureNot0 (tape []) { pos := 0, next := 0, insts := [] }
          (.const 4294967291) 4294967291).2.2)) :=
  ⟨rfl, rfl,
   ensureGT0_lockstep (tape []) { pos := 0, next := 0, insts := [] } (.const 4294967291)
     4294967291 (Machine.init (fun _ => 0)) (Machine.init (fun _ => 0)) rfl rfl⟩

/-! ### The skip condition of `runOnFunction` -/

/-- Every collected block other than the entry is one the specification counts. -/
theorem collectFrom_mem_eligibleBlocks (F : List BasicBlock) (a : Nat)
    (ha : a ∈ collectFrom 0 F) (h0 : a ≠ 0) : a ∈ eligibleBlocks F := by
  obtain ⟨-, B, hB, hphi, heh, hlp⟩ := collectFrom_spec F 0 a ha
  rw [Nat.sub_zero] at hB
  have hlt : a < F.length := (List.getElem?_eq_some_iff.1 hB).1
  unfold eligibleBlocks
  rw [List.mem_filter]
  refine ⟨List.mem_range.2 hlt, ?_⟩
  rw [hB]
  simp [h0, hphi, heh, hlp]

/-- C14 as stated fails: in `entry -> a` with `a` looping on itself exactly one block
other than the entry is eligible, fewer than two, and `runOnFunction` splices it: it
returns `true` and a function of five blocks in which `a` branches to the new predicate
block. -/
theorem runOnFunction_splices_single_candidate :
    (eligibleBlocks loop2).length < 2 ∧
    (runOnFunction (tape []) 1 loop2 0 0).map
        (fun r => (r.2, r.1.length, decide (r.1 = loop2), getInsts r.1 1))
      = some (true, 5, false, [.other, .br 2]) := by
  decide

/-- C14 as amended (skip condition): for every function in which no block other than
the entry is eligible (neither exception pad nor landing pad, no PHI), that is in which
at most one block is collected, `runOnFunction` returns `false` and the function as it
was, for all draws. -/
theorem runOnFunction_skips (rnd : Nat → Nat) (ng : Nat) (F : List BasicBlock)
    (pos next : Nat) (h : eligibleBlocks F = []) :
    runOnFunction rnd ng F pos next = some (F, false) := by
  have hall : ∀ a ∈ collectFrom 0 F, a = 0 := by
    intro a ha
    by_contra h0
    have := collectFrom_mem_eligibleBlocks F a ha h0
    rw [h] at this
    cases this
  have hlen : (collectFrom 0 F).length ≤ 1 := by
    have hnd := collectFrom_nodup F 0
    match hc : collectFrom 0 F, hall, hnd with
    | [], _, _ => simp
    | [_], _, _ => simp
    | a :: b :: rest, hall, hnd =>
      have ha := hall a (by simp)
      have hb := hall b (by simp)
      subst ha hb
      simp at hnd
  unfold runOnFunction
  simp only [hlen, if_true]

/-- C14 as amended, at a concrete input: a function of the entry block alone. -/
theorem runOnFunction_skips_witness :
    eligibleBlocks single1 = [] ∧
    runOnFunction (tape [3, 1]) 1 single1 0 0 = some (single1, false) :=
  ⟨by decide, runOnFunction_skips (tape [3, 1]) 1 single1 0 0 (by decide)⟩

/-! ### Shadow fidelity of `randomOperations` without the choices 15 and 16 -/

theorem LockInv_drew {m : Machine} {g : Gen} {res ly lz : Val} {c1 c2 c3 : Nat}
    (h : LockInv m g res ly lz c1 c2 c3) : LockInv m g.drew res ly lz c1 c2 c3 := h

/-- Emitting `res = op res b` keeps the lockstep when `b` computes `y` and the shadow is
updated by the same operation. -/
theorem LockInv_emit {m : Machine} {g : Gen} {res ly lz : Val} {c1 c2 c3 : Nat}
    (h : LockInv m g res ly lz c1 c2 c3) (op : BinOp) (b : Val) (y r : Nat)
    (hb : (b = ly ∧ y = c1) ∨ (b = lz ∧ y = c2) ∨ (b = res ∧ y = c3) ∨
      (b = .const y ∧ y < 4294967296))
    (hr : evalBinOp op c3 y = some r) :
    LockInv m (g.emit (fun id => .binop id op res b)).2
      (g.emit (fun id => .binop id op res b)).1 ly lz c1 c2 r := by
  obtain ⟨m1, hexec, hby, hbz, her, hey, hez, h1, h2⟩ := h
  have hy : m1.eval b = some y := by
    rcases hb with ⟨hb, hy⟩ | ⟨hb, hy⟩ | ⟨hb, hy⟩ | ⟨hb, hy⟩
    · subst hb hy; exact hey
    · subst hb hy; exact hez
    · subst hb hy; exact her
    · subst hb; exact eval_const_small m1 y hy
  have hstep := step_binop m1 g.next op res b c3 y r her hy hr
  refine ⟨m1.setReg g.next r, ?_, ?_, ?_, ?_, ?_, ?_, h1, h2⟩
  · simp only [Gen.emit, exec_append, hexec, Option.some_bind, Machine.exec, hstep]
  · exact Val.below_mono hby (Nat.le_succ _)
  · exact Val.below_mono hbz (Nat.le_succ _)
  · simp [Gen.emit, Machine.eval, Machine.setReg]
  · show (m1.setReg g.next r).eval ly = some c1
    rw [eval_setReg_below _ _ _ _ hby]; exact hey
  · show (m1.setReg g.next r).eval lz = some c2
    rw [eval_setReg_below _ _ _ _ hbz]; exact hez

/-- The volatile store of case 14 keeps the lockstep. -/
theorem LockInv_store {m : Machine} {g : Gen} {res ly lz : Val} {c1 c2 c3 : Nat}
    (h : LockInv m g res ly lz c1 c2 c3) (tmp : Global) :
    LockInv m (g.push (.store res (.global tmp) true)) res ly lz c1 c2 c3 := by
  obtain ⟨m1, hexec, hby, hbz, her, hey, hez, h1, h2⟩ := h
  have hstep : m1.step (.store res (.global tmp) true) = some (m1.setGlobal tmp c3) := by
    simp only [Machine.step, her, Option.map_some']
  have heval : ∀ v, (m1.setGlobal tmp c3).eval v = m1.eval v := by
    intro v; cases v <;> rfl
  refine ⟨m1.setGlobal tmp c3, ?_, hby, hbz, ?_, ?_, ?_, h1, h2⟩
  · simp only [Gen.push, exec_append, hexec, Option.some_bind, Machine.exec, hstep]
  · rw [heval]; exact her
  · rw [heval]; exact hey
  · rw [heval]; exact hez

/-- One iteration with a choice among 0..14 has a result and keeps the lockstep. -/
theorem LockInv_step (rnd : Nat → Nat) {ng : Nat} (hng : 0 < ng) {m : Machine} (s : Loop)
    (h : LockInv m s.g s.res s.ly s.lz s.control1 s.control2 s.control3)
    (hc : rd rnd s.g.pos % 17 ≤ 14) :
    ∃ s1, randomStep rnd ng s = some s1 ∧
      LockInv m s1.g s1.res s1.ly s1.lz s1.control1 s1.control2 s1.control3 := by
  have hd := LockInv_drew h
  obtain ⟨-, -, -, -, -, -, -, h1, h2⟩ := h
  have e1 := ensureNot0_of_ne_zero rnd s.g.drew s.ly s.control1 (by omega)
  have e2 := ensureNot0_of_ne_zero rnd s.g.drew s.lz s.control2 (by omega)
  have hg : getRandGlobal rnd ng s.g.drew.pos = some (.scratch (rnd s.g.drew.pos % ng)) := by
    unfold getRandGlobal
    rw [if_neg (by omega)]
  unfold randomStep
  dsimp only
  split
  case h_1 => exact ⟨_, rfl, LockInv_emit hd .mul s.ly _ _ (Or.inl ⟨rfl, rfl⟩) rfl⟩
  case h_2 => exact ⟨_, rfl, LockInv_emit hd .mul s.lz _ _ (Or.inr (Or.inl ⟨rfl, rfl⟩)) rfl⟩
  case h_3 =>
    obtain ⟨r, hr⟩ := sdiv32_small s.control3 s.control2 h2.1 (by omega)
    rw [e2]
    simp only [hr, Option.map_some']
    exact ⟨_, rfl, LockInv_emit hd .sdiv s.lz _ r (Or.inr (Or.inl ⟨rfl, rfl⟩)) hr⟩
  case h_4 =>
    obtain ⟨r, hr⟩ := sdiv32_small s.control3 s.control1 h1.1 (by omega)
    rw [e1]
    simp only [hr, Option.map_some']
    exact ⟨_, rfl, LockInv_emit hd .sdiv s.ly _ r (Or.inl ⟨rfl, rfl⟩) hr⟩
  case h_5 => exact ⟨_, rfl, LockInv_emit hd .add s.ly _ _ (Or.inl ⟨rfl, rfl⟩) rfl⟩
  case h_6 => exact ⟨_, rfl, LockInv_emit hd .add s.lz _ _ (Or.inr (Or.inl ⟨rfl, rfl⟩)) rfl⟩
  case h_7 =>
    exact ⟨_, rfl, LockInv_emit hd .add s.res _ _ (Or.inr (Or.inr (Or.inl ⟨rfl, rfl⟩))) rfl⟩
  case h_8 => exact ⟨_, rfl, LockInv_emit hd .sub s.ly _ _ (Or.inl ⟨rfl, rfl⟩) rfl⟩
  case h_9 => exact ⟨_, rfl, LockInv_emit hd .sub s.lz _ _ (Or.inr (Or.inl ⟨rfl, rfl⟩)) rfl⟩
  case h_10 =>
    have hm : 2 ≤ dist8 rnd s.g.drew.pos ∧ dist8 rnd s.g.drew.pos ≤ 127 := by
      unfold dist8; omega
    obtain ⟨r, hr⟩ := srem32_small s.control3 (dist8 rnd s.g.drew.pos) hm.1 (by omega)
    simp only [hr, Option.map_some']
    exact ⟨_, rfl, LockInv_emit (LockInv_drew hd) .srem _ _ r
      (Or.inr (Or.inr (Or.inr ⟨rfl, by omega⟩))) hr⟩
  case h_11 => exact ⟨_, rfl, LockInv_emit hd .xor s.ly _ _ (Or.inl ⟨rfl, rfl⟩) rfl⟩
  case h_12 => exact ⟨_, rfl, LockInv_emit hd .xor s.lz _ _ (Or.inr (Or.inl ⟨rfl, rfl⟩)) rfl⟩
  case h_13 => exact ⟨_, rfl, LockInv_emit hd .or s.ly _ _ (Or.inl ⟨rfl, rfl⟩) rfl⟩
  case h_14 => exact ⟨_, rfl, LockInv_emit hd .or s.lz _ _ (Or.inr (Or.inl ⟨rfl, rfl⟩)) rfl⟩
  case h_15 =>
    simp only [hg, Option.map_some']
    exact ⟨_, rfl, LockInv_store (LockInv_drew hd) _⟩
  case h_16 h15 => rw [h15] at hc; omega
  case h_17 h16 => rw [h16] at hc; omega
  case h_18 => exact ⟨_, rfl, hd⟩

/-- The loop keeps the lockstep while its choices are among 0..14. -/
theorem LockInv_loop (rnd : Nat → Nat) {ng : Nat} (hng : 0 < ng) {m : Machine} (k : Nat) :
    ∀ s : Loop, LockInv m s.g s.res s.ly s.lz s.control1 s.control2 s.control3 →
      (∀ c ∈ randomChoices rnd ng k s, c ≤ 14) →
      ∃ s1, randomLoop rnd ng k s = some s1 ∧
        LockInv m s1.g s1.res s1.ly s1.lz s1.control1 s1.control2 s1.control3 := by
  induction k with
  | zero => intro s h _; exact ⟨s, rfl, h⟩
  | succ k ih =>
    intro s h hch
    obtain ⟨s1, hs1, h1⟩ := LockInv_step rnd hng s h (hch _ (by simp [randomChoices]))
    obtain ⟨s2, hs2, h2⟩ := ih s1 h1 (by
      intro c hc
      exact hch c (by simp [randomChoices, hs1, hc]))
    exact ⟨s2, by simp only [randomLoop, hs1, hs2], h2⟩

/-- The lockstep holds when the loop is entered, in a fresh builder. -/
theorem LockInv_init (rnd : Nat → Nat) (m : Machine) (pos next : Nat) :
    LockInv m (randomInit rnd { pos := pos, next := next, insts := [] }).g
      (randomInit rnd { pos := pos, next := next, insts := [] }).res
      (randomInit rnd { pos := pos, next := next, insts := [] }).ly
      (randomInit rnd { pos := pos, next := next, insts := [] }).lz
      (randomInit rnd { pos := pos, next := next, insts := [] }).control1
      (randomInit rnd { pos := pos, next := next, insts := [] }).control2
      (randomInit rnd { pos := pos, next := next, insts := [] }).control3 := by
  have h0 : dist16 rnd pos < 32768 := by unfold dist16; omega
  have h1 : 2 ≤ dist8 rnd (pos + 1) ∧ dist8 rnd (pos + 1) ≤ 127 := by unfold dist8; omega
  have h2 : 2 ≤ dist8 rnd (pos + 2) ∧ dist8 rnd (pos + 2) ≤ 127 := by unfold dist8; omega
  have e0 : dist16 rnd pos % 4294967296 = dist16 rnd pos := Nat.mod_eq_of_lt (by omega)
  have e1 : dist8 rnd (pos + 1) % 4294967296 = dist8 rnd (pos + 1) :=
    Nat.mod_eq_of_lt (by omega)
  have e2 : dist8 rnd (pos + 2) % 4294967296 = dist8 rnd (pos + 2) :=
    Nat.mod_eq_of_lt (by omega)
  refine ⟨_, exec_randomInit rnd m pos next, ?_, ?_, ?_, ?_, ?_, h1, h2⟩
  · simp [randomInit, Gen.emit, Gen.push, Val.below]
  · simp [randomInit, Gen.emit, Gen.push, Val.below]
  · simp [randomInit, Gen.emit, Gen.push, Machine.eval, initMachine, Nat.add_assoc, e0]
  · simp [randomInit, Gen.emit, Gen.push, Machine.eval, initMachine, Nat.add_assoc, e1]
  · simp [randomInit, Gen.emit, Gen.push, Machine.eval, initMachine, Nat.add_assoc, e2]

/-- C20 (restricted shadow fidelity): for all draws and every iteration count `N`, when
every choice the loop of `randomOperations` draws is among 0..14 (the scratch pool being
non-empty, as `run` makes it), `randomOperations` returns, the code it has emitted runs
to its end from every state, and the returned value computes there exactly the returned
`controlVal`. -/
theorem randomOperations_restricted_fidelity (rnd : Nat → Nat) (ng pos next N : Nat)
    (m : Machine) (hng : 0 < ng)
    (hch : ∀ c ∈ randomChoices rnd ng N
      (randomInit rnd { pos := pos, next := next, insts := [] }), c ≤ 14) :
    ∃ g res controlVal m1,
      randomOperations rnd ng { pos := pos, next := next, insts := [] } N
        = some (g, res, controlVal) ∧
      m.exec g.insts = some m1 ∧ m1.eval res = some controlVal := by
  obtain ⟨s, hs, hinv⟩ := LockInv_loop rnd hng N _ (LockInv_init rnd m pos next) hch
  obtain ⟨m1, hexec, -, -, her, -⟩ := hinv
  obtain ⟨m2, h2, hv2⟩ := ensureGT0_exec rnd s.g s.res s.control3 m m1 hexec her
  refine ⟨_, _, _, m2, ?_, h2, hv2⟩
  simp only [randomOperations, hs]

/-- C20 at a concrete run: `x = 100`, `y = 5`, `z = 9` and the two iterations
`res /= z`, `res %= 7`. -/
theorem randomOperations_restricted_fidelity_witness :
    0 < 1 ∧
    (∀ c ∈ randomChoices (tape [100, 3, 7, 2, 9, 5]) 1 2
      (randomInit (tape [100, 3, 7, 2, 9, 5]) { pos := 0, next := 0, insts := [] }), c ≤ 14) ∧
    ∃ g res controlVal m1,
      randomOperations (tape [100, 3, 7, 2, 9, 5]) 1 { pos := 0, next := 0, insts := [] } 2
        = some (g, res, controlVal) ∧
      (Machine.init (fun _ => 0)).exec g.insts = some m1 ∧
      m1.eval res = some controlVal :=
  ⟨by decide, by decide,
   randomOperations_restricted_fidelity (tape [100, 3, 7, 2, 9, 5]) 1 0 0 2
     (Machine.init (fun _ => 0)) (by decide) (by decide)⟩

/-! ### Frame of the splice -/

/-- The blocks that existed before a splice, after it: the spliced block `B` has lost
its terminator for a branch to the predicate block, the others are as they were. -/
theorem splice_get {rnd : Nat → Nat} {ng : Nat} {F : List BasicBlock} {F1 : List BasicBlock}
    {B e D : Nat} {blk : BasicBlock} {body : List Inst} {cmpI : Inst} {cmp : Val}
    {sh si : FState} (hB : F[B]? = some blk)
    (hsh : sh.blocks = appendInsts (appendInsts (appendInsts
        (updBlock (fun B => { B with insts := B.insts.dropLast }) B
          (F ++ [newBlock "predicateBlock"])) B [.br F.length])
        F.length body) F.length [cmpI] ++ [newBlock "originator"])
    (hgen : genFakeFlow rnd ng D (F.length + 1) sh = some si)
    (hF1 : F1 = appendInsts si.blocks F.length [.condBr cmp e (F.length + 1)]) :
    F.length < F1.length ∧
    ∀ i, i < F.length → F1[i]? =
      if i = B then some { blk with insts := blk.insts.dropLast ++ [.br F.length] }
      else F[i]? := by
  have hBlt : B < F.length := (List.getElem?_eq_some_iff.1 hB).1
  have hlen : (appendInsts (appendInsts (appendInsts
        (updBlock (fun B => { B with insts := B.insts.dropLast }) B
          (F ++ [newBlock "predicateBlock"])) B [.br F.length])
        F.length body) F.length [cmpI]).length = F.length + 1 := by
    simp [length_appendInsts, length_updBlock]
  have hshlen : sh.blocks.length = F.length + 1 + 1 := by
    rw [hsh, List.length_append, hlen]; rfl
  have hframe := genFakeFlow_frame (K := F.length + 1) (Nat.le_refl _) (by omega) hgen
  have hsz := (genFakeFlow_size D _ sh si hgen).1
  refine ⟨by rw [hF1, length_appendInsts]; omega, ?_⟩
  intro i hi
  rw [hF1, getElem?_appendInsts, hframe i (by omega), hsh,
    List.getElem?_append_left (by rw [hlen]; omega)]
  simp only [getElem?_appendInsts, getElem?_eraseTerminator]
  have h1 : i ≠ F.length := by omega
  simp only [h1, if_false]
  by_cases h2 : i = B
  · subst h2
    simp [List.getElem?_append_left hi, hB]
  · simp [h2, List.getElem?_append_left hi]

/-- One iteration of the splice loop keeps `Framed`. -/
theorem spliceStep_Framed {rnd : Nat → Nat} {ng : Nat} {F₀ : List BasicBlock}
    {s s1 : FState} {changed c1 : Bool} {B : Nat} {L rest : List Nat}
    (hnodup : (B :: rest).Nodup) (hB : B < F₀.length) (hBL : B ∈ L)
    (hrest : ∀ x ∈ rest, x < F₀.length)
    (hJ : Framed F₀ L (B :: rest) s.blocks)
    (h : spliceStep rnd ng s changed B = some (s1, c1)) :
    Framed F₀ L rest s1.blocks := by
  obtain ⟨hlen, hall, hun⟩ := hJ
  rcases spliceStep_cases h with h1 | ⟨blk, term, e, body, cmpI, cmp, D, sh, si, hblk, hterm,
    hsuccs, -, -, hsh, hgen, hF1⟩
  · subst h1
    exact ⟨hlen, hall, fun x hx => hun x (by simp [hx])⟩
  · obtain ⟨hlt, hget⟩ := splice_get hblk hsh hgen hF1
    have hBne : B ∉ rest := (List.nodup_cons.1 hnodup).1
    have h0 : s.blocks[B]? = F₀[B]? := hun B (by simp)
    refine ⟨by omega, ?_, ?_⟩
    · intro i hi
      by_cases hiB : i = B
      · subst hiB
        right
        refine ⟨hBL, blk, term, e, s.blocks.length, by rw [← h0]; exact hblk, hterm, hsuccs,
          hlen, ?_⟩
        rw [hget i (by omega), if_pos rfl]
      · have hfi : s1.blocks[i]? = s.blocks[i]? := by
          rw [hget i (by omega), if_neg hiB]
        rcases hall i hi with h0 | ⟨hiL, B₀, t, e1, p, hB₀, ht, he, hp, hFi⟩
        · left
          rw [hfi]; exact h0
        · right
          exact ⟨hiL, B₀, t, e1, p, hB₀, ht, he, hp, by rw [hfi]; exact hFi⟩
    · intro x hx
      have hxB : x ≠ B := fun hxb => hBne (hxb ▸ hx)
      rw [hget x (by have := hrest x hx; omega), if_neg hxB]
      exact hun x (by simp [hx])

theorem spliceLoop_Framed {rnd : Nat → Nat} {ng : Nat} {F₀ : List BasicBlock} {L : List Nat}
    (rest : List Nat) : ∀ (s s1 : FState) (changed c1 : Bool), rest.Nodup →
      (∀ x ∈ rest, x < F₀.length ∧ x ∈ L) → Framed F₀ L rest s.blocks →
      spliceLoop rnd ng rest s changed = some (s1, c1) → Framed F₀ L [] s1.blocks := by
  induction rest with
  | nil =>
    intro s s1 changed c1 _ _ hJ h
    simp only [spliceLoop, Option.some.injEq, Prod.mk.injEq] at h
    rw [← h.1]
    exact hJ
  | cons B rest ih =>
    intro s s1 changed c1 hnodup hlt hJ h
    simp only [spliceLoop] at h
    cases hstep : spliceStep rnd ng s changed B with
    | none => rw [hstep] at h; cases h
    | some r =>
      obtain ⟨s2, c2⟩ := r
      rw [hstep] at h
      have hJ2 := spliceStep_Framed hnodup (hlt B (by simp)).1 (hlt B (by simp)).2
        (fun x hx => (hlt x (by simp [hx])).1) hJ hstep
      exact ih s2 s1 c2 c1 (List.nodup_cons.1 hnodup).2 (fun x hx => hlt x (by simp [hx]))
        hJ2 h

/-- The entry block is not among the blocks the splice loop goes through. -/
theorem zero_not_mem_collectFrom_tail (F : List BasicBlock) : 0 ∉ (collectFrom 0 F).tail := by
  have hge : ∀ G : List BasicBlock, 0 ∉ collectFrom 1 G := by
    intro G h0
    have := (collectFrom_spec G 1 0 h0).1
    omega
  cases F with
  | nil => simp [collectFrom]
  | cons B rest =>
    simp only [collectFrom]
    split
    · exact fun h0 => hge rest (List.mem_of_mem_tail h0)
    · exact hge rest

/-- The function `runOnFunction` returns is the input in which some of the collected
blocks other than the first have had their terminator replaced. -/
theorem runOnFunction_Framed {rnd : Nat → Nat} {ng : Nat} {F F1 : List BasicBlock}
    {pos next : Nat} {changed : Bool}
    (h : runOnFunction rnd ng F pos next = some (F1, changed)) :
    Framed F (collectFrom 0 F).tail [] F1 := by
  have hstart : ∀ rest, Framed F (collectFrom 0 F).tail rest F :=
    fun rest => ⟨Nat.le_refl _, fun i _ => Or.inl rfl, fun _ _ => rfl⟩
  unfold runOnFunction at h
  dsimp only at h
  split at h
  · simp only [Option.some.injEq, Prod.mk.injEq] at h
    rw [← h.1]
    exact hstart []
  · split at h
    · rename_i s1 c1 hloop
      simp only [Option.some.injEq, Prod.mk.injEq] at h
      rw [← h.1]
      refine spliceLoop_Framed (collectFrom 0 F).tail _ s1 false c1 ?_ ?_ (hstart _) hloop
      · exact (collectFrom_nodup F 0).sublist (List.tail_sublist _)
      · intro x hx
        obtain ⟨-, B1, hB1, -⟩ := collectFrom_spec F 0 x (List.mem_of_mem_tail hx)
        exact ⟨(List.getElem?_eq_some_iff.1 hB1).1, hx⟩
    · cases h

/-- C16 (frame of the splicer): for every well-formed input function and all draws (the
scratch pool being non-empty), `runOnFunction` returns, and in the function it leaves
the entry block, every block that is an exception pad or a landing pad or holds a PHI,
and every block whose terminator has no successor or more than one are exactly as they
were; every other block of the input is as it was, or it is as it was except for its
terminator, its last instruction, which is replaced by one branch. -/
theorem runOnFunction_frame (rnd : Nat → Nat) (ng : Nat) (F : List BasicBlock)
    (pos next : Nat) (hng : 0 < ng) (hF : wellFormed F = true) :
    ∃ F1 changed, runOnFunction rnd ng F pos next = some (F1, changed) ∧
      ∀ i B₀, F[i]? = some B₀ →
        ((i = 0 ∨ B₀.isEHPad = true ∨ B₀.isLandingPad = true ∨ containsPHI B₀ = true ∨
            (blockSuccessors B₀).length ≠ 1) → F1[i]? = some B₀) ∧
        (F1[i]? = some B₀ ∨
          ∃ body t p, B₀.insts = body ++ [t] ∧ t.isTerminator = true ∧
            (∀ j ∈ body, j.isTerminator = false) ∧
            F1[i]? = some { B₀ with insts := body ++ [.br p] }) := by
  obtain ⟨F1, changed, A, hrun, -⟩ := runOnFunction_CI rnd hng F pos next hF
  refine ⟨F1, changed, hrun, ?_⟩
  obtain ⟨-, hall, -⟩ := runOnFunction_Framed hrun
  intro i B₀ hB₀
  have hi : i < F.length := (List.getElem?_eq_some_iff.1 hB₀).1
  refine ⟨?_, ?_⟩
  · intro hcond
    rcases hall i hi with h0 | ⟨hiL, B, t, e, p, hB, ht, he, -, -⟩
    · rw [h0]; exact hB₀
    · exfalso
      rw [hB₀] at hB
      cases hB
      obtain ⟨-, B2, hB2, hphi, heh, hlp⟩ := collectFrom_spec F 0 i (List.mem_of_mem_tail hiL)
      rw [Nat.sub_zero, hB₀] at hB2
      cases hB2
      rcases hcond with h | h | h | h | h
      · subst h
        exact zero_not_mem_collectFrom_tail F hiL
      · rw [heh] at h; cases h
      · rw [hlp] at h; cases h
      · rw [hphi] at h; cases h
      · apply h
        unfold blockSuccessors
        simp only [ht, he, List.length_singleton]
  · rcases hall i hi with h0 | ⟨-, B, t, e, p, hB, ht, he, -, hF1⟩
    · left; rw [h0]; exact hB₀
    · right
      rw [hB₀] at hB
      cases hB
      have hclosed := (wellFormed_iff F).1 hF i B₀ hB₀
      rw [closed_iff] at hclosed
      obtain ⟨body, t1, hins, hbody, ht1, -⟩ := hclosed
      refine ⟨body, t1, p, hins, ht1, hbody, ?_⟩
      rw [hF1, hins]
      simp

/-- C16 at a concrete input: the function `entry -> a -> b`. -/
theorem runOnFunction_frame_witness :
    0 < 1 ∧ wellFormed chain3 = true ∧
    ∃ F1 changed, runOnFunction (tape [1, 10, 0, 1, 15, 0, 8]) 1 chain3 0 0
        = some (F1, changed) ∧
      ∀ i B₀, chain3[i]? = some B₀ →
        ((i = 0 ∨ B₀.isEHPad = true ∨ B₀.isLandingPad = true ∨ containsPHI B₀ = true ∨
            (blockSuccessors B₀).length ≠ 1) → F1[i]? = some B₀) ∧
        (F1[i]? = some B₀ ∨
          ∃ body t p, B₀.insts = body ++ [t] ∧ t.isTerminator = true ∧
            (∀ j ∈ body, j.isTerminator = false) ∧
            F1[i]? = some { B₀ with insts := body ++ [.br p] }) :=
  ⟨by decide, by decide,
   runOnFunction_frame (tape [1, 10, 0, 1, 15, 0, 8]) 1 chain3 0 0 (by decide) (by decide)⟩

/-! ### The candidate list at the base case of `genFakeFlow` -/

theorem spliceStepWith_genFakeFlow (rnd : Nat → Nat) (ng : Nat) (s : FState) (changed : Bool)
    (B : Nat) : spliceStepWith (genFakeFlow rnd ng) rnd ng s changed B
      = spliceStep rnd ng s changed B := rfl

/-- With the base case of `genFakeFlow` itself, `genFakeFlowWith` is `genFakeFlow`. -/
theorem genFakeFlowWith_self (rnd : Nat → Nat) (ng : Nat) (D : Nat) :
    genFakeFlowWith (genFakeFlow rnd ng 0) rnd ng D = genFakeFlow rnd ng D := by
  induction D with
  | zero => rfl
  | succ D ih =>
    funext block s
    simp only [genFakeFlowWith, ih]
    rw [genFakeFlow]

theorem spliceLoopWith_genFakeFlow (rnd : Nat → Nat) (ng : Nat) (rest : List Nat) :
    ∀ (s : FState) (changed : Bool),
      spliceLoopWith (genFakeFlow rnd ng) rnd ng rest s changed
        = spliceLoop rnd ng rest s changed := by
  induction rest with
  | nil => intro s changed; rfl
  | cons B rest ih =>
    intro s changed
    simp only [spliceLoopWith, spliceLoop, spliceStepWith_genFakeFlow, ih]

/-- The `switch` of `genFakeFlow` makes its recursive call with good candidates, so two
recursive calls that agree there give the same result. -/
theorem fakeSwitch_congr {rnd : Nat → Nat} {ng : Nat}
    {r1 r2 : Nat → FState → Option FState}
    (hr : ∀ b t, GoodCandidates t → r1 b t = r2 b t)
    (block leftBlock : Nat) (res : Val) (s : FState) (hs : GoodCandidates s) :
    fakeSwitch rnd ng r1 block leftBlock res s = fakeSwitch rnd ng r2 block leftBlock res s := by
  have hgood : ∀ t : FState, t.allBB = s.allBB → t.blocks.length = s.blocks.length →
      GoodCandidates ((t.createBlock "right").2.pushBB (t.createBlock "right").1) := by
    intro t ha hb
    refine ⟨by simp [FState.pushBB], ?_⟩
    intro a ha1
    simp only [FState.pushBB, FState.createBlock, List.mem_append, List.mem_singleton,
      List.length_append, List.length_singleton] at ha1 ⊢
    rcases ha1 with h | h
    · rw [ha] at h
      have := hs.2 a h
      omega
    · omega
  unfold fakeSwitch
  dsimp only
  split
  · rfl
  · cases getRandGlobal rnd ng s.drew.pos with
    | none => rfl
    | some tmp =>
      dsimp only
      rw [hr _ _ (hgood (s.drew.drew.emitAt block fun id => .load id (.global tmp) false).2 rfl
        (by simp [FState.emitAt, FState.drew, length_appendInsts]))]
  · rw [hr _ _ (hgood s.drew rfl rfl)]
  · rw [hr _ _ (hgood s.drew rfl rfl)]
  · rw [hr _ _ (hgood s.drew rfl rfl)]
  · rw [hr _ _ (hgood s.drew rfl rfl)]
  · rw [hr _ _ (hgood s.drew rfl rfl)]
  · rfl

theorem GoodCandidates.of_eq {s t : FState} (hs : GoodCandidates s) (ha : t.allBB = s.allBB)
    (hb : s.blocks.length ≤ t.blocks.length) : GoodCandidates t := by
  refine ⟨by rw [ha]; exact hs.1, ?_⟩
  intro a h
  rw [ha] at h
  exact Nat.lt_of_lt_of_le (hs.2 a h) hb

theorem GoodCandidates.of_new {s t : FState} (hs : GoodCandidates s)
    (ha : t.allBB = s.allBB ++ [s.blocks.length])
    (hb : t.blocks.length = s.blocks.length + 1) : GoodCandidates t := by
  refine ⟨by rw [ha]; simp, ?_⟩
  intro a h
  rw [ha, List.mem_append, List.mem_singleton] at h
  rcases h with h | h
  · have := hs.2 a h; omega
  · omega

/-- The `switch` of `genFakeFlow` keeps the candidates good when its recursive call
does. -/
theorem fakeSwitch_good {rnd : Nat → Nat} {ng : Nat}
    {recurse : Nat → FState → Option FState}
    (hrec : ∀ b t t1, GoodCandidates t → recurse b t = some t1 → GoodCandidates t1)
    {block leftBlock : Nat} {res : Val} {s sF : FState} (hs : GoodCandidates s)
    (h : fakeSwitch rnd ng recurse block leftBlock res s = some sF) : GoodCandidates sF := by
  rcases fakeSwitch_cases h with ⟨i, -, hb, ha⟩ | ⟨right, body, s3, s4, cmpI, c, hright, -,
    hb3, ha3, hrecR, -, hb, ha⟩
  · exact hs.of_eq ha (by rw [hb]; simp [length_appendInsts])
  · have h3 : GoodCandidates s3 :=
      hs.of_new (by rw [ha3, hright]) (by rw [hb3]; simp [length_appendInsts])
    have h4 := hrec right s3 s4 h3 hrecR
    exact h4.of_eq ha (by rw [hb]; simp [length_appendInsts])

/-- Function `genFakeFlow` keeps the candidates good. -/
theorem genFakeFlow_good {rnd : Nat → Nat} {ng : Nat} (D : Nat) :
    ∀ (block : Nat) (s sF : FState), GoodCandidates s →
      genFakeFlow rnd ng D block s = some sF → GoodCandidates sF := by
  induction D with
  | zero =>
    intro block s sF hs h
    obtain ⟨target, -, hb, ha⟩ := genFakeFlow_zero_cases h
    exact hs.of_eq ha (by rw [hb]; simp [length_appendInsts])
  | succ D ih =>
    intro block s sF hs h
    obtain ⟨left, body, s1, s2, res, hleft, -, hb1, ha1, hsw, hrecL⟩ :=
      genFakeFlow_succ_cases h
    have h1 : GoodCandidates s1 :=
      hs.of_new (by rw [ha1, hleft]) (by rw [hb1]; simp [length_appendInsts])
    have h2 : GoodCandidates s2 := fakeSwitch_good (fun b t t1 => ih b t t1) h1 hsw
    exact ih left s2 sF h2 hrecL

/-- With good candidates, `genFakeFlow` does not depend on what its base case does on
an empty candidate list or on a candidate that is no block of the function. -/
theorem genFakeFlowWith_eq {rnd : Nat → Nat} {ng : Nat}
    {base : Nat → FState → Option FState}
    (hbase : ∀ block s, GoodCandidates s → base block s = genFakeFlow rnd ng 0 block s)
    (D : Nat) : ∀ (block : Nat) (s : FState), GoodCandidates s →
      genFakeFlowWith base rnd ng D block s = genFakeFlow rnd ng D block s := by
  induction D with
  | zero =>
    intro block s hs
    simp only [genFakeFlowWith]
    exact hbase block s hs
  | succ D ih =>
    intro block s hs
    simp only [genFakeFlowWith, genFakeFlow]
    cases hro : randomOperations rnd ng s.drew.gen (rd rnd s.pos % 25) with
    | none => rfl
    | some r =>
      obtain ⟨g, res, c⟩ := r
      dsimp only
      have h1 : GoodCandidates (((s.drew.putGen block g).createBlock "left").2.pushBB
          ((s.drew.putGen block g).createBlock "left").1) :=
        hs.of_new (by simp [FState.pushBB, FState.createBlock, FState.putGen, FState.drew,
            length_appendInsts])
          (by simp [FState.pushBB, FState.createBlock, FState.putGen, FState.drew,
            length_appendInsts])
      rw [fakeSwitch_congr (fun b t ht => ih b t ht) _ _ _ _ h1]
      cases hsw : fakeSwitch rnd ng (genFakeFlow rnd ng D) block
          ((s.drew.putGen block g).createBlock "left").1 res
          (((s.drew.putGen block g).createBlock "left").2.pushBB
            ((s.drew.putGen block g).createBlock "left").1) with
      | none => rfl
      | some s2 =>
        exact ih _ s2 (fakeSwitch_good (fun b t t1 => genFakeFlow_good D b t t1) h1 hsw)

/-- The body of the splice loop calls `genFakeFlow` with good candidates, whenever the
candidates it starts from are blocks of the function. -/
theorem spliceStepWith_congr {rnd : Nat → Nat} {ng : Nat}
    {f1 f2 : Nat → Nat → FState → Option FState}
    (hf : ∀ D b t, GoodCandidates t → f1 D b t = f2 D b t)
    (s : FState) (changed : Bool) (B : Nat) (hs : ∀ a ∈ s.allBB, a < s.blocks.length) :
    spliceStepWith f1 rnd ng s changed B = spliceStepWith f2 rnd ng s changed B := by
  unfold spliceStepWith
  split
  · rfl
  · split
    · rfl
    · split
      · rfl
      · split
        · rfl
        · rename_i hne
          split
          · rfl
          · split
            · rfl
            · dsimp only
              split
              · rfl
              · rename_i g result c hro
                rw [hf]
                refine ⟨?_, ?_⟩
                · intro h0
                  simp only [FState.createBlock, FState.pushInst, FState.eraseTerminator,
                    FState.drew, FState.putGen, FState.emitAt] at h0
                  rw [h0] at hne
                  exact hne rfl
                · intro a ha
                  simp only [FState.createBlock, FState.pushInst, FState.eraseTerminator,
                    FState.drew, FState.putGen, FState.emitAt, length_appendInsts,
                    length_updBlock, List.length_append, List.length_singleton] at ha ⊢
                  have := hs a ha
                  omega
      · rfl

/-- The splice loop calls `genFakeFlow` with good candidates only. -/
theorem spliceLoopWith_eq (rnd : Nat → Nat) {ng : Nat} (hng : 0 < ng)
    {fake : Nat → Nat → FState → Option FState}
    (hf : ∀ D b t, GoodCandidates t → fake D b t = genFakeFlow rnd ng D b t)
    {F₀ : List BasicBlock} (rest : List Nat) : ∀ (s : FState) (changed : Bool),
      CI F₀ (fun _ => False) s.blocks s.allBB (fun _ => False) →
      (∀ B ∈ rest, B < s.blocks.length) →
      spliceLoopWith fake rnd ng rest s changed = spliceLoop rnd ng rest s changed := by
  induction rest with
  | nil => intro s changed _ _; rfl
  | cons B rest ih =>
    intro s changed hci hlt
    have hstep : spliceStepWith fake rnd ng s changed B = spliceStep rnd ng s changed B := by
      rw [← spliceStepWith_genFakeFlow]
      exact spliceStepWith_congr hf s changed B (fun a ha => NoPhiAt_lt (hci.cand a ha))
    obtain ⟨s1, c1, h1, hci1, hlen⟩ := spliceStep_CI rnd hng s changed B hci (hlt B (by simp))
    simp only [spliceLoopWith, spliceLoop, hstep, h1]
    exact ih s1 c1 hci1 (fun x hx => Nat.lt_of_lt_of_le (hlt x (by simp [hx])) hlen)

/-- On a well-formed function `runOnFunction` calls `genFakeFlow` with good candidates
only. -/
theorem runOnFunctionWith_eq (rnd : Nat → Nat) {ng : Nat} (hng : 0 < ng)
    {fake : Nat → Nat → FState → Option FState}
    (hf : ∀ D b t, GoodCandidates t → fake D b t = genFakeFlow rnd ng D b t)
    (F : List BasicBlock) (pos next : Nat) (hF : wellFormed F = true) :
    runOnFunctionWith fake rnd ng F pos next = runOnFunction rnd ng F pos next := by
  unfold runOnFunctionWith runOnFunction
  dsimp only
  split
  · rfl
  · rw [spliceLoopWith_eq rnd hng hf (collectFrom 0 F).tail
      { blocks := F, allBB := (collectFrom 0 F).tail, pos := pos, next := next } false
      (CI_start F hF) (by
        intro B hB
        obtain ⟨-, B1, hB1, -⟩ := collectFrom_spec F 0 B (List.mem_of_mem_tail hB)
        exact (List.getElem?_eq_some_iff.1 hB1).1)]

/-- C18 (non-empty candidate set): for every well-formed function and all draws (the
scratch pool being non-empty), `runOnFunction` returns; the base case of `genFakeFlow`
is executed only on a candidate list that is non-empty and made of blocks of the
function, in that replacing the base case by anything that agrees with it on such lists
leaves the result of `runOnFunction` as it is; and on such a list the drawn index is
within the list and the base case appends a branch to a block of the function. -/
theorem runOnFunction_base_case_candidates (rnd : Nat → Nat) (ng : Nat)
    (F : List BasicBlock) (pos next : Nat) (hng : 0 < ng) (hF : wellFormed F = true) :
    (∃ r, runOnFunction rnd ng F pos next = some r) ∧
    (∀ base : Nat → FState → Option FState,
      (∀ block s, GoodCandidates s → base block s = genFakeFlow rnd ng 0 block s) →
      runOnFunctionWith (genFakeFlowWith base rnd ng) rnd ng F pos next
        = runOnFunction rnd ng F pos next) ∧
    ∀ (block : Nat) (s : FState), GoodCandidates s →
      ∃ target, rnd s.pos % s.allBB.length < s.allBB.length ∧
        s.allBB[rnd s.pos % s.allBB.length]? = some target ∧ target < s.blocks.length ∧
        genFakeFlow rnd ng 0 block s = some ((s.drew).pushInst block (.br target)) := by
  refine ⟨?_, ?_, ?_⟩
  · obtain ⟨F1, changed, A, hrun, -⟩ := runOnFunction_CI rnd hng F pos next hF
    exact ⟨_, hrun⟩
  · intro base hbase
    exact runOnFunctionWith_eq rnd hng (fun D b t ht => genFakeFlowWith_eq hbase D b t ht)
      F pos next hF
  · intro block s hs
    have hlen : 0 < s.allBB.length := List.length_pos.2 hs.1
    have hidx : rnd s.pos % s.allBB.length < s.allBB.length := Nat.mod_lt _ hlen
    refine ⟨s.allBB[rnd s.pos % s.allBB.length], hidx, List.getElem?_eq_getElem hidx,
      hs.2 _ (List.getElem_mem _), ?_⟩
    simp only [genFakeFlow, List.getElem?_eq_getElem hidx]

/-- C18 at a concrete input: the function `entry -> a -> b`. -/
theorem runOnFunction_base_case_candidates_witness :
    0 < 1 ∧ wellFormed chain3 = true ∧
    ((∃ r, runOnFunction (tape [1, 10, 0, 1, 15, 0, 8]) 1 chain3 0 0 = some r) ∧
    (∀ base : Nat → FState → Option FState,
      (∀ block s, GoodCandidates s →
        base block s = genFakeFlow (tape [1, 10, 0, 1, 15, 0, 8]) 1 0 block s) →
      runOnFunctionWith (genFakeFlowWith base (tape [1, 10, 0, 1, 15, 0, 8]) 1)
          (tape [1, 10, 0, 1, 15, 0, 8]) 1 chain3 0 0
        = runOnFunction (tape [1, 10, 0, 1, 15, 0, 8]) 1 chain3 0 0) ∧
    ∀ (block : Nat) (s : FState), GoodCandidates s →
      ∃ target, (tape [1, 10, 0, 1, 15, 0, 8]) s.pos % s.allBB.length < s.allBB.length ∧
        s.allBB[(tape [1, 10, 0, 1, 15, 0, 8]) s.pos % s.allBB.length]? = some target ∧
        target < s.blocks.length ∧
        genFakeFlow (tape [1, 10, 0, 1, 15, 0, 8]) 1 0 block s
          = some ((s.drew).pushInst block (.br target))) :=
  ⟨by decide, by decide,
   runOnFunction_base_case_candidates (tape [1, 10, 0, 1, 15, 0, 8]) 1 chain3 0 0
     (by decide) (by decide)⟩

/-! ### The integrity pass over a module -/

/-- C13 (mutation reporting), evaluated where it fails: on the module without functions
and globals `runOnModule` creates the three cells and returns `false`, and `run` reports
every analysis preserved. -/
theorem runOnModule_unreported_change (rnd : Nat → Nat) (pos next : Nat) :
    runOnModule rnd emptyModule pos next
      = some ({ globals :=
                  [{ name := "globalCheck0x1000", linkage := .ExternalLinkage,
                     isConstant := false, initializer := some 4096 },
                   { name := "globalCheck0x1000_expected", linkage := .InternalLinkage,
                     isConstant := false, initializer := some 4096 },
                   { name := "zeroVar", linkage := .InternalLinkage, isConstant := false,
                     initializer := some 0 }],
                functions := [] }, false) ∧
    (IntegGuardCFGObf.run rnd emptyModule pos next).map (fun r => r.2)
      = some PreservedAnalyses.all ∧
    (runOnModule rnd emptyModule pos next).map (fun r => decide (r.1 = emptyModule))
      = some false := by
  refine ⟨rfl, rfl, rfl⟩

/-- C17 (normalisation of pre-existing cells), evaluated where it fails: on a module
that declares `zeroVar` without initializer (external linkage), `runOnModule` gives the
variable the initializer 0 and creates no second one, but leaves its linkage external. -/
theorem runOnModule_zeroVar_linkage (rnd : Nat → Nat) (pos next : Nat) :
    (runOnModule rnd declaresZeroVar pos next).map
        (fun r => r.1.globals.filter fun G => G.name = "zeroVar")
      = some [{ name := "zeroVar", linkage := .ExternalLinkage, isConstant := false,
                initializer := some 0 }] := by
  rfl

/-! ### The cells of the integrity pass -/

theorem findNamed_eq_none {name : String} {l : List GlobalVariable}
    (h : ∀ G ∈ l, G.name ≠ name) : findNamed name l = none := by
  induction l with
  | nil => rfl
  | cons G rest ih =>
    simp only [findNamed]
    rw [if_neg (h G (by simp)), ih (fun G1 h1 => h G1 (by simp [h1]))]
    rfl

/-- With unique names, the lookup finds the variable called `name`, and changing it at
the position found is changing every variable of that name. -/
theorem findNamed_eq_some {name : String} (f : GlobalVariable → GlobalVariable)
    {l : List GlobalVariable}
    (hU : (l.map fun G => G.name).Nodup) (h : ∃ G ∈ l, G.name = name) :
    ∃ i G, findNamed name l = some i ∧ l[i]? = some G ∧ G.name = name ∧
      l.set i (f G) = l.map (fun G => if G.name = name then f G else G) := by
  induction l with
  | nil => obtain ⟨G, hG, -⟩ := h; cases hG
  | cons G0 rest ih =>
    simp only [List.map_cons, List.nodup_cons, List.mem_map, not_exists, not_and] at hU
    by_cases h0 : G0.name = name
    · refine ⟨0, G0, by simp [findNamed, h0], by simp, h0, ?_⟩
      simp only [List.set_cons_zero, List.map_cons, h0, if_true, List.cons.injEq, true_and]
      have hid : rest.map (fun G => if G.name = name then f G else G) = rest.map id := by
        apply List.map_congr_left
        intro G1 h1
        have := hU.1 G1 h1
        rw [h0] at this
        simp only [if_neg this, id]
      rw [hid, List.map_id]
    · have hrest : ∃ G ∈ rest, G.name = name := by
        obtain ⟨G, hG, hn⟩ := h
        rcases List.mem_cons.1 hG with h1 | h1
        · subst h1; exact absurd hn h0
        · exact ⟨G, h1, hn⟩
      obtain ⟨i, G, hfind, hget, hname, hset⟩ := ih hU.2 hrest
      refine ⟨i + 1, G, by simp [findNamed, h0, hfind], by simpa using hget, hname, ?_⟩
      simp only [List.set_cons_succ, List.map_cons, h0, if_false, hset]

/-- A lookup followed by creation or change in place, when the lookup finds the variable
of that name if there is one: the globals are normalised, nothing else changes. -/
theorem lookup_normalise (M : Module) (name : String) (allow : Bool) (fresh : GlobalVariable)
    (f : GlobalVariable → GlobalVariable) (hfresh : fresh.name = name)
    (hU : (M.globals.map fun G => G.name).Nodup) (hFn : ∀ F ∈ M.functions, F.name ≠ name)
    (hL : ∀ G ∈ M.globals, G.name = name → (allow || !G.linkage.isLocal) = true) :
    (match M.getGlobalVariable name allow with
      | none => M.addGlobal fresh
      | some i => (M.updGlobal i f, i)).1
      = { M with globals := normalise name f fresh M.globals } := by
  by_cases h : ∃ G ∈ M.globals, G.name = name
  · obtain ⟨i, G, hfind, hget, hname, hset⟩ := findNamed_eq_some f hU h
    have hlook : M.getGlobalVariable name allow = some i := by
      simp only [Module.getGlobalVariable, hfind, hget,
        hL G (List.getElem?_mem hget) hname, if_true]
    have hany : M.globals.any (fun G => decide (G.name = name)) = true := by
      obtain ⟨G1, h1, h2⟩ := h
      exact List.any_eq_true.2 ⟨G1, h1, by simpa using h2⟩
    simp only [hlook, Module.updGlobal, hget, hset, normalise, hany, if_true]
  · have hno : ∀ G ∈ M.globals, G.name ≠ name := fun G hG hn => h ⟨G, hG, hn⟩
    have hlook : M.getGlobalVariable name allow = none := by
      simp only [Module.getGlobalVariable, findNamed_eq_none hno]
    have hfree : name ∉ M.names := by
      simp only [Module.names, List.mem_append, List.mem_map, not_or, not_exists, not_and]
      exact ⟨fun G hG => hno G hG, fun F hF => hFn F hF⟩
    have hany : M.globals.any (fun G => decide (G.name = name)) = false := by
      rw [List.any_eq_false]
      intro G hG
      simpa using hno G hG
    simp only [hlook, Module.addGlobal, hfresh, uniqueName, hfree, if_false, normalise, hany]
    congr 2
    simp only [List.append_cancel_left_eq, List.cons.injEq, and_true]
    cases fresh
    simp only at hfresh
    simp [hfresh]

theorem normalise_names (name : String) (f : GlobalVariable → GlobalVariable)
    (fresh : GlobalVariable) (hf : ∀ G, (f G).name = G.name) (hfresh : fresh.name = name)
    (l : List GlobalVariable) :
    (normalise name f fresh l).map (fun G => G.name) =
      if name ∈ l.map (fun G => G.name) then l.map (fun G => G.name)
      else l.map (fun G => G.name) ++ [name] := by
  unfold normalise
  by_cases h : l.any (fun G => decide (G.name = name)) = true
  · have hmem : name ∈ l.map (fun G => G.name) := by
      obtain ⟨G, hG, hn⟩ := List.any_eq_true.1 h
      exact List.mem_map.2 ⟨G, hG, by simpa using hn⟩
    rw [if_pos h, if_pos hmem, List.map_map]
    apply List.map_congr_left
    intro G _
    simp only [Function.comp]
    split
    · exact hf G
    · rfl
  · have hmem : name ∉ l.map (fun G => G.name) := by
      intro hm
      obtain ⟨G, hG, hn⟩ := List.mem_map.1 hm
      exact h (List.any_eq_true.2 ⟨G, hG, by simpa using hn⟩)
    rw [if_neg h, if_neg hmem]
    simp [hfresh]

theorem normalise_nodup (name : String) (f : GlobalVariable → GlobalVariable)
    (fresh : GlobalVariable) (hf : ∀ G, (f G).name = G.name) (hfresh : fresh.name = name)
    (l : List GlobalVariable) (hU : (l.map fun G => G.name).Nodup) :
    ((normalise name f fresh l).map fun G => G.name).Nodup := by
  rw [normalise_names name f fresh hf hfresh]
  split
  · exact hU
  · rename_i hmem
    rw [List.nodup_append]
    refine ⟨hU, by simp, ?_⟩
    intro a ha hb
    simp only [List.mem_singleton] at hb
    subst hb
    exact hmem ha

theorem guardFix_name (G : GlobalVariable) : (guardFix G).name = G.name := by
  unfold guardFix; split <;> rfl

theorem expectedFix_name (G : GlobalVariable) : (expectedFix G).name = G.name := by
  unfold expectedFix; split <;> rfl

theorem zeroFix_name (G : GlobalVariable) : (zeroFix G).name = G.name := by
  unfold zeroFix; split <;> rfl

/-- The cell setup, when every lookup finds the variable of its name if there is one:
the globals are normalised for the three cells, the functions are as they were. -/
theorem setupCells_globals (M : Module) (hU : (M.globals.map fun G => G.name).Nodup)
    (hF : ∀ F ∈ M.functions, F.name ≠ "globalCheck0x1000" ∧
      F.name ≠ "globalCheck0x1000_expected" ∧ F.name ≠ "zeroVar")
    (hL : ∀ G ∈ M.globals, G.name = "globalCheck0x1000" → G.linkage.isLocal = false) :
    (setupCells M).1 = { M with globals := cellGlobals M.globals } := by
  have h1 := lookup_normalise M "globalCheck0x1000" false guardFresh guardFix rfl hU
    (fun F hF1 => (hF F hF1).1) (fun G hG hn => by simp [hL G hG hn])
  have hU1 := normalise_nodup "globalCheck0x1000" guardFix guardFresh guardFix_name rfl _ hU
  have h2 := lookup_normalise
    (Module.mk (normalise "globalCheck0x1000" guardFix guardFresh M.globals) M.functions)
    "globalCheck0x1000_expected" true expectedFresh expectedFix rfl
    hU1 (fun F hF1 => (hF F hF1).2.1) (fun G _ _ => rfl)
  have hU2 := normalise_nodup "globalCheck0x1000_expected" expectedFix expectedFresh
    expectedFix_name rfl _ hU1
  have h3 := lookup_normalise
    (Module.mk (normalise "globalCheck0x1000_expected" expectedFix expectedFresh
      (normalise "globalCheck0x1000" guardFix guardFresh M.globals)) M.functions)
    "zeroVar" true zeroFresh zeroFix rfl hU2 (fun F hF1 => (hF F hF1).2.2) (fun G _ _ => rfl)
  unfold setupCells
  show (getOrCreateZeroVar (getOrCreateExpected _).1).1 = _
  rw [show ∀ X : Module, getOrCreateExpected X =
      (match X.getGlobalVariable "globalCheck0x1000_expected" true with
        | none => X.addGlobal expectedFresh
        | some i => (X.updGlobal i expectedFix, i)) from fun _ => rfl,
    show ∀ X : Module, getOrCreateZeroVar X =
      (match X.getGlobalVariable "zeroVar" true with
        | none => X.addGlobal zeroFresh
        | some i => (X.updGlobal i zeroFix, i)) from fun _ => rfl]
  erw [h1, h2, h3]
  rfl

/-- A settled cell is left alone by its own lookup. -/
theorem normalise_of_settled {name : String} {f : GlobalVariable → GlobalVariable}
    (fresh : GlobalVariable) {l : List GlobalVariable} (h : Settled name f l) :
    normalise name f fresh l = l := by
  obtain ⟨⟨G, hG, hn⟩, hfix⟩ := h
  have hany : l.any (fun G => decide (G.name = name)) = true :=
    List.any_eq_true.2 ⟨G, hG, by simpa using hn⟩
  unfold normalise
  rw [if_pos hany]
  have hid : l.map (fun G => if G.name = name then f G else G) = l.map id := by
    apply List.map_congr_left
    intro G1 h1
    by_cases h2 : G1.name = name
    · simp only [if_pos h2, id, hfix G1 h1 h2]
    · simp only [if_neg h2, id]
  rw [hid, List.map_id]

/-- The variables called `name` after a lookup under another name are those before. -/
theorem mem_normalise_other {name : String} (other : String)
    (f : GlobalVariable → GlobalVariable) (fresh : GlobalVariable) (hne : name ≠ other)
    (hf : ∀ G, (f G).name = G.name) (hfresh : fresh.name = other) (l : List GlobalVariable)
    (G : GlobalVariable)
    (hn : G.name = name) : G ∈ normalise other f fresh l ↔ G ∈ l := by
  unfold normalise
  split
  · rw [List.mem_map]
    constructor
    · rintro ⟨G0, h0, rfl⟩
      by_cases h1 : G0.name = other
      · rw [if_pos h1] at hn
        rw [hf, h1] at hn
        exact absurd hn.symm hne
      · rw [if_neg h1]; exact h0
    · intro h0
      exact ⟨G, h0, by rw [if_neg (by rw [hn]; exact hne)]⟩
  · rw [List.mem_append, List.mem_singleton]
    constructor
    · rintro (h0 | h0)
      · exact h0
      · rw [h0, hfresh] at hn
        exact absurd hn.symm hne
    · exact Or.inl

/-- A settled cell stays settled under a lookup of another name. -/
theorem Settled.other {name : String} {f : GlobalVariable → GlobalVariable}
    (other : String) (g : GlobalVariable → GlobalVariable)
    (fresh : GlobalVariable) (hne : name ≠ other) (hg : ∀ G, (g G).name = G.name)
    (hfresh : fresh.name = other) {l : List GlobalVariable} (h : Settled name f l) :
    Settled name f (normalise other g fresh l) := by
  obtain ⟨⟨G, hG, hn⟩, hfix⟩ := h
  refine ⟨⟨G, (mem_normalise_other other g fresh hne hg hfresh l G hn).2 hG, hn⟩, ?_⟩
  intro G1 h1 hn1
  exact hfix G1 ((mem_normalise_other other g fresh hne hg hfresh l G1 hn1).1 h1) hn1

/-- A lookup settles its cell, when the change it makes to a cell found is one it does
not make twice and leaves the cell it creates alone. -/
theorem Settled.self (name : String) (f : GlobalVariable → GlobalVariable)
    (fresh : GlobalVariable) (hf : ∀ G, (f G).name = G.name) (hff : ∀ G, f (f G) = f G)
    (hfresh : fresh.name = name) (hffresh : f fresh = fresh) (l : List GlobalVariable) :
    Settled name f (normalise name f fresh l) := by
  unfold normalise
  split
  · rename_i hany
    obtain ⟨G, hG, hn⟩ := List.any_eq_true.1 hany
    have hn' : G.name = name := by simpa using hn
    refine ⟨⟨f G, List.mem_map.2 ⟨G, hG, by rw [if_pos hn']⟩, by rw [hf, hn']⟩, ?_⟩
    intro G1 h1 hn1
    obtain ⟨G0, h0, rfl⟩ := List.mem_map.1 h1
    by_cases h2 : G0.name = name
    · simp only [if_pos h2, hff]
    · rw [if_neg h2] at hn1
      exact absurd hn1 h2
  · rename_i hany
    refine ⟨⟨fresh, by simp, hfresh⟩, ?_⟩
    intro G1 h1 hn1
    rcases List.mem_append.1 h1 with h2 | h2
    · exfalso
      exact hany (List.any_eq_true.2 ⟨G1, h2, by simpa using hn1⟩)
    · rw [List.mem_singleton] at h2
      rw [h2]; exact hffresh

theorem guardFix_idem (G : GlobalVariable) : guardFix (guardFix G) = guardFix G := by
  cases G with
  | mk name linkage isConstant initializer => cases initializer <;> rfl

theorem expectedFix_idem (G : GlobalVariable) : expectedFix (expectedFix G) = expectedFix G := by
  cases G with
  | mk name linkage isConstant initializer => cases initializer <;> rfl

theorem zeroFix_idem (G : GlobalVariable) : zeroFix (zeroFix G) = zeroFix G := by
  cases G with
  | mk name linkage isConstant initializer => cases initializer <;> rfl

/-- After the cell setup the three cells are settled. -/
theorem cellGlobals_settled (l : List GlobalVariable) :
    Settled "globalCheck0x1000" guardFix (cellGlobals l) ∧
    Settled "globalCheck0x1000_expected" expectedFix (cellGlobals l) ∧
    Settled "zeroVar" zeroFix (cellGlobals l) := by
  refine ⟨?_, ?_, ?_⟩
  · exact ((Settled.self "globalCheck0x1000" guardFix guardFresh guardFix_name guardFix_idem
      rfl rfl l).other "globalCheck0x1000_expected" expectedFix expectedFresh (by decide)
      expectedFix_name rfl).other "zeroVar" zeroFix zeroFresh (by decide) zeroFix_name rfl
  · exact (Settled.self "globalCheck0x1000_expected" expectedFix expectedFresh
      expectedFix_name expectedFix_idem rfl rfl _).other "zeroVar" zeroFix zeroFresh
      (by decide) zeroFix_name rfl
  · exact Settled.self "zeroVar" zeroFix zeroFresh zeroFix_name zeroFix_idem rfl rfl _

/-- The cell setup changes nothing in globals it has set up. -/
theorem cellGlobals_idem (l : List GlobalVariable) : cellGlobals (cellGlobals l) = cellGlobals l := by
  obtain ⟨h1, h2, h3⟩ := cellGlobals_settled l
  show normalise _ _ _ (normalise _ _ _ (normalise _ _ _ (cellGlobals l))) = cellGlobals l
  rw [normalise_of_settled guardFresh h1, normalise_of_settled expectedFresh h2,
    normalise_of_settled zeroFresh h3]

theorem cellGlobals_nodup (l : List GlobalVariable) (hU : (l.map fun G => G.name).Nodup) :
    ((cellGlobals l).map fun G => G.name).Nodup :=
  normalise_nodup "zeroVar" zeroFix zeroFresh zeroFix_name rfl _
    (normalise_nodup "globalCheck0x1000_expected" expectedFix expectedFresh expectedFix_name
      rfl _ (normalise_nodup "globalCheck0x1000" guardFix guardFresh guardFix_name rfl _ hU))

/-- With unique names, a name that is borne is borne once. -/
theorem count_named_eq_one {name : String} {l : List GlobalVariable}
    (hU : (l.map fun G => G.name).Nodup) (h : ∃ G ∈ l, G.name = name) :
    (l.filter fun G => G.name = name).length = 1 := by
  induction l with
  | nil => obtain ⟨G, hG, -⟩ := h; cases hG
  | cons G0 rest ih =>
    simp only [List.map_cons, List.nodup_cons, List.mem_map, not_exists, not_and] at hU
    by_cases h0 : G0.name = name
    · have hnone : rest.filter (fun G => decide (G.name = name)) = [] := by
        rw [List.filter_eq_nil_iff]
        intro G1 h1
        have := hU.1 G1 h1
        rw [h0] at this
        simpa using this
      simp [List.filter_cons, h0, hnone]
    · have hrest : ∃ G ∈ rest, G.name = name := by
        obtain ⟨G, hG, hn⟩ := h
        rcases List.mem_cons.1 hG with h1 | h1
        · subst h1; exact absurd hn h0
        · exact ⟨G, h1, hn⟩
      simp [List.filter_cons, h0, ih hU.2 hrest]

/-- The initializer of a cell after its lookup: the one it had, or the one of the pass
when it had none or did not exist. -/
theorem normalise_initializer {name : String} {f : GlobalVariable → GlobalVariable}
    {fresh : GlobalVariable} {c : Nat}
    (hfi : ∀ G, (f G).initializer = some (G.initializer.getD c))
    (hfresh : fresh.initializer = some c) {l : List GlobalVariable}
    (hU : (l.map fun G => G.name).Nodup) (G : GlobalVariable)
    (hG : G ∈ normalise name f fresh l) (hn : G.name = name) :
    G.initializer = some (cellInit l name c) := by
  unfold normalise at hG
  unfold cellInit
  split at hG
  · obtain ⟨G0, h0, rfl⟩ := List.mem_map.1 hG
    have hn0 : G0.name = name := by
      by_cases h1 : G0.name = name
      · exact h1
      · rw [if_neg h1] at hn; exact hn
    rw [if_pos hn0, hfi]
    cases hfind : l.find? (fun G => decide (G.name = name)) with
    | none =>
      have := List.find?_eq_none.1 hfind G0 h0
      simp [hn0] at this
    | some G1 =>
      have h1 : G1 ∈ l := List.mem_of_find?_eq_some hfind
      have hn1 : G1.name = name := by simpa using List.find?_some hfind
      have : G1 = G0 := List.inj_on_of_nodup_map hU h1 h0 (by rw [hn1, hn0])
      rw [this]
  · rename_i hany
    rcases List.mem_append.1 hG with h2 | h2
    · exfalso
      exact hany (List.any_eq_true.2 ⟨G, h2, by simpa using hn⟩)
    · rw [List.mem_singleton] at h2
      have hnone : l.find? (fun G => decide (G.name = name)) = none := by
        rw [List.find?_eq_none]
        intro G1 h1 hp
        exact hany (List.any_eq_true.2 ⟨G1, h1, hp⟩)
      rw [hnone, h2]
      exact hfresh

/-- A lookup under another name does not change what the list gives the cell. -/
theorem cellInit_normalise_other {name other : String} (f : GlobalVariable → GlobalVariable)
    (fresh : GlobalVariable) (hne : name ≠ other) (hf : ∀ G, (f G).name = G.name)
    (hfresh : fresh.name = other) (l : List GlobalVariable) (c : Nat) :
    cellInit (normalise other f fresh l) name c = cellInit l name c := by
  have hfind : (normalise other f fresh l).find? (fun G => decide (G.name = name))
      = l.find? (fun G => decide (G.name = name)) := by
    unfold normalise
    split
    · clear * - hne hf
      induction l with
      | nil => rfl
      | cons G0 rest ih =>
        by_cases h0 : G0.name = other
        · have h1 : ¬ (f G0).name = name := by rw [hf, h0]; exact fun h => hne h.symm
          have h2 : ¬ G0.name = name := by rw [h0]; exact fun h => hne h.symm
          simp only [List.map_cons, if_pos h0, List.find?_cons, h1, h2, decide_False, ih]
        · by_cases h1 : G0.name = name
          · have hd : decide (G0.name = name) = true := by simp [h1]
            simp only [List.map_cons, if_neg h0, List.find?_cons, hd]
          · simp only [List.map_cons, if_neg h0, List.find?_cons, h1, decide_False, ih]
    · have h1 : ¬ fresh.name = name := by rw [hfresh]; exact fun h => hne h.symm
      simp [List.find?_append, List.find?_cons, h1]
  unfold cellInit
  rw [hfind]

theorem initializer_guardFix (G : GlobalVariable) :
    (guardFix G).initializer = some (G.initializer.getD 4096) := by
  cases G with
  | mk name linkage isConstant initializer => cases initializer <;> rfl

theorem initializer_expectedFix (G : GlobalVariable) :
    (expectedFix G).initializer = some (G.initializer.getD 4096) := by
  cases G with
  | mk name linkage isConstant initializer => cases initializer <;> rfl

theorem initializer_zeroFix (G : GlobalVariable) :
    (zeroFix G).initializer = some (G.initializer.getD 0) := by
  cases G with
  | mk name linkage isConstant initializer => cases initializer <;> rfl

/-- The initializers of the three cells after the setup. -/
theorem cellGlobals_initializer (l : List GlobalVariable) (hU : (l.map fun G => G.name).Nodup)
    (G : GlobalVariable) (hG : G ∈ cellGlobals l) :
    (G.name = "globalCheck0x1000" → G.initializer = some (cellInit l "globalCheck0x1000" 4096)) ∧
    (G.name = "globalCheck0x1000_expected" →
      G.initializer = some (cellInit l "globalCheck0x1000_expected" 4096)) ∧
    (G.name = "zeroVar" → G.initializer = some (cellInit l "zeroVar" 0)) := by
  have hU1 := normalise_nodup "globalCheck0x1000" guardFix guardFresh guardFix_name rfl _ hU
  have hU2 := normalise_nodup "globalCheck0x1000_expected" expectedFix expectedFresh
    expectedFix_name rfl _ hU1
  refine ⟨?_, ?_, ?_⟩
  · intro hn
    have h3 := (mem_normalise_other "zeroVar" zeroFix zeroFresh (by decide) zeroFix_name rfl
      _ G hn).1 hG
    have h2 := (mem_normalise_other "globalCheck0x1000_expected" expectedFix expectedFresh
      (by decide) expectedFix_name rfl _ G hn).1 h3
    exact normalise_initializer initializer_guardFix rfl hU G h2 hn
  · intro hn
    have h3 := (mem_normalise_other "zeroVar" zeroFix zeroFresh (by decide) zeroFix_name rfl
      _ G hn).1 hG
    rw [← cellInit_normalise_other guardFix guardFresh (by decide) guardFix_name rfl l]
    exact normalise_initializer initializer_expectedFix rfl hU1 G h3 hn
  · intro hn
    rw [← cellInit_normalise_other guardFix guardFresh (by decide) guardFix_name rfl l,
      ← cellInit_normalise_other expectedFix expectedFresh (by decide) expectedFix_name rfl]
    exact normalise_initializer initializer_zeroFix rfl hU2 G hG hn

/-- C11 as stated fails: a module that defines `globalCheck0x1000` with the initializer 5
keeps that initializer through two runs of the cell setup; and in a module with an
internal variable of that name the lookup does not find it, so that each run creates one
more global (four globals after the first run, five after the second). -/
theorem setupCells_not_idempotent :
    ((setupCells (setupCells definesGuard).1).1.globals.filter
        fun G => G.name = "globalCheck0x1000").map (fun G => G.initializer) = [some 5] ∧
    (setupCells internalGuard).1.globals.length = 4 ∧
    (setupCells (setupCells internalGuard).1).1.globals.length = 5 := by
  decide

/-- C11 as amended (idempotent cell creation): for every module with unique names in
which no function bears the name of a cell and no variable called `globalCheck0x1000` has
local linkage, the second run of the cell setup changes nothing, after it the module has
exactly one global of each of the three names, and the initializer of each cell is the
one the module gave a variable of that name beforehand, if it gave one, and 0x1000,
0x1000 and 0 respectively otherwise. -/
theorem setupCells_idempotent (M : Module) (hU : M.names.Nodup)
    (hF : ∀ F ∈ M.functions, F.name ≠ "globalCheck0x1000" ∧
      F.name ≠ "globalCheck0x1000_expected" ∧ F.name ≠ "zeroVar")
    (hL : ∀ G ∈ M.globals, G.name = "globalCheck0x1000" → G.linkage.isLocal = false) :
    (setupCells (setupCells M).1).1 = (setupCells M).1 ∧
    ((setupCells (setupCells M).1).1.countNamed "globalCheck0x1000" = 1 ∧
      (setupCells (setupCells M).1).1.countNamed "globalCheck0x1000_expected" = 1 ∧
      (setupCells (setupCells M).1).1.countNamed "zeroVar" = 1) ∧
    ∀ G ∈ (setupCells (setupCells M).1).1.globals,
      (G.name = "globalCheck0x1000" →
        G.initializer = some (cellInit M.globals "globalCheck0x1000" 4096)) ∧
      (G.name = "globalCheck0x1000_expected" →
        G.initializer = some (cellInit M.globals "globalCheck0x1000_expected" 4096)) ∧
      (G.name = "zeroVar" → G.initializer = some (cellInit M.globals "zeroVar" 0)) := by
  have hUg : (M.globals.map fun G => G.name).Nodup := by
    unfold Module.names at hU
    exact hU.of_append_left
  have h1 := setupCells_globals M hUg hF hL
  obtain ⟨hs1, hs2, hs3⟩ := cellGlobals_settled M.globals
  have hU1 := cellGlobals_nodup M.globals hUg
  have hL1 : ∀ G ∈ cellGlobals M.globals, G.name = "globalCheck0x1000" →
      G.linkage.isLocal = false := by
    intro G hG hn
    rw [← hs1.2 G hG hn]
    unfold guardFix
    rfl
  have h2 : (setupCells (setupCells M).1).1 = (setupCells M).1 := by
    rw [h1, setupCells_globals (Module.mk (cellGlobals M.globals) M.functions) hU1 hF hL1]
    simp only [cellGlobals_idem]
  rw [h2, h1]
  refine ⟨rfl, ⟨?_, ?_, ?_⟩, ?_⟩
  · exact count_named_eq_one hU1 hs1.1
  · exact count_named_eq_one hU1 hs2.1
  · exact count_named_eq_one hU1 hs3.1
  · intro G hG
    exact cellGlobals_initializer M.globals hUg G hG

/-- C11 as amended, at a concrete input: a module that declares `zeroVar`. -/
theorem setupCells_idempotent_witness :
    declaresZeroVar.names.Nodup ∧
    (∀ F ∈ declaresZeroVar.functions, F.name ≠ "globalCheck0x1000" ∧
      F.name ≠ "globalCheck0x1000_expected" ∧ F.name ≠ "zeroVar") ∧
    (∀ G ∈ declaresZeroVar.globals, G.name = "globalCheck0x1000" →
      G.linkage.isLocal = false) ∧
    ((setupCells (setupCells declaresZeroVar).1).1 = (setupCells declaresZeroVar).1 ∧
    ((setupCells (setupCells declaresZeroVar).1).1.countNamed "globalCheck0x1000" = 1 ∧
      (setupCells (setupCells declaresZeroVar).1).1.countNamed "globalCheck0x1000_expected"
        = 1 ∧
      (setupCells (setupCells declaresZeroVar).1).1.countNamed "zeroVar" = 1) ∧
    ∀ G ∈ (setupCells (setupCells declaresZeroVar).1).1.globals,
      (G.name = "globalCheck0x1000" →
        G.initializer = some (cellInit declaresZeroVar.globals "globalCheck0x1000" 4096)) ∧
      (G.name = "globalCheck0x1000_expected" →
        G.initializer
          = some (cellInit declaresZeroVar.globals "globalCheck0x1000_expected" 4096)) ∧
      (G.name = "zeroVar" →
        G.initializer = some (cellInit declaresZeroVar.globals "zeroVar" 0))) :=
  ⟨by decide, by decide, by decide,
   setupCells_idempotent declaresZeroVar (by decide) (by decide) (by decide)⟩

/-! ### The validation before the exits -/

theorem injectIntegrityValidate_insts (rnd : Nat → Nat) (pos next thenBlk tail : Nat) :
    (injectIntegrityValidate rnd { pos := pos, next := next, insts := [] } .guard .expected
      thenBlk tail).1.insts =
      [.load next (.global .guard) true, .load (next + 1) (.global .expected) true,
       .load (next + 2) (.global .zeroVar) true,
       .binop (next + 3) .mul (.const (or32 (rand rnd pos) 1)) (.reg (next + 2)),
       .binop (next + 4) .add (.reg (next + 1)) (.reg (next + 3)),
       .icmp (next + 5) .ne (.reg next) (.reg (next + 4)),
       .condBr (.reg (next + 5)) thenBlk tail] ∧
    (injectIntegrityValidate rnd { pos := pos, next := next, insts := [] } .guard .expected
      thenBlk tail).2 = [.call "on_integrity_violation", .br tail] := by
  simp [injectIntegrityValidate, Gen.emit, Gen.push, randNonZeroInt, Gen.drew, Nat.add_assoc]

theorem getInsts_append_left (F G : List BasicBlock) (x : Nat) (h : x < F.length) :
    getInsts (F ++ G) x = getInsts F x := by
  unfold getInsts
  rw [List.getElem?_append_left h]

theorem getInsts_updBlock_ne (f : BasicBlock → BasicBlock) (F : List BasicBlock) (b x : Nat)
    (h : x ≠ b) : getInsts (updBlock f b F) x = getInsts F x := by
  unfold getInsts
  rw [getElem?_updBlock, if_neg h]

theorem lt_of_getInsts_ne_nil {F : List BasicBlock} {x : Nat} (h : getInsts F x ≠ []) :
    x < F.length := by
  by_contra hlt
  apply h
  unfold getInsts
  rw [List.getElem?_eq_none (by omega)]

theorem ValidatedFrom.validated {n : Nat} {blocks : List BasicBlock} {b : Nat} {T : Inst}
    (h : ValidatedFrom n blocks b T) : ValidatedExit blocks b T := by
  obtain ⟨body, k, r, thenBlk, tail, -, -, h1, h2, h3⟩ := h
  exact ⟨body, k, r, thenBlk, tail, h1, h2, h3⟩

/-- One exit site leaves alone every block but its own. -/
theorem getInsts_exit_step (f : BasicBlock → BasicBlock) (F G : List BasicBlock) (b x : Nat)
    (hx : x ≠ b) (hne : getInsts F x ≠ []) :
    getInsts (updBlock f b F ++ G) x = getInsts F x := by
  have hlt := lt_of_getInsts_ne_nil hne
  rw [getInsts_append_left _ _ _ (by rw [length_updBlock]; exact hlt),
    getInsts_updBlock_ne _ _ _ _ hx]

/-- A validation in place survives the validation of another exit. -/
theorem ValidatedFrom.step {n : Nat} {blocks : List BasicBlock} {b0 : Nat} {T0 : Inst}
    (h : ValidatedFrom n blocks b0 T0) (f : BasicBlock → BasicBlock) (G : List BasicBlock)
    (b : Nat) (hb : b < n) (hne : b0 ≠ b) :
    ValidatedFrom n (updBlock f b blocks ++ G) b0 T0 := by
  obtain ⟨body, k, r, thenBlk, tail, ht, hl, h1, h2, h3⟩ := h
  refine ⟨body, k, r, thenBlk, tail, ht, hl, ?_, ?_, ?_⟩
  · rw [getInsts_exit_step f blocks G b b0 hne (by rw [h1]; simp)]
    exact h1
  · rw [getInsts_exit_step f blocks G b thenBlk (by omega) (by rw [h2]; simp)]
    exact h2
  · rw [getInsts_exit_step f blocks G b tail (by omega) (by rw [h3]; simp)]
    exact h3

theorem getOrCreateZeroVar_functions (M : Module) :
    (getOrCreateZeroVar M).1.functions = M.functions := by
  unfold getOrCreateZeroVar
  split
  · rfl
  · simp only [Module.updGlobal]
    split <;> rfl

/-- The loop over the exit sites: every site is validated, the validations in place
stay, the functions of the module stay. -/
theorem exitSitesLoop_spec (rnd : Nat → Nat) (n : Nat) (E : List (Nat × Inst)) :
    ∀ st : GState, n ≤ st.blocks.length → (E.map fun e => e.1).Nodup →
      (∀ e ∈ E, e.1 < n ∧ ∃ B, st.blocks[e.1]? = some B ∧ B.insts.getLast? = some e.2) →
      (∀ e ∈ E, ValidatedFrom n (exitSitesLoop rnd E st).blocks e.1 e.2) ∧
      (∀ b T, b ∉ E.map (fun e => e.1) → ValidatedFrom n st.blocks b T →
        ValidatedFrom n (exitSitesLoop rnd E st).blocks b T) ∧
      (exitSitesLoop rnd E st).M.functions = st.M.functions := by
  induction E with
  | nil =>
    intro st _ _ _
    exact ⟨fun e he => absurd he (List.not_mem_nil e), fun b T _ h => h, rfl⟩
  | cons e0 rest ih =>
    intro st hn hnd hE
    obtain ⟨b, T⟩ := e0
    simp only [List.map_cons, List.nodup_cons] at hnd
    obtain ⟨hb, B, hB, hlast⟩ := hE (b, T) (by simp)
    have hins := injectIntegrityValidate_insts rnd st.pos st.next st.blocks.length
      (st.blocks.length + 1)
    simp only [exitSitesLoop]
    have hblocks : (exitStep rnd st b T).blocks =
        updBlock (fun B => BasicBlock.mk B.name B.isEHPad B.isLandingPad
          (B.insts.dropLast ++ (injectIntegrityValidate rnd
            { pos := st.pos, next := st.next, insts := [] } .guard .expected st.blocks.length
            (st.blocks.length + 1)).1.insts)) b st.blocks ++
        [BasicBlock.mk "" false false (injectIntegrityValidate rnd
            { pos := st.pos, next := st.next, insts := [] } .guard .expected st.blocks.length
            (st.blocks.length + 1)).2,
         BasicBlock.mk "" false false [T]] := rfl
    have hM : (exitStep rnd st b T).M.functions = st.M.functions :=
      getOrCreateZeroVar_functions st.M
    generalize exitStep rnd st b T = st1 at hblocks hM ⊢
    have hblt : b < st.blocks.length := by omega
    have hlen1 : st1.blocks.length = st.blocks.length + 2 := by
      rw [hblocks]; simp [length_updBlock]
    have hval : ValidatedFrom n st1.blocks b T := by
      refine ⟨B.insts.dropLast, st.next, or32 (rand rnd st.pos) 1, st.blocks.length,
        st.blocks.length + 1, hn, by omega, ?_, ?_, ?_⟩
      · rw [hblocks, getInsts_append_left _ _ _ (by rw [length_updBlock]; exact hblt)]
        unfold getInsts
        rw [getElem?_updBlock, if_pos rfl, hB]
        simp only [Option.map_some', hins.1]
      · rw [hblocks]
        unfold getInsts
        rw [List.getElem?_append_right (by rw [length_updBlock]), length_updBlock]
        simp [hins.2]
      · rw [hblocks]
        unfold getInsts
        rw [List.getElem?_append_right (by rw [length_updBlock]; omega), length_updBlock]
        simp
    have hrest : ∀ e ∈ rest, e.1 < n ∧
        ∃ B, st1.blocks[e.1]? = some B ∧ B.insts.getLast? = some e.2 := by
      intro e he
      obtain ⟨h1, B1, hB1, hl1⟩ := hE e (by simp [he])
      refine ⟨h1, B1, ?_, hl1⟩
      have hne : e.1 ≠ b := by
        intro h
        apply hnd.1
        rw [← h]
        exact List.mem_map.2 ⟨e, he, rfl⟩
      rw [hblocks, List.getElem?_append_left (by rw [length_updBlock]; omega),
        getElem?_updBlock, if_neg hne]
      exact hB1
    obtain ⟨ih1, ih2, ih3⟩ := ih st1 (by omega) hnd.2 hrest
    refine ⟨?_, ?_, by rw [ih3, hM]⟩
    · intro e he
      rcases List.mem_cons.1 he with h | h
      · subst h
        exact ih2 b T hnd.1 hval
      · exact ih1 e h
    · intro b0 T0 hb0 h0
      simp only [List.map_cons, List.mem_cons, not_or] at hb0
      refine ih2 b0 T0 hb0.2 ?_
      rw [hblocks]
      exact h0.step _ _ b hb hb0.1

/-! Site collection. -/

theorem scanInsts_ExitSites (rnd : Nat → Nat) (b : Nat) (l : List Inst) :
    ∀ (i : Nat) (st : Sites), (scanInsts rnd b l i st).ExitSites = st.ExitSites := by
  induction l with
  | nil => intro i st; rfl
  | cons I rest ih =>
    intro i st
    simp only [scanInsts]
    split
    · exact ih _ _
    · split
      · exact ih _ _
      · rw [ih]
        split <;> split <;> rfl

/-- The site collection has a result when every block that is no exception pad has a
terminator, and the exit sites it adds are those of `exitSitesOf`. -/
theorem scanBlocks_spec (rnd : Nat → Nat) (L : List BasicBlock) :
    ∀ (b : Nat) (st : Sites), (∀ B ∈ L, B.isEHPad = false → getTerminator B ≠ none) →
      ∃ st1, scanBlocks rnd L b st = some st1 ∧
        st1.ExitSites = st.ExitSites ++ exitSitesOf L b := by
  induction L with
  | nil => intro b st _; exact ⟨st, rfl, by simp [exitSitesOf]⟩
  | cons BB rest ih =>
    intro b st h
    have hrest : ∀ B ∈ rest, B.isEHPad = false → getTerminator B ≠ none :=
      fun B hB => h B (by simp [hB])
    simp only [scanBlocks, exitSitesOf]
    by_cases hpad : BB.isEHPad = true
    · simp only [hpad, if_true]
      exact ih _ _ hrest
    · simp only [hpad, if_false]
      cases hT : getTerminator BB with
      | none => exact absurd hT (h BB (by simp) (by simpa using hpad))
      | some T =>
        simp only
        obtain ⟨st1, h1, h2⟩ := ih (b + 1)
          (scanInsts rnd b BB.insts 0
            (if T.isExit then { st with ExitSites := st.ExitSites ++ [(b, T)] } else st)) hrest
        refine ⟨st1, h1, ?_⟩
        rw [h2, scanInsts_ExitSites]
        split <;> simp

/-- The exit sites are blocks that are no exception pads, with their terminator. -/
theorem exitSitesOf_spec (L : List BasicBlock) : ∀ (b : Nat) (e : Nat × Inst),
    e ∈ exitSitesOf L b → b ≤ e.1 ∧ ∃ B, L[e.1 - b]? = some B ∧ getTerminator B = some e.2 := by
  induction L with
  | nil => intro b e he; cases he
  | cons BB rest ih =>
    intro b e he
    have hrest : e ∈ exitSitesOf rest (b + 1) →
        b ≤ e.1 ∧ ∃ B, (BB :: rest)[e.1 - b]? = some B ∧ getTerminator B = some e.2 := by
      intro h1
      obtain ⟨hle, B, hB, hT⟩ := ih (b + 1) e h1
      refine ⟨by omega, B, ?_, hT⟩
      have : e.1 - b = (e.1 - (b + 1)) + 1 := by omega
      rw [this, List.getElem?_cons_succ]
      exact hB
    simp only [exitSitesOf] at he
    split at he
    · exact hrest he
    · split at he
      · rename_i T hT
        split at he
        · rcases List.mem_cons.1 he with h1 | h1
          · subst h1
            exact ⟨Nat.le_refl _, BB, by simp, hT⟩
          · exact hrest h1
        · exact hrest he
      · exact hrest he

theorem exitSitesOf_nodup (L : List BasicBlock) :
    ∀ b : Nat, ((exitSitesOf L b).map fun e => e.1).Nodup := by
  induction L with
  | nil => intro b; simp [exitSitesOf]
  | cons BB rest ih =>
    intro b
    simp only [exitSitesOf]
    split
    · exact ih _
    · split
      · split
        · simp only [List.map_cons, List.nodup_cons]
          refine ⟨?_, ih _⟩
          intro hmem
          obtain ⟨e, he, heq⟩ := List.mem_map.1 hmem
          have := (exitSitesOf_spec rest (b + 1) e he).1
          omega
        · exact ih _
      · exact ih _

/-- Every exit terminator of a block that is no exception pad is an exit site. -/
theorem mem_exitSitesOf (L : List BasicBlock) : ∀ (b j : Nat) (B : BasicBlock) (T : Inst),
    L[j]? = some B → B.isEHPad = false → getTerminator B = some T → T.isExit = true →
      (b + j, T) ∈ exitSitesOf L b := by
  induction L with
  | nil => intro b j B T h; cases h
  | cons BB rest ih =>
    intro b j B T hB hpad hT hexit
    cases j with
    | zero =>
      simp only [List.getElem?_cons_zero, Option.some.injEq] at hB
      subst hB
      simp [exitSitesOf, hpad, hT, hexit]
    | succ j =>
      simp only [List.getElem?_cons_succ] at hB
      have h1 := ih (b + 1) j B T hB hpad hT hexit
      rw [show b + 1 + j = b + (j + 1) by omega] at h1
      simp only [exitSitesOf]
      split
      · exact h1
      · split
        · split
          · exact List.mem_cons_of_mem _ h1
          · exact h1
        · exact h1

/-! Insertions before the collected sites. -/

theorem map_modify_of_invariant {α β : Type} (g : α → β) (f : α → α) (h : ∀ a, g (f a) = g a) :
    ∀ (n : Nat) (l : List α), (l.modify f n).map g = l.map g := by
  intro n l
  induction l generalizing n with
  | nil => simp
  | cons a rest ih =>
    cases n with
    | zero => simp [h]
    | succ n => simp [ih]

/-- An insertion leaves the instructions of the slots as they are. -/
theorem insertBefore_insts (S : List (List Slot)) (site : Nat × Nat) (code : List Inst) :
    (insertBefore S site code).map (fun slots => slots.map fun s => s.inst)
      = S.map (fun slots => slots.map fun s => s.inst) := by
  unfold insertBefore
  apply map_modify_of_invariant
  intro slots
  apply map_modify_of_invariant
  intro s
  rfl

theorem junkSitesLoop_insts (rnd : Nat → Nat) (sites : List (Nat × Nat)) :
    ∀ (S : List (List Slot)) (pos next : Nat) (changed : Bool),
      (junkSitesLoop rnd sites S pos next changed).1.map (fun slots => slots.map fun s => s.inst)
        = S.map (fun slots => slots.map fun s => s.inst) := by
  induction sites with
  | nil => intro S pos next changed; rfl
  | cons IP rest ih =>
    intro S pos next changed
    simp only [junkSitesLoop]
    rw [ih, insertBefore_insts]

theorem modifySitesLoop_insts (sites : List (Nat × Nat)) :
    ∀ (S : List (List Slot)) (changed : Bool),
      (modifySitesLoop sites S changed).1.map (fun slots => slots.map fun s => s.inst)
        = S.map (fun slots => slots.map fun s => s.inst) := by
  induction sites with
  | nil => intro S changed; rfl
  | cons IP rest ih =>
    intro S changed
    simp only [modifySitesLoop]
    rw [ih, insertBefore_insts]

/-- The last instruction of a block of slots is the instruction of its last slot. -/
theorem getLast?_fromSlots (slots : List Slot) :
    (fromSlots slots).getLast? = (slots.map fun s => s.inst).getLast? := by
  induction slots with
  | nil => rfl
  | cons s rest ih =>
    unfold fromSlots at ih ⊢
    simp only [List.map_cons, List.flatten_cons, List.getLast?_append, ih]
    cases rest with
    | nil => simp
    | cons s1 rest1 =>
      simp only [List.map_cons, List.getLast?_cons_cons]
      cases h : (List.map (fun s => s.inst) (s1 :: rest1)).getLast? with
      | none => simp at h
      | some x => simp at h ⊢; simp [h]

theorem toSlots_insts (insts : List Inst) : (toSlots insts).map (fun s => s.inst) = insts := by
  unfold toSlots
  induction insts with
  | nil => rfl
  | cons i rest ih => simp only [List.map_cons, ih]

/-- The blocks rebuilt from slots that hold the instructions of `blocks`: as many, each
with the last instruction and the pad flag it had. -/
theorem zipWith_fromSlots (blocks : List BasicBlock) (S : List (List Slot))
    (hS : S.map (fun slots => slots.map fun s => s.inst) = blocks.map fun B => B.insts) :
    (List.zipWith (fun (B : BasicBlock) slots => { B with insts := fromSlots slots })
      blocks S).length = blocks.length ∧
    ∀ (b : Nat) (B : BasicBlock), blocks[b]? = some B →
      ∃ B1 : BasicBlock,
        (List.zipWith (fun (B : BasicBlock) slots => { B with insts := fromSlots slots })
          blocks S)[b]? = some B1 ∧ B1.insts.getLast? = B.insts.getLast? := by
  have hlen : S.length = blocks.length := by
    have := congrArg List.length hS
    simpa using this
  refine ⟨by simp [hlen], ?_⟩
  intro b B hB
  have hb : b < blocks.length := (List.getElem?_eq_some_iff.1 hB).1
  have hSb : S[b]? = some S[b] := List.getElem?_eq_getElem (by omega)
  refine ⟨{ B with insts := fromSlots S[b] }, ?_, ?_⟩
  · rw [List.getElem?_zipWith, hB, hSb]
  · have h1 := congrArg (fun l => l[b]?) hS
    simp only [List.getElem?_map, hB, hSb, Option.map_some', Option.some.injEq] at h1
    show (fromSlots S[b]).getLast? = _
    rw [getLast?_fromSlots, h1]

/-! The entry stub. -/

theorem length_takeWhile_lt (p : Inst → Bool) (l : List Inst) (x : Inst) (hx : x ∈ l)
    (hp : p x = false) : (l.takeWhile p).length < l.length := by
  induction l with
  | nil => cases hx
  | cons a rest ih =>
    simp only [List.takeWhile_cons]
    split
    · rename_i ha
      rcases List.mem_cons.1 hx with h | h
      · subst h
        rw [hp] at ha
        cases ha
      · simp only [List.length_cons]
        have := ih h
        omega
    · simp

theorem getTerminator_eq_some {B : BasicBlock} {T : Inst} (h : getTerminator B = some T) :
    B.insts.getLast? = some T ∧ T.isTerminator = true := by
  unfold getTerminator at h
  split at h
  · rename_i i hi
    split at h
    · rename_i ht
      simp only [Option.some.injEq] at h
      subst h
      exact ⟨hi, ht⟩
    · cases h
  · cases h

theorem getTerminator_of_getLast? {B : BasicBlock} {T : Inst}
    (h : B.insts.getLast? = some T) (ht : T.isTerminator = true) :
    getTerminator B = some T := by
  unfold getTerminator
  rw [h]
  simp only [ht, if_true]

/-- The entry stub leaves the terminator of a block that is no exception pad. -/
theorem getTerminator_insertAt (B : BasicBlock) (T : Inst) (code : List Inst)
    (hpad : B.isEHPad = false) (hT : getTerminator B = some T) :
    getTerminator { B with insts := insertAt B.insts (getFirstInsertionPt B) code } = some T := by
  obtain ⟨hlast, hterm⟩ := getTerminator_eq_some hT
  have hmem : T ∈ B.insts := List.mem_of_mem_getLast? hlast
  have hk : getFirstInsertionPt B < B.insts.length := by
    unfold getFirstInsertionPt
    rw [hpad]
    simp only [Bool.false_eq_true, if_false, Nat.add_zero]
    exact length_takeWhile_lt _ _ T hmem (isTerminator_not_isPHI T hterm)
  apply getTerminator_of_getLast? _ hterm
  show (insertAt B.insts (getFirstInsertionPt B) code).getLast? = some T
  unfold insertAt
  rw [List.getLast?_append, List.getLast?_drop, if_neg (by omega), hlast]
  rfl

/-- The blocks with the entry stub: as many, with the pad flags and, where the block is
no exception pad, the terminators they had. -/
theorem stub_blocks (blocks : List BasicBlock) (code : List Inst) (b : Nat) :
    (updBlock (fun B => { B with insts := insertAt B.insts (getFirstInsertionPt B) code }) 0
        blocks)[b]? =
      if b = 0 then
        blocks[b]?.map (fun B => { B with insts := insertAt B.insts (getFirstInsertionPt B) code })
      else blocks[b]? :=
  getElem?_updBlock _ 0 b blocks

theorem stub_terminator (blocks : List BasicBlock) (code : List Inst) (b : Nat)
    (B : BasicBlock) (T : Inst) (hB : blocks[b]? = some B) (hpad : B.isEHPad = false)
    (hT : getTerminator B = some T) :
    ∃ B0, (updBlock (fun B => { B with insts := insertAt B.insts (getFirstInsertionPt B) code })
        0 blocks)[b]? = some B0 ∧ B0.isEHPad = false ∧ getTerminator B0 = some T := by
  rw [stub_blocks, hB]
  by_cases h0 : b = 0
  · rw [if_pos h0]
    exact ⟨_, rfl, hpad, getTerminator_insertAt B T code hpad hT⟩
  · rw [if_neg h0]
    exact ⟨B, rfl, hpad, hT⟩

theorem stub_scannable (blocks : List BasicBlock) (code : List Inst)
    (h : ∀ B ∈ blocks, B.isEHPad = false → getTerminator B ≠ none) :
    ∀ B0 ∈ updBlock (fun B => { B with insts := insertAt B.insts (getFirstInsertionPt B) code })
      0 blocks, B0.isEHPad = false → getTerminator B0 ≠ none := by
  intro B0 hB0 hpad
  obtain ⟨b, hb, rfl⟩ := List.getElem_of_mem hB0
  have hget := stub_blocks blocks code b
  rw [List.getElem?_eq_getElem hb] at hget
  rw [length_updBlock] at hb
  have hB : blocks[b]? = some blocks[b] := List.getElem?_eq_getElem hb
  rw [hB] at hget
  by_cases h0 : b = 0
  · rw [if_pos h0] at hget
    simp only [Option.map_some', Option.some.injEq] at hget
    rw [hget] at hpad ⊢
    cases hT : getTerminator blocks[b] with
    | none => exact absurd hT (h _ (List.getElem_mem _) hpad)
    | some T =>
      rw [getTerminator_insertAt blocks[b] T code hpad hT]
      exact Option.some_ne_none _
  · rw [if_neg h0] at hget
    simp only [Option.some.injEq] at hget
    rw [hget] at hpad ⊢
    exact h _ (List.getElem_mem _) hpad

/-! The pass on one function and on the module. -/

/-- The pass on a function whose blocks, unless exception pads, have a terminator: it
has a result, the functions of the module stay, and every exit terminator of a block
that is no exception pad is validated. -/
theorem guardFunction_spec (rnd : Nat → Nat) (M : Module) (F : Function) (pos next : Nat)
    (changed : Bool) (hwf : ∀ B ∈ F.blocks, B.isEHPad = false → getTerminator B ≠ none) :
    ∃ s, guardFunction rnd M F pos next changed = some s ∧ s.M.functions = M.functions ∧
      ∀ (b : Nat) (B : BasicBlock) (T : Inst), F.blocks[b]? = some B → B.isEHPad = false →
        getTerminator B = some T → T.isExit = true → ValidatedExit s.blocks b T := by
  unfold guardFunction
  dsimp only
  generalize hcode : (entryStub F.args { pos := pos, next := next, insts := [] }) = g
  generalize hb0 : updBlock
    (fun B => { B with insts := insertAt B.insts (getFirstInsertionPt B) g.insts }) 0 F.blocks
    = blocks0
  have hscanable : ∀ B0 ∈ blocks0, B0.isEHPad = false → getTerminator B0 ≠ none := by
    rw [← hb0]; exact stub_scannable F.blocks g.insts hwf
  obtain ⟨sites, hscan, hexits⟩ := scanBlocks_spec rnd blocks0 0
    { ModifySites := [], junkSites := [], ExitSites := [], pos := g.pos } hscanable
  rw [hscan]
  dsimp only
  simp only [List.nil_append] at hexits
  generalize hjunk : junkSitesLoop rnd sites.junkSites (blocks0.map fun B => toSlots B.insts)
    sites.pos g.next changed = junk
  generalize hmod : modifySitesLoop sites.ModifySites junk.1 junk.2.2.2 = modify
  have hS : modify.1.map (fun slots => slots.map fun s => s.inst)
      = blocks0.map fun B => B.insts := by
    rw [← hmod, modifySitesLoop_insts, ← hjunk, junkSitesLoop_insts, List.map_map]
    apply List.map_congr_left
    intro B _
    exact toSlots_insts B.insts
  obtain ⟨hlen1, hlast1⟩ := zipWith_fromSlots blocks0 modify.1 hS
  generalize hb1 : List.zipWith
    (fun (B : BasicBlock) slots => { B with insts := fromSlots slots }) blocks0 modify.1
    = blocks1 at hlen1 hlast1
  obtain ⟨hval, -, hfun⟩ := exitSitesLoop_spec rnd blocks0.length sites.ExitSites
    { M := M, blocks := blocks1, pos := junk.2.1, next := junk.2.2.1, changed := modify.2 }
    (by rw [hlen1])
    (by rw [hexits]; exact exitSitesOf_nodup blocks0 0)
    (by
      intro e he
      rw [hexits] at he
      obtain ⟨-, B0, hB0, hT0⟩ := exitSitesOf_spec blocks0 0 e he
      rw [Nat.sub_zero] at hB0
      obtain ⟨B1, hB1, hl1⟩ := hlast1 e.1 B0 hB0
      exact ⟨(List.getElem?_eq_some_iff.1 hB0).1, B1, hB1,
        by rw [hl1]; exact (getTerminator_eq_some hT0).1⟩)
  refine ⟨_, rfl, hfun, ?_⟩
  intro b B T hB hpad hT hexit
  obtain ⟨B0, hB0, hpad0, hT0⟩ := stub_terminator F.blocks g.insts b B T hB hpad hT
  rw [hb0] at hB0
  have hmem := mem_exitSitesOf blocks0 0 b B0 T hB0 hpad0 hT0 hexit
  rw [Nat.zero_add, ← hexits] at hmem
  exact (hval (b, T) hmem).validated

theorem getOrInsertFunction_functions (M : Module) (name : String) :
    ∃ extra, (M.getOrInsertFunction name).functions = M.functions ++ extra := by
  unfold Module.getOrInsertFunction
  split
  · exact ⟨[], by simp⟩
  · exact ⟨_, rfl⟩

/-- One iteration of the loop over the functions: it has a result, it changes no other
function of the module, and if the function is one the pass works on, every exit
terminator of a block that is no exception pad is validated in it. -/
theorem moduleStep_spec (rnd : Nat → Nat) (st : MState) (fi : Nat) (F : Function)
    (hF : st.M.functions[fi]? = some F)
    (hwf : ∀ B ∈ F.blocks, B.isEHPad = false → getTerminator B ≠ none) :
    ∃ st1, moduleStep rnd st fi = some st1 ∧
      st.M.functions.length ≤ st1.M.functions.length ∧
      (∀ j, j ≠ fi → j < st.M.functions.length →
        st1.M.functions[j]? = st.M.functions[j]?) ∧
      (F.blocks ≠ [] → F.name ≠ "integrity_guard" → F.name ≠ "on_integrity_violation" →
        ∃ F1, st1.M.functions[fi]? = some F1 ∧
          ∀ (b : Nat) (B : BasicBlock) (T : Inst), F.blocks[b]? = some B →
            B.isEHPad = false → getTerminator B = some T → T.isExit = true →
            ValidatedExit F1.blocks b T) := by
  have hfi : fi < st.M.functions.length := (List.getElem?_eq_some_iff.1 hF).1
  unfold moduleStep
  rw [hF]
  dsimp only
  split
  · rename_i hempty
    refine ⟨st, rfl, Nat.le_refl _, fun _ _ _ => rfl, ?_⟩
    intro hne
    exact absurd (List.isEmpty_iff.1 hempty) hne
  · split
    · rename_i hname
      refine ⟨st, rfl, Nat.le_refl _, fun _ _ _ => rfl, ?_⟩
      intro _ h1 h2
      rcases hname with h | h
      · exact absurd h h1
      · exact absurd h h2
    · obtain ⟨x1, hx1⟩ := getOrInsertFunction_functions st.M "integrity_guard"
      obtain ⟨x2, hx2⟩ := getOrInsertFunction_functions
        (st.M.getOrInsertFunction "integrity_guard") "on_integrity_violation"
      obtain ⟨s, hs, hsfun, hsval⟩ := guardFunction_spec rnd
        ((st.M.getOrInsertFunction "integrity_guard").getOrInsertFunction
          "on_integrity_violation") F st.pos st.next st.changed hwf
      rw [hs]
      dsimp only
      have hfuns : s.M.functions = st.M.functions ++ x1 ++ x2 := by
        rw [hsfun, hx2, hx1]
      refine ⟨_, rfl, ?_, ?_, ?_⟩
      · simp only [List.length_set, hfuns, List.length_append]
        omega
      · intro j hj hjlt
        simp only [List.getElem?_set_ne (Ne.symm hj), hfuns]
        rw [List.append_assoc, List.getElem?_append_left hjlt]
      · intro _ _ _
        refine ⟨{ F with blocks := s.blocks }, ?_, hsval⟩
        simp only
        rw [List.getElem?_set_self (by rw [hfuns]; simp only [List.length_append]; omega)]

/-- The loop over the functions at the positions `idx`, the functions there being those
of `F₀`: it has a result, it changes no function at another position, and in every
function at a position of `idx` that the pass works on, every exit terminator of a block
that is no exception pad is validated. -/
theorem moduleLoop_spec (rnd : Nat → Nat) (F₀ : List Function)
    (hwf : ∀ F ∈ F₀, ∀ B ∈ F.blocks, B.isEHPad = false → getTerminator B ≠ none)
    (idx : List Nat) : ∀ st : MState, idx.Nodup →
      (∀ i ∈ idx, i < F₀.length ∧ st.M.functions[i]? = F₀[i]?) →
      ∃ st1, moduleLoop rnd idx st = some st1 ∧
        st.M.functions.length ≤ st1.M.functions.length ∧
        (∀ j, j ∉ idx → j < st.M.functions.length →
          st1.M.functions[j]? = st.M.functions[j]?) ∧
        ∀ i ∈ idx, ∀ F, F₀[i]? = some F → F.blocks ≠ [] → F.name ≠ "integrity_guard" →
          F.name ≠ "on_integrity_violation" →
          ∃ F1, st1.M.functions[i]? = some F1 ∧
            ∀ (b : Nat) (B : BasicBlock) (T : Inst), F.blocks[b]? = some B →
              B.isEHPad = false → getTerminator B = some T → T.isExit = true →
              ValidatedExit F1.blocks b T := by
  induction idx with
  | nil =>
    intro st _ _
    exact ⟨st, rfl, Nat.le_refl _, fun _ _ _ => rfl, fun i hi => absurd hi (List.not_mem_nil i)⟩
  | cons fi rest ih =>
    intro st hnd hidx
    obtain ⟨hfilt, hfi⟩ := hidx fi (by simp)
    have hF : F₀[fi]? = some F₀[fi] := List.getElem?_eq_getElem hfilt
    rw [hF] at hfi
    obtain ⟨st1, hstep, hlen1, hframe1, hval1⟩ := moduleStep_spec rnd st fi F₀[fi] hfi
      (hwf _ (List.getElem_mem _))
    have hnd' := List.nodup_cons.1 hnd
    have hfilt' : fi < st.M.functions.length := (List.getElem?_eq_some_iff.1 hfi).1
    obtain ⟨st2, hloop, hlen2, hframe2, hval2⟩ := ih st1 hnd'.2 (by
      intro i hi
      obtain ⟨h1, h2⟩ := hidx i (by simp [hi])
      refine ⟨h1, ?_⟩
      have hne : i ≠ fi := fun h => hnd'.1 (h ▸ hi)
      have hilt : i < st.M.functions.length := by
        rw [List.getElem?_eq_getElem h1] at h2
        exact (List.getElem?_eq_some_iff.1 h2).1
      rw [hframe1 i hne hilt]
      exact h2)
    refine ⟨st2, by simp only [moduleLoop, hstep, hloop], by omega, ?_, ?_⟩
    · intro j hj hjlt
      simp only [List.mem_cons, not_or] at hj
      rw [hframe2 j hj.2 (by omega), hframe1 j hj.1 hjlt]
    · intro i hi F hFi hne h1 h2
      rcases List.mem_cons.1 hi with h | h
      · subst h
        rw [hF] at hFi
        simp only [Option.some.injEq] at hFi
        subst hFi
        obtain ⟨F1, hF1, hv⟩ := hval1 hne h1 h2
        refine ⟨F1, ?_, hv⟩
        rw [hframe2 i hnd'.1 (by omega)]
        exact hF1
      · exact hval2 i h F hFi hne h1 h2

theorem setupCells_functions (M : Module) : (setupCells M).1.functions = M.functions := by
  have hadd : ∀ (X : Module) (G : GlobalVariable), (X.addGlobal G).1.functions = X.functions :=
    fun _ _ => rfl
  have hupd : ∀ (X : Module) (i : Nat) (f : GlobalVariable → GlobalVariable),
      (X.updGlobal i f).functions = X.functions := by
    intro X i f
    unfold Module.updGlobal
    split <;> rfl
  have hE : ∀ X : Module, (getOrCreateExpected X).1.functions = X.functions := by
    intro X
    unfold getOrCreateExpected
    split
    · exact hadd _ _
    · exact hupd _ _ _
  unfold setupCells
  dsimp only
  rw [getOrCreateZeroVar_functions, hE]
  split
  · exact hadd _ _
  · exact hupd _ _ _

/-- C12 as stated fails: in a function whose landing pad ends in `resume`, the pass (no
site drawn) puts the seven instructions of the validation before the return of the block
`cont` and leaves the landing pad, block 2, as it was: nothing is inserted before its
`resume`. -/
theorem runOnModule_skips_pad_exit :
    ∃ M1 F1, runOnModule (fun _ => 1) invokeModule 0 0 = some (M1, true) ∧
      M1.functions[0]? = some F1 ∧ (getInsts F1.blocks 1).length = 8 ∧
      getInsts F1.blocks 2 = [.other, .resume] ∧ ¬ ValidatedExit F1.blocks 2 .resume := by
  have hev : (runOnModule (fun _ => 1) invokeModule 0 0).map
      (fun r => (r.2, r.1.functions[0]?.map fun F =>
        ((getInsts F.blocks 1).length, getInsts F.blocks 2)))
      = some (true, some (8, [.other, .resume])) := by decide
  cases hr : runOnModule (fun _ => 1) invokeModule 0 0 with
  | none => rw [hr] at hev; cases hev
  | some r =>
    obtain ⟨M1, changed⟩ := r
    rw [hr] at hev
    simp only [Option.map_some', Option.some.injEq, Prod.mk.injEq] at hev
    obtain ⟨hc, hf⟩ := hev
    cases hF : M1.functions[0]? with
    | none => rw [hF] at hf; cases hf
    | some F1 =>
      rw [hF] at hf
      simp only [Option.map_some', Option.some.injEq, Prod.mk.injEq] at hf
      refine ⟨M1, F1, by rw [hc], hF, hf.1, hf.2, ?_⟩
      rintro ⟨body, n, r, thenBlk, tail, h1, -, -⟩
      rw [hf.2] at h1
      have := congrArg List.length h1
      simp at this

/-- C12 as amended (validation covers the exits outside exception pads): for every
module in which every block that is no exception pad has a terminator, and all draws,
`runOnModule` returns, and in every function that is defined and not named
`integrity_guard` or `on_integrity_violation` every block that is no exception pad and
ended in a return, `unreachable` or `resume` instruction now ends in the integrity
validation, which leads to that instruction. -/
theorem runOnModule_validates_exits (rnd : Nat → Nat) (M : Module) (pos next : Nat)
    (hwf : ∀ F ∈ M.functions, ∀ B ∈ F.blocks, B.isEHPad = false → getTerminator B ≠ none) :
    ∃ M1 changed, runOnModule rnd M pos next = some (M1, changed) ∧
      ∀ (fi : Nat) (F : Function), M.functions[fi]? = some F → F.blocks ≠ [] →
        F.name ≠ "integrity_guard" → F.name ≠ "on_integrity_violation" →
        ∃ F1, M1.functions[fi]? = some F1 ∧
          ∀ (b : Nat) (B : BasicBlock) (T : Inst), F.blocks[b]? = some B →
            B.isEHPad = false → getTerminator B = some T → T.isExit = true →
            ValidatedExit F1.blocks b T := by
  have hfun := setupCells_functions M
  obtain ⟨st1, hloop, -, -, hval⟩ := moduleLoop_spec rnd M.functions hwf
    (List.range (setupCells M).1.functions.length)
    { M := (setupCells M).1, pos := pos, next := next, changed := false }
    (List.nodup_range _)
    (by
      intro i hi
      rw [hfun] at hi ⊢
      exact ⟨List.mem_range.1 hi, rfl⟩)
  refine ⟨st1.M, st1.changed, by simp only [runOnModule, hloop, Option.map_some'], ?_⟩
  intro fi F hF hne h1 h2
  have hfi : fi < M.functions.length := (List.getElem?_eq_some_iff.1 hF).1
  exact hval fi (by rw [hfun]; exact List.mem_range.2 hfi) F hF hne h1 h2

/-- C12 as amended, at a concrete input: the function with an `invoke`, a returning
block and a landing pad. -/
theorem runOnModule_validates_exits_witness :
    (∀ F ∈ invokeModule.functions, ∀ B ∈ F.blocks, B.isEHPad = false →
      getTerminator B ≠ none) ∧
    ∃ M1 changed, runOnModule (fun _ => 1) invokeModule 0 0 = some (M1, changed) ∧
      ∀ (fi : Nat) (F : Function), invokeModule.functions[fi]? = some F → F.blocks ≠ [] →
        F.name ≠ "integrity_guard" → F.name ≠ "on_integrity_violation" →
        ∃ F1, M1.functions[fi]? = some F1 ∧
          ∀ (b : Nat) (B : BasicBlock) (T : Inst), F.blocks[b]? = some B →
            B.isEHPad = false → getTerminator B = some T → T.isExit = true →
            ValidatedExit F1.blocks b T :=
  ⟨by decide, runOnModule_validates_exits (fun _ => 1) invokeModule 0 0 (by decide)⟩

/-! ### The odd multiplier of the decoy -/

/-- The constant of `randNonZeroInt` is an odd 32-bit number. -/
theorem randNonZeroInt_odd (rnd : Nat → Nat) (g : Gen) :
    (randNonZeroInt rnd g).1 = .const (or32 (rand rnd g.pos) 1) ∧
      or32 (rand rnd g.pos) 1 % 2 = 1 ∧ or32 (rand rnd g.pos) 1 < 4294967296 := by
  refine ⟨rfl, ?_, Nat.mod_lt _ (by decide)⟩
  have h1 : (rand rnd g.pos ||| 1) % 2 = 1 := by
    have h : (rand rnd g.pos ||| 1).testBit 0 = true := by
      rw [Nat.testBit_or]; simp
    rw [Nat.testBit_zero] at h
    exact of_decide_eq_true h
  unfold or32
  omega

/-- An odd multiplier sends no non-zero 32-bit value to zero. -/
theorem mul32_odd_ne_zero (r z : Nat) (hr : r % 2 = 1) (hz : z % 4294967296 ≠ 0) :
    mul32 r z ≠ 0 := by
  unfold mul32
  intro h
  have hdvd : 4294967296 ∣ r * z := Nat.dvd_of_mod_eq_zero h
  have hcop : Nat.Coprime 4294967296 r := by
    have h2 : Nat.Coprime 2 r := by
      rw [Nat.Prime.coprime_iff_not_dvd Nat.prime_two]
      intro hd
      have := Nat.mod_eq_zero_of_dvd hd
      omega
    exact Nat.Coprime.pow_left 32 h2
  exact hz (Nat.mod_eq_zero_of_dvd (hcop.dvd_of_dvd_mul_left hdvd))

/-- The inserted check always runs to its conditional branch; the branch goes to the exit
exactly when the guard agrees modulo `2^32` with the expected value plus the mask, the
product of the drawn constant and the decoy. -/
theorem injectIntegrityValidate_run_mask (rnd : Nat → Nat) (pos next : Nat)
    (global expected : Global) (thenBlk tail : Nat) (m : Machine) :
    ∃ m1, m.run (injectIntegrityValidate rnd { pos := pos, next := next, insts := [] }
        global expected thenBlk tail).1.insts =
      some (m1, some (if m.globals global % 4294967296 =
          add32 (m.globals expected) (mul32 (or32 (rand rnd pos) 1) (m.globals .zeroVar))
        then tail else thenBlk)) ∧
      m1.regs (next + 5) = some (if m.globals global % 4294967296 =
          add32 (m.globals expected) (mul32 (or32 (rand rnd pos) 1) (m.globals .zeroVar))
        then 0 else 1) := by
  have hr : or32 (rand rnd pos) 1 % 4294967296 = or32 (rand rnd pos) 1 :=
    Nat.mod_eq_of_lt (Nat.mod_lt _ (by decide))
  have ha : ∀ a b, add32 a b % 4294967296 = add32 a b :=
    fun a b => Nat.mod_eq_of_lt (Nat.mod_lt _ (by decide))
  simp only [injectIntegrityValidate, randNonZeroInt, Gen.emit, Gen.push, Gen.drew,
    List.nil_append, List.append_assoc, List.singleton_append, List.cons_append]
  rw [show ∀ (a b c d e f t : Inst), [a, b, c, d, e, f, t] = [a, b, c, d, e, f] ++ [t] from
    fun _ _ _ _ _ _ _ => rfl]
  rw [run_append_plain]
  · simp only [Machine.exec, Machine.step, Machine.eval, Machine.setReg,
      Option.map_some', Option.some_bind]
    by_cases h : m.globals global % 4294967296 =
        add32 (m.globals expected) (mul32 (or32 (rand rnd pos) 1) (m.globals .zeroVar))
    · simp [Machine.run, Machine.eval, Machine.setReg, evalBinOp, evalPred, h, hr, ha,
        Nat.add_assoc]
    · simp [Machine.run, Machine.eval, Machine.setReg, evalBinOp, evalPred, h, hr, ha,
        Nat.add_assoc]
  · intro i hi
    simp only [List.mem_cons, List.mem_singleton, List.not_mem_nil, or_false] at hi
    rcases hi with hi | hi | hi | hi | hi | hi <;> subst hi <;> rfl

/-- C21 (odd multiplier): every constant `randNonZeroInt` produces is odd, so its product
with any 32-bit value other than zero is not zero modulo `2^32`; hence, when the decoy
cell is not zero and the guard agrees with the expected value, the check inserted by
`injectIntegrityValidate` runs to its conditional branch with the comparison true and
leaves for the block that calls the handler. -/
theorem injectIntegrityValidate_decoy_tripwire (rnd : Nat → Nat) (pos next : Nat)
    (global expected : Global) (thenBlk tail : Nat) (m : Machine)
    (hz : m.globals .zeroVar % 4294967296 ≠ 0)
    (hge : m.globals global % 4294967296 = m.globals expected % 4294967296) :
    (∀ g : Gen, ∃ r, (randNonZeroInt rnd g).1 = .const r ∧ r % 2 = 1 ∧
      ∀ z, z % 4294967296 ≠ 0 → mul32 r z ≠ 0) ∧
    ∃ m1, m.run (injectIntegrityValidate rnd { pos := pos, next := next, insts := [] }
        global expected thenBlk tail).1.insts = some (m1, some thenBlk) ∧
      m1.regs (next + 5) = some 1 := by
  refine ⟨?_, ?_⟩
  · intro g
    obtain ⟨h1, h2, -⟩ := randNonZeroInt_odd rnd g
    exact ⟨_, h1, h2, fun z hz => mul32_odd_ne_zero _ z h2 hz⟩
  · obtain ⟨m1, hrun, hreg⟩ :=
      injectIntegrityValidate_run_mask rnd pos next global expected thenBlk tail m
    have hmask := mul32_odd_ne_zero _ _ (randNonZeroInt_odd rnd
      { pos := pos, next := next, insts := [] }).2.1 hz
    have hlt : mul32 (or32 (rand rnd pos) 1) (m.globals .zeroVar) < 4294967296 :=
      Nat.mod_lt _ (by decide)
    have hne : ¬ (m.globals global % 4294967296 =
        add32 (m.globals expected) (mul32 (or32 (rand rnd pos) 1) (m.globals .zeroVar))) := by
      dsimp only at hmask
      unfold add32
      omega
    rw [if_neg hne] at hrun hreg
    exact ⟨m1, hrun, hreg⟩

/-- C21 at a concrete state: guard and expected value both `0x1000`, the decoy at 6. -/
theorem injectIntegrityValidate_decoy_tripwire_witness :
    (Machine.init decoyCells).globals .zeroVar % 4294967296 ≠ 0 ∧
    (Machine.init decoyCells).globals .guard % 4294967296
      = (Machine.init decoyCells).globals .expected % 4294967296 ∧
    ((∀ g : Gen, ∃ r, (randNonZeroInt (tape [2]) g).1 = .const r ∧ r % 2 = 1 ∧
      ∀ z, z % 4294967296 ≠ 0 → mul32 r z ≠ 0) ∧
    ∃ m1, (Machine.init decoyCells).run
        (injectIntegrityValidate (tape [2]) { pos := 0, next := 0, insts := [] }
          .guard .expected 1 2).1.insts = some (m1, some 1) ∧
      m1.regs (0 + 5) = some 1) :=
  ⟨by decide, by decide,
   injectIntegrityValidate_decoy_tripwire (tape [2]) 0 0 .guard .expected 1 2
     (Machine.init decoyCells) (by decide) (by decide)⟩

/-! ### The shadow divisors of `randomOperations` -/

/-- The loop of `a + b` iterations is the loop of `a` iterations followed by the loop of
`b` iterations. -/
theorem randomLoop_add (rnd : Nat → Nat) (ng : Nat) (a b : Nat) : ∀ s : Loop,
    randomLoop rnd ng (a + b) s = (randomLoop rnd ng a s).bind (randomLoop rnd ng b) := by
  induction a with
  | zero => intro s; simp [randomLoop]
  | succ a ih =>
    intro s
    rw [Nat.add_right_comm]
    simp only [randomLoop]
    cases randomStep rnd ng s with
    | none => rfl
    | some s1 => exact ih s1

/-- After `k` iterations from a state whose shadow divisors are in `[2, b]`, the shadow
divisors are in `[2, b + 9 k]`. -/
theorem randomLoop_divisors (rnd : Nat → Nat) {ng : Nat} (hng : 0 < ng) (k : Nat) :
    ∀ (s : Loop) (b : Nat), b + 9 * k < 2147483648 →
      (2 ≤ s.control1 ∧ s.control1 ≤ b) → (2 ≤ s.control2 ∧ s.control2 ≤ b) →
      ∃ s1, randomLoop rnd ng k s = some s1 ∧
        (2 ≤ s1.control1 ∧ s1.control1 ≤ b + 9 * k) ∧
        (2 ≤ s1.control2 ∧ s1.control2 ≤ b + 9 * k) := by
  induction k with
  | zero => intro s b _ h1 h2; exact ⟨s, rfl, h1, h2⟩
  | succ k ih =>
    intro s b hb h1 h2
    obtain ⟨s1, hs1, h11, h12⟩ := randomStep_succeeds rnd s hng ⟨h1.1, by omega⟩ ⟨h2.1, by omega⟩
    obtain ⟨s2, hs2, h21, h22⟩ := ih s1 (b + 9) (by omega) ⟨h11.1, by omega⟩ ⟨h12.1, by omega⟩
    exact ⟨s2, by simp only [randomLoop, hs1, hs2], ⟨h21.1, by omega⟩, ⟨h22.1, by omega⟩⟩

/-- A shadow value in `[2, 2^31)` is read as itself, and `ensureNot0` leaves it alone. -/
theorem shadow_divisor_safe (rnd : Nat → Nat) (c : Nat) (h2 : 2 ≤ c) (h : c < 2147483648) :
    toInt c = (c : Int) ∧ (∀ (g : Gen) (v : Val), ensureNot0 rnd g v c = (g, v, c)) ∧
    ∀ a, sdiv32 a c = some (ofInt (Int.tdiv (toInt a) (toInt c))) ∧
      srem32 a c = some (ofInt (Int.tmod (toInt a) (toInt c))) := by
  have ht := toInt_small c h
  refine ⟨ht, fun g v => ensureNot0_of_ne_zero rnd g v c (by omega), fun a => ?_⟩
  have h0 : ¬ (toInt c = 0) := by rw [ht]; omega
  have h1 : ¬ (toInt a = -2147483648 ∧ toInt c = -1) := by rw [ht]; omega
  unfold sdiv32 srem32
  rw [if_neg h0, if_neg h1, if_neg h0, if_neg h1]
  exact ⟨rfl, rfl⟩

/-- C22 (generation-time arithmetic safety): for every iteration count `N ≤ 24` and all
draws (the scratch pool being non-empty), `randomOperations` returns, and after each
number `k ≤ N` of iterations of its loop the shadow divisors `control[1]` and
`control[2]` are at least 2 (and at most `127 + 9 k`), also read as signed numbers, so
that `ensureNot0` returns them as they are without emitting anything and the shadow
division and remainder by them are defined, the divisor being neither 0 nor -1; and every
remainder constant drawn by `dist8` is in `[2, 127]`, the shadow remainder by it being
defined. -/
theorem randomOperations_shadow_divisors (rnd : Nat → Nat) (ng : Nat) (g : Gen) (N : Nat)
    (hng : 0 < ng) (hN : N ≤ 24) :
    (∃ r, randomOperations rnd ng g N = some r) ∧
    (∀ k, k ≤ N → ∃ s, randomLoop rnd ng k (randomInit rnd g) = some s ∧
      randomLoop rnd ng N (randomInit rnd g) = randomLoop rnd ng (N - k) s ∧
      (2 ≤ s.control1 ∧ s.control1 ≤ 127 + 9 * k ∧ 2 ≤ toInt s.control1) ∧
      (2 ≤ s.control2 ∧ s.control2 ≤ 127 + 9 * k ∧ 2 ≤ toInt s.control2) ∧
      (∀ g1 : Gen, ensureNot0 rnd g1 s.ly s.control1 = (g1, s.ly, s.control1) ∧
        ensureNot0 rnd g1 s.lz s.control2 = (g1, s.lz, s.control2)) ∧
      (toInt s.control1 ≠ 0 ∧ toInt s.control1 ≠ -1 ∧
        toInt s.control2 ≠ 0 ∧ toInt s.control2 ≠ -1) ∧
      (sdiv32 s.control3 s.control1).isSome = true ∧
      (sdiv32 s.control3 s.control2).isSome = true) ∧
    ∀ p, (2 ≤ dist8 rnd p ∧ dist8 rnd p ≤ 127) ∧
      toInt (dist8 rnd p) ≠ 0 ∧ toInt (dist8 rnd p) ≠ -1 ∧
      ∀ a, (srem32 a (dist8 rnd p)).isSome = true := by
  have h1 : 2 ≤ dist8 rnd (g.pos + 1) ∧ dist8 rnd (g.pos + 1) ≤ 127 := by unfold dist8; omega
  have h2 : 2 ≤ dist8 rnd (g.pos + 2) ∧ dist8 rnd (g.pos + 2) ≤ 127 := by unfold dist8; omega
  refine ⟨?_, ?_, ?_⟩
  · obtain ⟨g1, res, c, h⟩ := randomOperations_succeeds rnd hng g N (by omega)
    exact ⟨_, h⟩
  · intro k hk
    obtain ⟨s, hs, hc1, hc2⟩ :=
      randomLoop_divisors rnd hng k (randomInit rnd g) 127 (by omega) h1 h2
    obtain ⟨t1, e1, d1⟩ := shadow_divisor_safe rnd s.control1 hc1.1 (by omega)
    obtain ⟨t2, e2, d2⟩ := shadow_divisor_safe rnd s.control2 hc2.1 (by omega)
    refine ⟨s, hs, ?_, ⟨hc1.1, hc1.2, by rw [t1]; omega⟩, ⟨hc2.1, hc2.2, by rw [t2]; omega⟩,
      fun g1 => ⟨e1 g1 s.ly, e2 g1 s.lz⟩,
      ⟨by rw [t1]; omega, by rw [t1]; omega, by rw [t2]; omega, by rw [t2]; omega⟩,
      by rw [(d1 s.control3).1]; rfl, by rw [(d2 s.control3).1]; rfl⟩
    have hNk : N = k + (N - k) := by omega
    conv_lhs => rw [hNk]
    rw [randomLoop_add, hs]
    rfl
  · intro p
    have hd : 2 ≤ dist8 rnd p ∧ dist8 rnd p ≤ 127 := by unfold dist8; omega
    obtain ⟨t, -, d⟩ := shadow_divisor_safe rnd (dist8 rnd p) hd.1 (by omega)
    exact ⟨hd, by rw [t]; omega, by rw [t]; omega, fun a => by rw [(d a).2]; rfl⟩

/-- C22 at a concrete run: `x = 100`, `y = 5`, `z = 9` and the two iterations
`control[1] += 4` (choice 15) and `res /= y` (choice 3). -/
theorem randomOperations_shadow_divisors_witness :
    0 < 1 ∧ 2 ≤ 24 ∧
    ((∃ r, randomOperations (tape [100, 3, 7, 15, 3, 3]) 1
        { pos := 0, next := 0, insts := [] } 2 = some r) ∧
    (∀ k, k ≤ 2 → ∃ s, randomLoop (tape [100, 3, 7, 15, 3, 3]) 1 k
        (randomInit (tape [100, 3, 7, 15, 3, 3]) { pos := 0, next := 0, insts := [] }) = some s ∧
      randomLoop (tape [100, 3, 7, 15, 3, 3]) 1 2
        (randomInit (tape [100, 3, 7, 15, 3, 3]) { pos := 0, next := 0, insts := [] })
          = randomLoop (tape [100, 3, 7, 15, 3, 3]) 1 (2 - k) s ∧
      (2 ≤ s.control1 ∧ s.control1 ≤ 127 + 9 * k ∧ 2 ≤ toInt s.control1) ∧
      (2 ≤ s.control2 ∧ s.control2 ≤ 127 + 9 * k ∧ 2 ≤ toInt s.control2) ∧
      (∀ g1 : Gen, ensureNot0 (tape [100, 3, 7, 15, 3, 3]) g1 s.ly s.control1
          = (g1, s.ly, s.control1) ∧
        ensureNot0 (tape [100, 3, 7, 15, 3, 3]) g1 s.lz s.control2 = (g1, s.lz, s.control2)) ∧
      (toInt s.control1 ≠ 0 ∧ toInt s.control1 ≠ -1 ∧
        toInt s.control2 ≠ 0 ∧ toInt s.control2 ≠ -1) ∧
      (sdiv32 s.control3 s.control1).isSome = true ∧
      (sdiv32 s.control3 s.control2).isSome = true) ∧
    ∀ p, (2 ≤ dist8 (tape [100, 3, 7, 15, 3, 3]) p ∧ dist8 (tape [100, 3, 7, 15, 3, 3]) p ≤ 127) ∧
      toInt (dist8 (tape [100, 3, 7, 15, 3, 3]) p) ≠ 0 ∧
      toInt (dist8 (tape [100, 3, 7, 15, 3, 3]) p) ≠ -1 ∧
      ∀ a, (srem32 a (dist8 (tape [100, 3, 7, 15, 3, 3]) p)).isSome = true) :=
  ⟨by decide, by decide,
   randomOperations_shadow_divisors (tape [100, 3, 7, 15, 3, 3]) 1
     { pos := 0, next := 0, insts := [] } 2 (by decide) (by decide)⟩

/-! ### The entry block under the splice -/

theorem successors_of_isPlain (i : Inst) (h : Inst.isPlain i = true) : i.successors = [] := by
  have ht := ((isPlain_iff i).1 h).1
  cases i <;> first | rfl | cases ht

/-- A block that ends in the instructions `body`, none of which branches to the entry
block, does not branch to it. -/
theorem entry_not_succ_of_append (B : BasicBlock) (pre body : List Inst)
    (hins : B.insts = pre ++ body) (hne : body ≠ [])
    (hb : ∀ t ∈ body, 0 ∉ t.successors) : 0 ∉ blockSuccessors B := by
  have hlast : B.insts.getLast? = some (body.getLast hne) := by
    rw [hins, List.getLast?_append_of_ne_nil _ hne, List.getLast?_eq_getLast _ hne]
  unfold blockSuccessors getTerminator
  rw [hlast]
  dsimp only
  split
  · rename_i t ht
    split at ht
    · simp only [Option.some.injEq] at ht
      rw [← ht]
      exact hb _ (List.getLast_mem hne)
    · cases ht
  · simp

theorem EntryFree.appendInsts {F : List BasicBlock} {A : List Nat} (h : EntryFree F A)
    (b : Nat) (body : List Inst) (hb : ∀ t ∈ body, 0 ∉ t.successors) :
    EntryFree (appendInsts F b body) A := by
  by_cases hne : body = []
  · rw [hne, appendInsts_nil]
    exact h
  · refine ⟨by rw [length_appendInsts]; exact h.1, h.2.1, ?_⟩
    intro B hB
    obtain ⟨i, hi⟩ := List.mem_iff_getElem?.1 hB
    rw [getElem?_appendInsts] at hi
    split at hi
    · cases hF : F[i]? with
      | none => rw [hF] at hi; cases hi
      | some B₀ =>
        rw [hF] at hi
        simp only [Option.map_some', Option.some.injEq] at hi
        exact entry_not_succ_of_append B B₀.insts body (by rw [← hi]) hne hb
    · exact h.2.2 B (List.getElem?_mem hi)

theorem EntryFree.append_new {F : List BasicBlock} {A : List Nat} (h : EntryFree F A)
    (name : String) : EntryFree (F ++ [newBlock name]) A := by
  refine ⟨by simp, h.2.1, ?_⟩
  intro B hB
  rcases List.mem_append.1 hB with h1 | h1
  · exact h.2.2 B h1
  · simp only [List.mem_singleton] at h1
    rw [h1]
    simp [blockSuccessors, getTerminator, newBlock]

theorem EntryFree.push_candidate {F : List BasicBlock} {A : List Nat} (h : EntryFree F A)
    (x : Nat) (hx : 0 < x) : EntryFree F (A ++ [x]) := by
  refine ⟨h.1, ?_, h.2.2⟩
  intro h0
  rcases List.mem_append.1 h0 with h1 | h1
  · exact h.2.1 h1
  · simp only [List.mem_singleton] at h1
    omega

/-- The terminator of block `b` replaced by a branch to the block `p`, which is not the
entry block. -/
theorem EntryFree.rewire {F : List BasicBlock} {A : List Nat} (h : EntryFree F A)
    (b p : Nat) (hp : 0 < p) :
    EntryFree (Obf.appendInsts
      (updBlock (fun B => { B with insts := B.insts.dropLast }) b F) b [.br p]) A := by
  refine ⟨by rw [length_appendInsts, length_updBlock]; exact h.1, h.2.1, ?_⟩
  intro B hB
  obtain ⟨i, hi⟩ := List.mem_iff_getElem?.1 hB
  rw [getElem?_appendInsts, getElem?_eraseTerminator] at hi
  split at hi
  · cases hF : F[i]? with
    | none => rw [hF] at hi; cases hi
    | some B₀ =>
      rw [hF] at hi
      simp only [Option.map_some', Option.some.injEq] at hi
      rw [blockSuccessors_of_closed B B₀.insts.dropLast (.br p) (by rw [← hi]) rfl]
      simp only [Inst.successors, List.mem_singleton]
      omega
  · exact h.2.2 B (List.getElem?_mem hi)

/-- Function `genFakeFlow` keeps the entry block out of the candidate list and adds no
branch to it. -/
theorem genFakeFlow_EntryFree {rnd : Nat → Nat} {ng : Nat} {D block : Nat} {s sF : FState}
    (h : EntryFree s.blocks s.allBB) (hb : block < s.blocks.length)
    (hgen : genFakeFlow rnd ng D block s = some sF) : EntryFree sF.blocks sF.allBB := by
  have hrule := @genFakeFlow_rule rnd ng
    (fun F A O => (∀ i, O i → i < F.length) ∧ EntryFree F A)
    (fun F A O h i hi => h.1 i hi)
    (by
      intro F A O b body h _ hbody
      refine ⟨fun i hi => by rw [length_appendInsts]; exact h.1 i hi, ?_⟩
      exact h.2.appendInsts b body (fun t ht => by rw [successors_of_isPlain t (hbody t ht)]; simp))
    (by
      intro F A O name h
      refine ⟨?_, (h.2.append_new name).push_candidate F.length h.2.1⟩
      intro i hi
      simp only [List.length_append, List.length_singleton]
      rcases hi with hi | hi
      · have := h.1 i hi; omega
      · omega)
    (by
      intro F A O b t h _ _ hsucc
      refine ⟨fun i hi => by rw [length_appendInsts]; exact h.1 i hi.1, ?_⟩
      refine h.2.appendInsts b [t] ?_
      intro t1 ht1
      simp only [List.mem_singleton] at ht1
      rw [ht1]
      exact fun h0 => h.2.2.1 (hsucc 0 h0))
    D block s sF (fun i => i = block) ⟨fun i hi => by rw [hi]; exact hb, h⟩ rfl hgen
  exact hrule.1.2

/-- What one iteration of the splice loop does, with the candidate list: nothing, or the
splice of block `B` whose only successor is `e`. -/
theorem spliceStep_shape {rnd : Nat → Nat} {ng : Nat} {s s1 : FState} {changed c1 : Bool}
    {B : Nat} (h : spliceStep rnd ng s changed B = some (s1, c1)) :
    s1 = s ∨ ∃ (blk : BasicBlock) (term : Inst) (e : Nat) (body : List Inst) (cmpI : Inst)
        (cmp : Val) (D : Nat) (sh si : FState),
      s.blocks[B]? = some blk ∧ getTerminator blk = some term ∧ term.successors = [e] ∧
      (∀ i ∈ body, Inst.isPlain i = true) ∧ Inst.isPlain cmpI = true ∧
      sh.blocks = appendInsts (appendInsts (appendInsts
        (updBlock (fun B => { B with insts := B.insts.dropLast }) B
          (s.blocks ++ [newBlock "predicateBlock"])) B [.br s.blocks.length])
        s.blocks.length body) s.blocks.length [cmpI] ++ [newBlock "originator"] ∧
      sh.allBB = s.allBB ∧
      genFakeFlow rnd ng D (s.blocks.length + 1) sh = some si ∧
      s1.blocks = appendInsts si.blocks s.blocks.length
        [.condBr cmp e (s.blocks.length + 1)] ∧
      s1.allBB = si.allBB ++ [s.blocks.length] := by
  unfold spliceStep at h
  split at h
  · cases h
  · rename_i blk hblk
    split at h
    · cases h
    · rename_i term hterm
      split at h
      · simp only [Option.some.injEq, Prod.mk.injEq] at h
        exact Or.inl h.1.symm
      · rename_i e hsuccs
        split at h
        · simp only [Option.some.injEq, Prod.mk.injEq] at h
          exact Or.inl h.1.symm
        · split at h
          · cases h
          · split at h
            · simp only [Option.some.injEq, Prod.mk.injEq] at h
              exact Or.inl h.1.symm
            · dsimp only at h
              split at h
              · cases h
              · rename_i g result c hro
                obtain ⟨gbody, hgb, hplain⟩ := randomOperations_extends hro
                split at h
                · cases h
                · rename_i si hgen
                  simp only [Option.some.injEq, Prod.mk.injEq] at h
                  obtain ⟨h1, -⟩ := h
                  subst h1
                  simp only [FState.createBlock, FState.pushInst, FState.eraseTerminator,
                    FState.drew, FState.putGen, FState.emitAt, FState.pushBB, FState.gen,
                    length_appendInsts, length_updBlock, List.length_append,
                    List.length_singleton, List.nil_append] at hgen hgb ⊢
                  have hgp : ∀ i ∈ g.insts, Inst.isPlain i = true := hgb ▸ hplain
                  exact Or.inr ⟨blk, term, e, g.insts,
                    .icmp g.next .sgt result (.const 0), .reg g.next, _, _, si, hblk, hterm,
                    hsuccs, hgp, rfl, rfl, by rfl, hgen, rfl, rfl⟩
      · simp only [Option.some.injEq, Prod.mk.injEq] at h
        exact Or.inl h.1.symm

/-- One iteration of the splice loop keeps the entry block out of the candidate list and
adds no branch to it. -/
theorem spliceStep_EntryFree {rnd : Nat → Nat} {ng : Nat} {s s1 : FState} {changed c1 : Bool}
    {B : Nat} (hE : EntryFree s.blocks s.allBB)
    (h : spliceStep rnd ng s changed B = some (s1, c1)) : EntryFree s1.blocks s1.allBB := by
  rcases spliceStep_shape h with h1 | ⟨blk, term, e, body, cmpI, cmp, D, sh, si, hblk, hterm,
    hsuccs, hbody, hcmp, hsh, hsha, hgen, hF1, hA1⟩
  · rw [h1]; exact hE
  · have hlen : 0 < s.blocks.length := hE.1
    have he : e ≠ 0 := by
      intro h0
      apply hE.2.2 blk (List.getElem?_mem hblk)
      unfold blockSuccessors
      rw [hterm]
      simp [hsuccs, h0]
    have E2 := (hE.append_new "predicateBlock").rewire B s.blocks.length hlen
    have E3 := E2.appendInsts s.blocks.length body
      (fun t ht => by rw [successors_of_isPlain t (hbody t ht)]; simp)
    have E4 := E3.appendInsts s.blocks.length [cmpI] (by
      intro t ht
      simp only [List.mem_singleton] at ht
      rw [ht, successors_of_isPlain cmpI hcmp]; simp)
    have E5 := E4.append_new "originator"
    rw [← hsh, ← hsha] at E5
    have hshlen : sh.blocks.length = s.blocks.length + 1 + 1 := by
      rw [hsh]
      simp [length_appendInsts, length_updBlock]
    have E6 := genFakeFlow_EntryFree E5 (by omega) hgen
    have E7 := E6.appendInsts s.blocks.length [.condBr cmp e (s.blocks.length + 1)] (by
      intro t ht
      simp only [List.mem_singleton] at ht
      rw [ht]
      simp only [Inst.successors, List.mem_cons, List.mem_singleton, List.not_mem_nil,
        or_false, not_or]
      omega)
    rw [hF1, hA1]
    exact E7.push_candidate s.blocks.length hlen

theorem spliceLoop_EntryFree {rnd : Nat → Nat} {ng : Nat} (rest : List Nat) :
    ∀ (s s1 : FState) (changed c1 : Bool), EntryFree s.blocks s.allBB →
      spliceLoop rnd ng rest s changed = some (s1, c1) → EntryFree s1.blocks s1.allBB := by
  induction rest with
  | nil =>
    intro s s1 changed c1 hE h
    simp only [spliceLoop, Option.some.injEq, Prod.mk.injEq] at h
    rw [← h.1]
    exact hE
  | cons B rest ih =>
    intro s s1 changed c1 hE h
    simp only [spliceLoop] at h
    cases hstep : spliceStep rnd ng s changed B with
    | none => rw [hstep] at h; cases h
    | some r =>
      obtain ⟨s2, c2⟩ := r
      rw [hstep] at h
      exact ih s2 s1 c2 c1 (spliceStep_EntryFree hE hstep) h

theorem EntryFree.entryOut {s : FState} (h : EntryFree s.blocks s.allBB) : EntryOut s :=
  ⟨h.1, h.2.1⟩

theorem EntryOut.of_same_list {s t : FState} (hs : EntryOut s) (ha : t.allBB = s.allBB)
    (hb : s.blocks.length ≤ t.blocks.length) : EntryOut t :=
  ⟨Nat.lt_of_lt_of_le hs.1 hb, by rw [ha]; exact hs.2⟩

theorem EntryOut.of_new_block {s t : FState} (hs : EntryOut s)
    (ha : t.allBB = s.allBB ++ [s.blocks.length])
    (hb : t.blocks.length = s.blocks.length + 1) : EntryOut t := by
  refine ⟨by omega, ?_⟩
  rw [ha, List.mem_append, List.mem_singleton]
  rintro (h | h)
  · exact hs.2 h
  · have := hs.1; omega

/-- The `switch` of `genFakeFlow` makes its recursive call with the entry block outside
the candidate list, so two recursive calls that agree there give the same result. -/
theorem fakeSwitch_congr_entry {rnd : Nat → Nat} {ng : Nat}
    {r1 r2 : Nat → FState → Option FState}
    (hr : ∀ b t, EntryOut t → r1 b t = r2 b t)
    (block leftBlock : Nat) (res : Val) (s : FState) (hs : EntryOut s) :
    fakeSwitch rnd ng r1 block leftBlock res s = fakeSwitch rnd ng r2 block leftBlock res s := by
  have hgood : ∀ t : FState, t.allBB = s.allBB → t.blocks.length = s.blocks.length →
      EntryOut ((t.createBlock "right").2.pushBB (t.createBlock "right").1) := by
    intro t ha hb
    have ht : EntryOut t := hs.of_same_list ha (by omega)
    exact ht.of_new_block rfl (by simp [FState.pushBB, FState.createBlock])
  unfold fakeSwitch
  dsimp only
  split
  · rfl
  · cases getRandGlobal rnd ng s.drew.pos with
    | none => rfl
    | some tmp =>
      dsimp only
      rw [hr _ _ (hgood (s.drew.drew.emitAt block fun id => .load id (.global tmp) false).2 rfl
        (by simp [FState.emitAt, FState.drew, length_appendInsts]))]
  · rw [hr _ _ (hgood s.drew rfl rfl)]
  · rw [hr _ _ (hgood s.drew rfl rfl)]
  · rw [hr _ _ (hgood s.drew rfl rfl)]
  · rw [hr _ _ (hgood s.drew rfl rfl)]
  · rw [hr _ _ (hgood s.drew rfl rfl)]
  · rfl

/-- The `switch` of `genFakeFlow` keeps the entry block outside the candidate list when
its recursive call does. -/
theorem fakeSwitch_entryOut {rnd : Nat → Nat} {ng : Nat}
    {recurse : Nat → FState → Option FState}
    (hrec : ∀ b t t1, EntryOut t → recurse b t = some t1 → EntryOut t1)
    {block leftBlock : Nat} {res : Val} {s sF : FState} (hs : EntryOut s)
    (h : fakeSwitch rnd ng recurse block leftBlock res s = some sF) : EntryOut sF := by
  rcases fakeSwitch_cases h with ⟨i, -, hb, ha⟩ | ⟨right, body, s3, s4, cmpI, c, hright, -,
    hb3, ha3, hrecR, -, hb, ha⟩
  · exact hs.of_same_list ha (by rw [hb]; simp [length_appendInsts])
  · have h3 : EntryOut s3 :=
      hs.of_new_block (by rw [ha3, hright]) (by rw [hb3]; simp [length_appendInsts])
    have h4 := hrec right s3 s4 h3 hrecR
    exact h4.of_same_list ha (by rw [hb]; simp [length_appendInsts])

/-- Function `genFakeFlow` keeps the entry block outside the candidate list. -/
theorem genFakeFlow_entryOut {rnd : Nat → Nat} {ng : Nat} (D : Nat) :
    ∀ (block : Nat) (s sF : FState), EntryOut s →
      genFakeFlow rnd ng D block s = some sF → EntryOut sF := by
  induction D with
  | zero =>
    intro block s sF hs h
    obtain ⟨target, -, hb, ha⟩ := genFakeFlow_zero_cases h
    exact hs.of_same_list ha (by rw [hb]; simp [length_appendInsts])
  | succ D ih =>
    intro block s sF hs h
    obtain ⟨left, body, s1, s2, res, hleft, -, hb1, ha1, hsw, hrecL⟩ :=
      genFakeFlow_succ_cases h
    have h1 : EntryOut s1 :=
      hs.of_new_block (by rw [ha1, hleft]) (by rw [hb1]; simp [length_appendInsts])
    have h2 : EntryOut s2 := fakeSwitch_entryOut (fun b t t1 => ih b t t1) h1 hsw
    exact ih left s2 sF h2 hrecL

/-- With the entry block outside the candidate list, `genFakeFlow` does not depend on
what its base case does on a candidate list that holds the entry block. -/
theorem genFakeFlowWith_eq_entry {rnd : Nat → Nat} {ng : Nat}
    {base : Nat → FState → Option FState}
    (hbase : ∀ block s, EntryOut s → base block s = genFakeFlow rnd ng 0 block s)
    (D : Nat) : ∀ (block : Nat) (s : FState), EntryOut s →
      genFakeFlowWith base rnd ng D block s = genFakeFlow rnd ng D block s := by
  induction D with
  | zero =>
    intro block s hs
    simp only [genFakeFlowWith]
    exact hbase block s hs
  | succ D ih =>
    intro block s hs
    simp only [genFakeFlowWith, genFakeFlow]
    cases hro : randomOperations rnd ng s.drew.gen (rd rnd s.pos % 25) with
    | none => rfl
    | some r =>
      obtain ⟨g, res, c⟩ := r
      dsimp only
      have h1 : EntryOut (((s.drew.putGen block g).createBlock "left").2.pushBB
          ((s.drew.putGen block g).createBlock "left").1) :=
        hs.of_new_block (by simp [FState.pushBB, FState.createBlock, FState.putGen, FState.drew,
            length_appendInsts])
          (by simp [FState.pushBB, FState.createBlock, FState.putGen, FState.drew,
            length_appendInsts])
      rw [fakeSwitch_congr_entry (fun b t ht => ih b t ht) _ _ _ _ h1]
      cases hsw : fakeSwitch rnd ng (genFakeFlow rnd ng D) block
          ((s.drew.putGen block g).createBlock "left").1 res
          (((s.drew.putGen block g).createBlock "left").2.pushBB
            ((s.drew.putGen block g).createBlock "left").1) with
      | none => rfl
      | some s2 =>
        exact ih _ s2 (fakeSwitch_entryOut (fun b t t1 => genFakeFlow_entryOut D b t t1) h1 hsw)

/-- The body of the splice loop calls `genFakeFlow` with the entry block outside the
candidate list, whenever it is outside the list the body starts from. -/
theorem spliceStepWith_congr_entry {rnd : Nat → Nat} {ng : Nat}
    {f1 f2 : Nat → Nat → FState → Option FState}
    (hf : ∀ D b t, EntryOut t → f1 D b t = f2 D b t)
    (s : FState) (changed : Bool) (B : Nat) (hs : EntryOut s) :
    spliceStepWith f1 rnd ng s changed B = spliceStepWith f2 rnd ng s changed B := by
  unfold spliceStepWith
  split
  · rfl
  · split
    · rfl
    · split
      · rfl
      · split
        · rfl
        · split
          · rfl
          · split
            · rfl
            · dsimp only
              split
              · rfl
              · rw [hf]
                refine hs.of_same_list ?_ ?_
                · simp only [FState.createBlock, FState.pushInst, FState.eraseTerminator,
                    FState.drew, FState.putGen, FState.emitAt]
                · simp only [FState.createBlock, FState.pushInst, FState.eraseTerminator,
                    FState.drew, FState.putGen, FState.emitAt, length_appendInsts,
                    length_updBlock, List.length_append, List.length_singleton]
                  omega
      · rfl

/-- The splice loop calls `genFakeFlow` with the entry block outside the candidate list
only, when no block branches to the entry block at the start. -/
theorem spliceLoopWith_eq_entry (rnd : Nat → Nat) {ng : Nat}
    {fake : Nat → Nat → FState → Option FState}
    (hf : ∀ D b t, EntryOut t → fake D b t = genFakeFlow rnd ng D b t)
    (rest : List Nat) : ∀ (s : FState) (changed : Bool), EntryFree s.blocks s.allBB →
      spliceLoopWith fake rnd ng rest s changed = spliceLoop rnd ng rest s changed := by
  induction rest with
  | nil => intro s changed _; rfl
  | cons B rest ih =>
    intro s changed hE
    have hstep : spliceStepWith fake rnd ng s changed B = spliceStep rnd ng s changed B := by
      rw [← spliceStepWith_genFakeFlow]
      exact spliceStepWith_congr_entry hf s changed B hE.entryOut
    simp only [spliceLoopWith, spliceLoop, hstep]
    cases hs : spliceStep rnd ng s changed B with
    | none => rfl
    | some r =>
      obtain ⟨s1, c1⟩ := r
      exact ih s1 c1 (spliceStep_EntryFree hE hs)

/-- C23 (the entry block stays free of predecessors): for every well-formed function in
which no block branches to the entry block (block 0) and all draws (the scratch pool
being non-empty), the loop of `runOnFunction` runs to its end and `runOnFunction` returns
the blocks it leaves; the entry block is not among the blocks the loop goes through, not
in the candidate list the loop starts from nor in the one it ends with, and the base case
of `genFakeFlow` is executed only on candidate lists without it, in that replacing the
base case by anything that agrees with it on such lists leaves the result as it is; the
entry block is returned as it was; and no block of the function returned branches to
it. -/
theorem runOnFunction_entry_free (rnd : Nat → Nat) (ng : Nat) (F : List BasicBlock)
    (pos next : Nat) (hng : 0 < ng) (hF : wellFormed F = true)
    (hpred : ∀ B ∈ F, 0 ∉ blockSuccessors B) :
    ∃ s changed,
      spliceLoop rnd ng (collectFrom 0 F).tail
        { blocks := F, allBB := (collectFrom 0 F).tail, pos := pos, next := next } false
        = some (s, changed) ∧
      runOnFunction rnd ng F pos next = some (s.blocks, changed) ∧
      0 ∉ (collectFrom 0 F).tail ∧ 0 ∉ s.allBB ∧
      (∀ base : Nat → FState → Option FState,
        (∀ block t, 0 ∉ t.allBB → base block t = genFakeFlow rnd ng 0 block t) →
        runOnFunctionWith (genFakeFlowWith base rnd ng) rnd ng F pos next
          = runOnFunction rnd ng F pos next) ∧
      s.blocks[0]? = F[0]? ∧
      ∀ B ∈ s.blocks, 0 ∉ blockSuccessors B := by
  have h0 := zero_not_mem_collectFrom_tail F
  obtain ⟨s, changed, hloop, -, -⟩ := spliceLoop_CI rnd hng (collectFrom 0 F).tail
    { blocks := F, allBB := (collectFrom 0 F).tail, pos := pos, next := next } false
    (CI_start F hF) (by
      intro B hB
      obtain ⟨-, B1, hB1, -⟩ := collectFrom_spec F 0 B (List.mem_of_mem_tail hB)
      exact (List.getElem?_eq_some_iff.1 hB1).1)
  have hrun : runOnFunction rnd ng F pos next = some (s.blocks, changed) := by
    unfold runOnFunction
    dsimp only
    split
    · rename_i hle
      have htail : (collectFrom 0 F).tail = [] := by
        cases hc : collectFrom 0 F with
        | nil => rfl
        | cons a l =>
          rw [hc] at hle
          cases l with
          | nil => rfl
          | cons b l => simp at hle
      rw [htail] at hloop
      simp only [spliceLoop, Option.some.injEq, Prod.mk.injEq] at hloop
      rw [← hloop.1, ← hloop.2]
    · rw [hloop]
  have hframe : s.blocks[0]? = F[0]? := by
    obtain ⟨hlen, hall, -⟩ := runOnFunction_Framed hrun
    cases F with
    | nil =>
      unfold runOnFunction at hrun
      simp [collectFrom] at hrun
      rw [← hrun.1]
    | cons E rest =>
      rcases hall 0 (by simp) with h | ⟨hL, -⟩
      · exact h
      · exact absurd hL h0
  refine ⟨s, changed, hloop, hrun, h0, ?_, ?_, hframe, ?_⟩
  · cases F with
    | nil =>
      simp only [collectFrom, List.tail_nil, spliceLoop, Option.some.injEq,
        Prod.mk.injEq] at hloop
      rw [← hloop.1]
      simp
    | cons E rest =>
      exact (spliceLoop_EntryFree _ _ s false changed ⟨by simp, h0, hpred⟩ hloop).2.1
  · intro base hbase
    unfold runOnFunctionWith runOnFunction
    dsimp only
    split
    · rfl
    · cases F with
      | nil => rfl
      | cons E rest =>
        rw [spliceLoopWith_eq_entry rnd
          (fun D b t ht => genFakeFlowWith_eq_entry (fun bl u hu => hbase bl u hu.2) D b t ht)
          _ _ false ⟨by simp, h0, hpred⟩]
  · cases F with
    | nil =>
      simp only [collectFrom, List.tail_nil, spliceLoop, Option.some.injEq,
        Prod.mk.injEq] at hloop
      rw [← hloop.1]
      simp
    | cons E rest =>
      exact (spliceLoop_EntryFree _ _ s false changed ⟨by simp, h0, hpred⟩ hloop).2.2

/-- C23 at a concrete input: the function `entry -> a -> b`. -/
theorem runOnFunction_entry_free_witness :
    0 < 1 ∧ wellFormed chain3 = true ∧ (∀ B ∈ chain3, 0 ∉ blockSuccessors B) ∧
    ∃ s changed,
      spliceLoop (tape [1, 10, 0, 1, 15, 0, 8]) 1 (collectFrom 0 chain3).tail
        { blocks := chain3, allBB := (collectFrom 0 chain3).tail, pos := 0, next := 0 } false
        = some (s, changed) ∧
      runOnFunction (tape [1, 10, 0, 1, 15, 0, 8]) 1 chain3 0 0 = some (s.blocks, changed) ∧
      0 ∉ (collectFrom 0 chain3).tail ∧ 0 ∉ s.allBB ∧
      (∀ base : Nat → FState → Option FState,
        (∀ block t, 0 ∉ t.allBB →
          base block t = genFakeFlow (tape [1, 10, 0, 1, 15, 0, 8]) 1 0 block t) →
        runOnFunctionWith (genFakeFlowWith base (tape [1, 10, 0, 1, 15, 0, 8]) 1)
            (tape [1, 10, 0, 1, 15, 0, 8]) 1 chain3 0 0
          = runOnFunction (tape [1, 10, 0, 1, 15, 0, 8]) 1 chain3 0 0) ∧
      s.blocks[0]? = chain3[0]? ∧
      ∀ B ∈ s.blocks, 0 ∉ blockSuccessors B :=
  ⟨by decide, by decide, by decide,
   runOnFunction_entry_free (tape [1, 10, 0, 1, 15, 0, 8]) 1 chain3 0 0 (by decide)
     (by decide) (by decide)⟩

end Obf
